import Mathlib

/-!
# Weather statistics: containers and statistics routines

A shallow embedding of the generic containers of the weather-statistics
program (`BST.h`, `Vector.h`) and of the routines of `Statistics.h`, followed
by the properties established about them.

Conventions of the embedding.

* A `Node<T>*` is a value of the inductive type `Node T`: `Node.null` is the
  `NULL` pointer, `Node.mk data left right` a heap node.  Each structure owns
  its nodes exclusively, so pointer identity carries no information.  Where a
  property is about two objects and the storage they own, the containers are
  embedded a second time with addresses and an explicit free store
  (`VectorObj` on `Blocks`, tree pointers on `Cells`), and tied to the value
  embedding by `VectorObj.view` and `Cells.Rep`.
* The key type `T` of the tree comes with `<`, `>` and `==`; it is taken to be
  linearly ordered, as `std::string` is.
* The traversal callback `void (*process)(const T&)` acts on state outside the
  tree; it is embedded as a state transformer `T → σ → σ`.
* `int` is `Int`.  The two computations of `Vector.h` that can leave the
  32-bit range, `capacity * 2` and `size++`, are wrapped with `wrapInt`;
  signed overflow has no defined behaviour in the source, so the properties
  carry the hypothesis that it does not occur wherever they depend on it.
* The block `data` points to is a list of `capacity` slots.  Reads and writes
  outside the block, undefined in the source, are inert in the model.
* A function that can throw returns `Except Exn`.
* `float` is an abstract carrier with the operations the source uses
  (`FloatOps`); the statistics routines are the templates at `T = float`.
  What is proved about them holds for every such arithmetic.  Concrete runs
  use `ExtRat`, exact rationals with NaN and the infinities, and `F32`, the
  IEEE 754 binary32 values with every operation rounded to nearest.
* A `std::string` is a `String`, one `Char` per `char`; a
  `std::map<std::string, V>` is the list of its entries in ascending key
  order (`StdMap`).  The library calls of `DataUtils.cpp` (`operator<<` on an
  `int`, `substr`, `std::stoi`, `find`) are embedded after the C++ standard.
* A function that returns a container by value returns the container; where
  the source copies an existing one (`return it->second`), the result is
  `Vector.copyConstruct` of it.
* `FileHandler::processCSVLine` acts on the pair of `dateTree` and `dataMap`.
  A `std::stringstream` being read is an `IStream`; `operator>>` and
  `std::getline` are embedded after the C++ standard; the locals the source
  leaves uninitialised hold the values of an `Indeterminate`; `std::stof` and
  the literal `3.6f` of `Menu::writeMonthStats` are parameters, as `float` is.
-/

namespace WeatherStats

/-! ## BST.h -/

/-- A `Node<T>*`: either `NULL` or a node holding `data`, `left`, `right`. -/
inductive Node (T : Type) where
  | null : Node T
  | mk (data : T) (left : Node T) (right : Node T) : Node T
  deriving DecidableEq, Repr

namespace Node

variable {T : Type} {σ : Type}

/-- `Node<T>* BST<T>::copy(Node<T>* node)`. -/
def copy : Node T → Node T
  | null => null
  | mk d l r => mk d (copy l) (copy r)

/-- `Node<T>* BST<T>::insert(Node<T>* node, const T& value)`. -/
def insert [LinearOrder T] : Node T → T → Node T
  | null, value => mk value null null
  | mk d l r, value =>
    if value < d then mk d (insert l value) r
    else if value > d then mk d l (insert r value)
    else mk d l r

/-- `bool BST<T>::search(Node<T>* node, const T& value) const`. -/
def search [LinearOrder T] : Node T → T → Bool
  | null, _ => false
  | mk d l r, value =>
    if d = value then true
    else if value < d then search l value
    else search r value

/-- `void BST<T>::InOrder(Node<T>* node, void (*process)(const T&)) const`. -/
def InOrder (process : T → σ → σ) : Node T → σ → σ
  | null, s => s
  | mk d l r, s => InOrder process r (process d (InOrder process l s))

/-- `void BST<T>::PreOrder(Node<T>* node, void (*process)(const T&)) const`. -/
def PreOrder (process : T → σ → σ) : Node T → σ → σ
  | null, s => s
  | mk d l r, s => PreOrder process r (PreOrder process l (process d s))

/-- `void BST<T>::PostOrder(Node<T>* node, void (*process)(const T&)) const`. -/
def PostOrder (process : T → σ → σ) : Node T → σ → σ
  | null, s => s
  | mk d l r, s => process d (PostOrder process r (PostOrder process l s))

/-- The keys stored in a subtree, left subtree first, then the node, then the
right subtree. -/
def keys : Node T → List T
  | null => []
  | mk d l r => keys l ++ d :: keys r

/-- The strict search-tree order: at every node, each key of the left subtree
is smaller than the node's key and each key of the right subtree is larger. -/
def Ordered [LinearOrder T] : Node T → Prop
  | null => True
  | mk d l r => (∀ x ∈ keys l, x < d) ∧ (∀ x ∈ keys r, d < x) ∧ Ordered l ∧ Ordered r

instance decidableOrdered [LinearOrder T] : (t : Node T) → Decidable (Ordered t)
  | null => isTrue trivial
  | mk d l r =>
    have := decidableOrdered l
    have := decidableOrdered r
    inferInstanceAs (Decidable ((∀ x ∈ keys l, x < d) ∧ (∀ x ∈ keys r, d < x) ∧ Ordered l ∧ Ordered r))

end Node

/-- The class `BST<T>`: its only member is the `root` pointer. -/
structure BST (T : Type) where
  root : Node T
  deriving DecidableEq, Repr

namespace BST

variable {T : Type} {σ : Type}

/-- `BST<T>::BST()`: the empty tree. -/
def empty : BST T := ⟨Node.null⟩

/-- `BST<T>::BST(const BST<T>& other)`. -/
def copyConstruct (other : BST T) : BST T := ⟨Node.copy other.root⟩

/-- `void BST<T>::insert(const T& value)`. -/
def insert [LinearOrder T] (t : BST T) (value : T) : BST T := ⟨Node.insert t.root value⟩

/-- `bool BST<T>::search(const T& value) const`. -/
def search [LinearOrder T] (t : BST T) (value : T) : Bool := Node.search t.root value

/-- `void BST<T>::InOrder(void (*process)(const T&)) const`. -/
def InOrder (t : BST T) (process : T → σ → σ) (s : σ) : σ := Node.InOrder process t.root s

/-- `void BST<T>::PreOrder(void (*process)(const T&)) const`. -/
def PreOrder (t : BST T) (process : T → σ → σ) (s : σ) : σ := Node.PreOrder process t.root s

/-- `void BST<T>::PostOrder(void (*process)(const T&)) const`. -/
def PostOrder (t : BST T) (process : T → σ → σ) (s : σ) : σ := Node.PostOrder process t.root s

/-- The callback that appends the visited key to a log. -/
def record (x : T) (log : List T) : List T := log ++ [x]

/-- The sequence of keys the callback receives during `InOrder`. -/
def inOrderVisits (t : BST T) : List T := t.InOrder record []

/-- The tree obtained from the empty tree by inserting the keys one by one. -/
def insertAll [LinearOrder T] (ks : List T) : BST T := ks.foldl insert empty

end BST


/-! ## Vector.h -/

/-- The largest value of a 32-bit `int`. -/
def INT_MAX : Int := 2147483647

/-- The result of 32-bit `int` arithmetic whose exact value is `x`: the
representative of `x` modulo `2^32` in `[-2^31, 2^31)`. -/
def wrapInt (x : Int) : Int := (x + 2147483648) % 4294967296 - 2147483648

/-- The exceptions thrown by the containers, the statistics routines, the
setters of `Date` and `MyTime` and the parsers of `FileHandler.cpp`. -/
inductive Exn where
  | out_of_range (what : String) : Exn
  | invalid_argument (what : String) : Exn
  | runtime_error (what : String) : Exn
  deriving DecidableEq, Repr

/-- The block returned by `new T[n]`: `n` slots of unspecified content, for
which `default` stands. -/
def alloc {T : Type} [Inhabited T] (n : Int) : List T := List.replicate n.toNat default

/-- The raw read `block[i]`; outside the block, where the source has no
defined behaviour, it yields `default`. -/
def load {T : Type} [Inhabited T] (block : List T) (i : Int) : T :=
  if 0 ≤ i then block.getD i.toNat default else default

/-- The raw write `block[i] = x`; outside the block, where the source has no
defined behaviour, it leaves the block unchanged. -/
def store {T : Type} (block : List T) (i : Int) (x : T) : List T :=
  if 0 ≤ i then block.set i.toNat x else block

/-- The loop `for (int i = 0; i < size; i++) dst[i] = src[i];`. -/
def copyLoop {T : Type} [Inhabited T] (src : List T) (size : Int) (dst : List T) : List T :=
  (List.range size.toNat).foldl (fun tmp (i : Nat) => store tmp (i : Int) (load src (i : Int))) dst

/-- The loop `for (int i = 0; i < size; i++) data[i] = defaultValue;`. -/
def fillLoop {T : Type} (size : Int) (defaultValue : T) (data : List T) : List T :=
  (List.range size.toNat).foldl (fun d (i : Nat) => store d (i : Int) defaultValue) data

/-- The class `Vector<T>`: the block `data` points to, `size` and `capacity`. -/
structure Vector (T : Type) where
  data : List T
  size : Int
  capacity : Int
  deriving DecidableEq, Repr

namespace Vector

variable {T : Type} [Inhabited T]

/-- `Vector<T>::Vector(int n)`. -/
def new (n : Int) : Vector T :=
  let capacity := if n > 0 then n else 1
  { data := alloc capacity, size := 0, capacity := capacity }

/-- `Vector<T>::Vector(int n, const T& defaultValue)`. -/
def newFilled (n : Int) (defaultValue : T) : Vector T :=
  let capacity := if n > 0 then n else 1
  { data := fillLoop n defaultValue (alloc capacity), size := n, capacity := capacity }

/-- `Vector<T>::Vector(const Vector<T>& other)`. -/
def copyConstruct (other : Vector T) : Vector T :=
  { data := copyLoop other.data other.size (alloc other.capacity),
    size := other.size, capacity := other.capacity }

/-- `void Vector<T>::resize()`. -/
def resize (v : Vector T) : Vector T :=
  let newCapacity := wrapInt (v.capacity * 2)
  let tmp := copyLoop v.data v.size (alloc newCapacity)
  { data := tmp, size := v.size, capacity := newCapacity }

/-- `void Vector<T>::pushBack(const T& element)`. -/
def pushBack (v : Vector T) (element : T) : Vector T :=
  let w := if v.size = v.capacity then v.resize else v
  { data := store w.data w.size element, size := wrapInt (w.size + 1), capacity := w.capacity }

/-- `void Vector<T>::popBack()`. -/
def popBack (v : Vector T) : Vector T :=
  if v.size > 0 then { v with size := v.size - 1 } else v

/-- `void Vector<T>::Clear()`. -/
def Clear (v : Vector T) : Vector T := { v with size := 0 }

/-- `int Vector<T>::GetSize() const`. -/
def GetSize (v : Vector T) : Int := v.size

/-- `T& Vector<T>::operator[](int index)`. -/
def index (v : Vector T) (index : Int) : Except Exn T :=
  if index < 0 ∨ index ≥ v.size then throw (Exn.out_of_range "Index out of range")
  else pure (load v.data index)

/-- `const T& Vector<T>::operator[](int index) const`. -/
def indexConst (v : Vector T) (index : Int) : Except Exn T :=
  if index < 0 ∨ index ≥ v.size then throw (Exn.out_of_range "Index out of range")
  else pure (load v.data index)

/-- The vector after the calls `pushBack(x)` for the `x` of `xs`, in order. -/
def pushAll (v : Vector T) (xs : List T) : Vector T := xs.foldl pushBack v

/-- The elements `e_0 .. e_{size-1}` a vector holds. -/
def elems (v : Vector T) : List T :=
  (List.range v.size.toNat).map (fun (i : Nat) => load v.data (i : Int))

/-- The representation invariant of a live vector: `data` points to a block
of `capacity` slots, and `capacity` is a positive `int`. -/
def Allocated (v : Vector T) : Prop :=
  1 ≤ v.capacity ∧ v.capacity ≤ INT_MAX ∧ (v.data.length : Int) = v.capacity

instance decidableAllocated (v : Vector T) : Decidable (Allocated v) :=
  inferInstanceAs (Decidable (1 ≤ v.capacity ∧ v.capacity ≤ INT_MAX ∧ (v.data.length : Int) = v.capacity))

end Vector

/-! ## Statistics.h -/

/-- The arithmetic of `float` the routines rely on.  The carrier stands for
the `float` values with all NaN payloads identified (the program only ever
inspects a NaN through `std::isnan`); the operations are the ones of the
source, and the only laws assumed are that NaN is recognised by `isnan` and
propagates through the arithmetic operations.  Rounding, overflow and the
infinities are left to the instance. -/
class FloatOps (F : Type) where
  /-- The macro `NAN`. -/
  nan : F
  /-- The function `std::isnan`. -/
  isnan : F → Bool
  /-- The literal `0.0f`. -/
  zero : F
  /-- The conversion of an `int` to `float`. -/
  ofInt : Int → F
  /-- The operator `+`. -/
  add : F → F → F
  /-- The operator `-`. -/
  sub : F → F → F
  /-- The operator `*`. -/
  mul : F → F → F
  /-- The operator `/`. -/
  div : F → F → F
  /-- The function `std::sqrt`. -/
  sqrt : F → F
  /-- The function `std::round`. -/
  round : F → F
  /-- The function `std::abs`. -/
  abs : F → F
  /-- The value `std::pow(10.0, n)` converted to `float`. -/
  pow10 : Int → F
  /-- The operator `==`. -/
  eq : F → F → Bool
  /-- The operator `>=`. -/
  ge : F → F → Bool
  isnan_iff : ∀ x, isnan x = true ↔ x = nan
  add_nan : ∀ x, add x nan = nan
  nan_add : ∀ x, add nan x = nan
  sub_nan : ∀ x, sub x nan = nan
  nan_sub : ∀ x, sub nan x = nan
  mul_nan : ∀ x, mul x nan = nan
  nan_mul : ∀ x, mul nan x = nan
  div_nan : ∀ x, div x nan = nan
  nan_div : ∀ x, div nan x = nan
  sqrt_nan : sqrt nan = nan

/-- An unspecified `float` slot. -/
instance (priority := low) floatInhabited {F : Type} [FloatOps F] : Inhabited F := ⟨FloatOps.zero⟩

section Statistics

open FloatOps

variable {F : Type} [FloatOps F]

/-- `template<typename T> T RoundVal(T val, int n)`. -/
def RoundVal (val : F) (n : Int) : F :=
  if isnan val then nan
  else
    let factor : F := pow10 n
    div (round (mul val factor)) factor

/-- The body of the loop of `mean` at index `i`, on the pair `(sum, n)`. -/
def meanStep (data : Vector F) (acc : F × Int) (i : Nat) : Except Exn (F × Int) := do
  let v ← data.indexConst (i : Int)
  if !(isnan v) then pure (add acc.1 v, acc.2 + 1) else pure acc

/-- `template<typename T> float mean(const Vector<T>& data)`.  The counter
`n` never exceeds `data.GetSize()`, so `n++` stays an `int`. -/
def mean (data : Vector F) : Except Exn F := do
  let r ← (List.range data.GetSize.toNat).foldlM (meanStep data) (zero, 0)
  pure (if r.2 > 0 then div r.1 (ofInt r.2) else nan)

/-- The body of the loop of `stdev` at index `i`, on the pair `(sum2, n)`. -/
def stdevStep (data : Vector F) (avg : F) (acc : F × Int) (i : Nat) : Except Exn (F × Int) := do
  let v ← data.indexConst (i : Int)
  if !(isnan v) then pure (add acc.1 (mul (sub v avg) (sub v avg)), acc.2 + 1) else pure acc

/-- `template<typename T> float stdev(const Vector<T>& data)`. -/
def stdev (data : Vector F) : Except Exn F := do
  let avg ← mean data
  if isnan avg then pure nan
  else do
    let r ← (List.range data.GetSize.toNat).foldlM (stdevStep data avg) (zero, 0)
    pure (if r.2 ≤ 1 then nan else sqrt (div r.1 (ofInt (r.2 - 1))))

/-- The local variables of `pearson`. -/
structure PearsonAcc (F : Type) where
  sumX : F
  sumY : F
  sumXY : F
  sumX2 : F
  sumY2 : F
  n : Int

/-- The body of the loop of `pearson` at index `i`. -/
def pearsonStep (x y : Vector F) (acc : PearsonAcc F) (i : Nat) : Except Exn (PearsonAcc F) := do
  let xv ← x.indexConst (i : Int)
  let yv ← y.indexConst (i : Int)
  if isnan xv || isnan yv then pure acc
  else pure (PearsonAcc.mk (add acc.sumX xv) (add acc.sumY yv) (add acc.sumXY (mul xv yv))
    (add acc.sumX2 (mul xv xv)) (add acc.sumY2 (mul yv yv)) (acc.n + 1))

/-- The part of `pearson` after the loop. -/
def pearsonResult (s : PearsonAcc F) : F :=
  if s.n < 2 then nan
  else
    let num := sub s.sumXY (div (mul s.sumX s.sumY) (ofInt s.n))
    let denom := sqrt (mul (sub s.sumX2 (div (mul s.sumX s.sumX) (ofInt s.n)))
      (sub s.sumY2 (div (mul s.sumY s.sumY) (ofInt s.n))))
    if eq denom zero then zero else RoundVal (div num denom) 2

/-- `template<typename T> float pearson(const Vector<T>& x, const Vector<T>& y)`. -/
def pearson (x y : Vector F) : Except Exn F := do
  if x.GetSize ≠ y.GetSize ∨ x.GetSize = 0 then
    throw (Exn.invalid_argument "Vector dimensions mismatch")
  else do
    let s ← (List.range x.GetSize.toNat).foldlM (pearsonStep x y)
      (PearsonAcc.mk zero zero zero zero zero 0)
    pure (pearsonResult s)

/-! ### The statistics as the specification words them -/

/-- The non-sentinel entries of a vector, in index order. -/
def validEntries (v : Vector F) : List F := v.elems.filter (fun e => !(isnan e))

/-- The sum of a list of values, accumulated from `0.0f` in list order. -/
def fsum (xs : List F) : F := xs.foldl add zero

/-- The mean as specified: the sentinel without a valid entry, otherwise the
sum of the valid entries divided by their count. -/
def meanSpec (v : Vector F) : F :=
  if (validEntries v).length = 0 then nan
  else div (fsum (validEntries v)) (ofInt (validEntries v).length)

/-- The sample standard deviation as specified: the sentinel with fewer than
two valid entries, otherwise the square root of the sum of the squared
deviations from the mean divided by the count less one. -/
def stdevSpec (v : Vector F) : F :=
  if (validEntries v).length < 2 then nan
  else
    let avg := div (fsum (validEntries v)) (ofInt (validEntries v).length)
    sqrt (div (fsum ((validEntries v).map (fun e => mul (sub e avg) (sub e avg))))
      (ofInt ((validEntries v).length - 1)))

/-- The valid pairs of two vectors: the positions where neither element is
the sentinel. -/
def validPairs (x y : Vector F) : List (F × F) :=
  (List.zip x.elems y.elems).filter (fun p => !(isnan p.1) && !(isnan p.2))

/-- The correlation as specified, from the sums over the valid pairs. -/
def pearsonSpec (x y : Vector F) : F :=
  let ps := validPairs x y
  let n : Int := ps.length
  let Sx := fsum (ps.map (fun p => p.1))
  let Sy := fsum (ps.map (fun p => p.2))
  let Sxy := fsum (ps.map (fun p => mul p.1 p.2))
  let Sxx := fsum (ps.map (fun p => mul p.1 p.1))
  let Syy := fsum (ps.map (fun p => mul p.2 p.2))
  if n < 2 then nan
  else
    let numerator := sub Sxy (div (mul Sx Sy) (ofInt n))
    let denominator := sqrt (mul (sub Sxx (div (mul Sx Sx) (ofInt n)))
      (sub Syy (div (mul Sy Sy) (ofInt n))))
    if eq denominator zero then zero else RoundVal (div numerator denominator) 2

end Statistics

/-! ### A reference arithmetic

Exact rational arithmetic extended with the special values of IEEE 754: one
NaN and the two infinities.  It rounds nothing, so it agrees with `float`
wherever the `float` result is exact. -/

/-- A rational number, an infinity with its sign, or NaN. -/
inductive ExtRat where
  | nan : ExtRat
  | inf (negative : Bool) : ExtRat
  | fin (q : ℚ) : ExtRat
  deriving DecidableEq

namespace ExtRat

/-- Negation. -/
def neg : ExtRat → ExtRat
  | nan => nan
  | inf s => inf (!s)
  | fin q => fin (-q)

/-- Addition: opposite infinities add up to NaN. -/
def add : ExtRat → ExtRat → ExtRat
  | fin p, fin q => fin (p + q)
  | fin _, inf s => inf s
  | inf s, fin _ => inf s
  | inf s, inf t => if s = t then inf s else nan
  | _, _ => nan

/-- Subtraction. -/
def sub (x y : ExtRat) : ExtRat := add x (neg y)

/-- Multiplication: zero times an infinity is NaN. -/
def mul : ExtRat → ExtRat → ExtRat
  | fin p, fin q => fin (p * q)
  | fin p, inf s => if p = 0 then nan else inf (s != decide (p < 0))
  | inf s, fin q => if q = 0 then nan else inf (s != decide (q < 0))
  | inf s, inf t => inf (s != t)
  | _, _ => nan

/-- Division: `0/0` and `inf/inf` are NaN, a nonzero value over zero is an
infinity. -/
def div : ExtRat → ExtRat → ExtRat
  | fin p, fin q =>
    if q = 0 then (if p = 0 then nan else inf (decide (p < 0))) else fin (p / q)
  | fin _, inf _ => fin 0
  | inf s, fin q => inf (s != decide (q < 0))
  | _, _ => nan

/-- The integer square root: the largest `k` with `k * k ≤ n`. -/
def isqrt (n : Nat) : Nat := (List.range (n + 1)).foldl (fun r k => if k * k ≤ n then k else r) 0

/-- Square root: exact on squares of rationals, rounded down in numerator and
denominator elsewhere; NaN below zero. -/
def sqrt : ExtRat → ExtRat
  | fin q => if q < 0 then nan else fin ((isqrt q.num.toNat : ℚ) / (isqrt q.den : ℚ))
  | inf false => inf false
  | _ => nan

/-- Rounding to the nearest integer, halfway cases away from zero. -/
def round : ExtRat → ExtRat
  | fin q => if 0 ≤ q then fin (⌊q + 1 / 2⌋ : Int) else fin (-(⌊-q + 1 / 2⌋ : Int))
  | x => x

/-- Absolute value. -/
def abs : ExtRat → ExtRat
  | fin q => fin |q|
  | inf _ => inf false
  | nan => nan

/-- Equality as `==` decides it: NaN equals nothing. -/
def eq : ExtRat → ExtRat → Bool
  | fin p, fin q => decide (p = q)
  | inf s, inf t => decide (s = t)
  | _, _ => false

/-- The order as `>=` decides it: NaN compares with nothing. -/
def ge : ExtRat → ExtRat → Bool
  | fin p, fin q => decide (q ≤ p)
  | fin _, inf t => t
  | inf s, fin _ => !s
  | inf s, inf t => !s || t
  | _, _ => false

end ExtRat

instance : FloatOps ExtRat where
  nan := ExtRat.nan
  isnan := fun x => decide (x = ExtRat.nan)
  zero := ExtRat.fin 0
  ofInt := fun n => ExtRat.fin n
  add := ExtRat.add
  sub := ExtRat.sub
  mul := ExtRat.mul
  div := ExtRat.div
  sqrt := ExtRat.sqrt
  round := ExtRat.round
  abs := ExtRat.abs
  pow10 := fun n => ExtRat.fin ((10 : ℚ) ^ n)
  eq := ExtRat.eq
  ge := ExtRat.ge
  isnan_iff := fun x => by simp
  add_nan := fun x => by cases x <;> rfl
  nan_add := fun x => by cases x <;> rfl
  sub_nan := fun x => by cases x <;> rfl
  nan_sub := fun x => by cases x <;> rfl
  mul_nan := fun x => by cases x <;> rfl
  nan_mul := fun x => by cases x <;> rfl
  div_nan := fun x => by cases x <;> rfl
  nan_div := fun x => by cases x <;> rfl
  sqrt_nan := rfl

/-! ### Single precision

The instance `ExtRat` computes without rounding.  `F32` is the IEEE 754
binary32 format, the `float` of the usual platforms: every operation is the
exact operation of `ExtRat` followed by rounding to the nearest value with a
24-bit significand, halfway cases to the even significand, exponents of the
last place from `-149` (subnormal values) to `104`, and an infinity from
`2^128` on.  The two zeros are not told apart; `std::pow(10.0, n)` converted
to `float` is the value nearest to `10^n`, and the conversion of an `int` the
value nearest to it. -/

namespace F32

/-- The number of halvings that bring `n` below 2, at most `fuel` of them:
`⌊log₂ n⌋` for `1 ≤ n ≤ fuel`. -/
def log2Aux : Nat → Nat → Nat
  | 0, _ => 0
  | fuel + 1, n => if n < 2 then 0 else log2Aux fuel (n / 2) + 1

/-- The integer `⌊log₂ q⌋` for a rational `q ≠ 0` taken in absolute value. -/
def floorLog2 (q : ℚ) : Int :=
  let k : Int := (log2Aux q.num.natAbs q.num.natAbs : Int) - (log2Aux q.den q.den : Int)
  if (2 : ℚ) ^ k ≤ (if q < 0 then -q else q) then k else k - 1

/-- The nearest integer to a rational that is not negative, halfway cases to
the even one. -/
def roundEven (q : ℚ) : Int :=
  let f : Int := ⌊q⌋
  if q - f < 1 / 2 then f
  else if 1 / 2 < q - f then f + 1
  else if f % 2 = 0 then f else f + 1

/-- The binary32 value nearest to a rational. -/
def ofRat (q : ℚ) : ExtRat :=
  if q = 0 then ExtRat.fin 0
  else
    let a : ℚ := if q < 0 then -q else q
    let e : Int := max (floorLog2 q - 23) (-149)
    let r : ℚ := (roundEven (a / (2 : ℚ) ^ e) : ℚ) * (2 : ℚ) ^ e
    if (2 : ℚ) ^ (128 : Int) ≤ r then ExtRat.inf (decide (q < 0))
    else ExtRat.fin (if q < 0 then -r else r)

/-- Rounding of an exact result. -/
def rnd : ExtRat → ExtRat
  | ExtRat.fin q => ofRat q
  | x => x

/-- The largest integer below `2^24` whose square is at most `t`, found bit
by bit from bit 23 down. -/
def sqrtBits (t : ℚ) : Nat :=
  (List.range 24).foldl
    (fun r (i : Nat) => if (((r + 2 ^ (23 - i) : Nat) : ℚ)) ^ 2 ≤ t then r + 2 ^ (23 - i) else r) 0

/-- The binary32 value nearest to the square root of a positive rational. -/
def sqrtRat (q : ℚ) : ExtRat :=
  let e : Int := floorLog2 q / 2 - 23
  let t : ℚ := q / (4 : ℚ) ^ e
  let m : Nat := sqrtBits t
  let mid : ℚ := ((m : ℚ) + 1 / 2) ^ 2
  let m1 : Nat := if t < mid then m else if mid < t then m + 1 else if m % 2 = 0 then m else m + 1
  ExtRat.fin ((m1 : ℚ) * (2 : ℚ) ^ e)

/-- The function `std::sqrt` on `float`. -/
def sqrt : ExtRat → ExtRat
  | ExtRat.fin q => if q < 0 then ExtRat.nan else if q = 0 then ExtRat.fin 0 else sqrtRat q
  | ExtRat.inf false => ExtRat.inf false
  | _ => ExtRat.nan

end F32

/-- A `float` in the binary32 format: a rational with a 24-bit significand,
an infinity, or NaN. -/
structure F32 where
  /-- The value. -/
  val : ExtRat
  deriving DecidableEq

/-- The `float` nearest to a decimal literal or parsed field. -/
def F32.lit (q : ℚ) : F32 := ⟨F32.ofRat q⟩

instance : FloatOps F32 where
  nan := ⟨ExtRat.nan⟩
  isnan := fun x => decide (x.val = ExtRat.nan)
  zero := ⟨ExtRat.fin 0⟩
  ofInt := fun n => ⟨F32.ofRat n⟩
  add := fun x y => ⟨F32.rnd (ExtRat.add x.val y.val)⟩
  sub := fun x y => ⟨F32.rnd (ExtRat.sub x.val y.val)⟩
  mul := fun x y => ⟨F32.rnd (ExtRat.mul x.val y.val)⟩
  div := fun x y => ⟨F32.rnd (ExtRat.div x.val y.val)⟩
  sqrt := fun x => ⟨F32.sqrt x.val⟩
  round := fun x => ⟨F32.rnd (ExtRat.round x.val)⟩
  abs := fun x => ⟨ExtRat.abs x.val⟩
  pow10 := fun n => ⟨F32.ofRat ((10 : ℚ) ^ n)⟩
  eq := fun x y => ExtRat.eq x.val y.val
  ge := fun x y => ExtRat.ge x.val y.val
  isnan_iff := fun x => by
    cases x with
    | mk v => simp
  add_nan := fun x => by cases x with | mk v => cases v <;> rfl
  nan_add := fun x => by cases x with | mk v => cases v <;> rfl
  sub_nan := fun x => by cases x with | mk v => cases v <;> rfl
  nan_sub := fun x => by cases x with | mk v => cases v <;> rfl
  mul_nan := fun x => by cases x with | mk v => cases v <;> rfl
  nan_mul := fun x => by cases x with | mk v => cases v <;> rfl
  div_nan := fun x => by cases x with | mk v => cases v <;> rfl
  nan_div := fun x => by cases x with | mk v => cases v <;> rfl
  sqrt_nan := rfl

/-! ### Shape of a tree -/

namespace Node

variable {T : Type}

/-- The number of nodes of a subtree. -/
def size : Node T → Nat
  | null => 0
  | mk _ l r => size l + 1 + size r

/-- The key of the node found by following a path of links from the root of
a subtree (`false` is `left`, `true` is `right`), if there is a node there. -/
def keyAt : Node T → List Bool → Option T
  | null, _ => none
  | mk d _ _, [] => some d
  | mk _ l _, false :: p => keyAt l p
  | mk _ _ r, true :: p => keyAt r p

/-- The path of the descent for a key: left when the key is smaller than the
node's key, right when it is larger, until an empty link or the key is met. -/
def descent [LinearOrder T] : Node T → T → List Bool
  | null, _ => []
  | mk d l r, k =>
    if k < d then false :: descent l k
    else if k > d then true :: descent r k
    else []

/-- The keys of a subtree in the order self, left, right. -/
def preKeys : Node T → List T
  | null => []
  | mk d l r => d :: (preKeys l ++ preKeys r)

/-- The keys of a subtree in the order left, right, self. -/
def postKeys : Node T → List T
  | null => []
  | mk d l r => postKeys l ++ postKeys r ++ [d]

end Node

namespace BST

variable {T : Type}

/-- The sequence of keys the callback receives during `PreOrder`. -/
def preOrderVisits (t : BST T) : List T := t.PreOrder record []

/-- The sequence of keys the callback receives during `PostOrder`. -/
def postOrderVisits (t : BST T) : List T := t.PostOrder record []

end BST

/-! ### Copy assignment and the size invariant of `Vector.h` -/

/-- The smallest value of a 32-bit `int`. -/
def INT_MIN : Int := -2147483648

namespace Vector

variable {T : Type} [Inhabited T]

/-- `Vector<T>& Vector<T>::operator=(const Vector<T>& other)`; `sameObject`
is the outcome of the test `this == &other`. -/
def assign (self other : Vector T) (sameObject : Bool) : Vector T :=
  if !sameObject then
    { data := copyLoop other.data other.size (alloc other.capacity),
      size := other.size, capacity := other.capacity }
  else self

/-- The size invariant: `capacity >= size`, the capacity being a positive
`int` and the size an `int`. -/
def SizeInv (v : Vector T) : Prop :=
  INT_MIN ≤ v.size ∧ v.size ≤ v.capacity ∧ 1 ≤ v.capacity ∧ v.capacity ≤ INT_MAX

instance decidableSizeInv (v : Vector T) : Decidable (SizeInv v) :=
  inferInstanceAs
    (Decidable (INT_MIN ≤ v.size ∧ v.size ≤ v.capacity ∧ 1 ≤ v.capacity ∧ v.capacity ≤ INT_MAX))

/-- The vectors a program can build: results of the constructors, called
with `int` arguments, and of the operations, called where `capacity * 2`
does not overflow. -/
inductive Reachable : Vector T → Prop where
  | new (n : Int) : INT_MIN ≤ n → n ≤ INT_MAX → Reachable (Vector.new n)
  | newFilled (n : Int) (x : T) : INT_MIN ≤ n → n ≤ INT_MAX → Reachable (Vector.newFilled n x)
  | copyConstruct (o : Vector T) : Reachable o → Reachable (Vector.copyConstruct o)
  | pushBack (v : Vector T) (x : T) : Reachable v →
      (v.size = v.capacity → v.capacity * 2 ≤ INT_MAX) → Reachable (Vector.pushBack v x)
  | popBack (v : Vector T) : Reachable v → Reachable (Vector.popBack v)
  | Clear (v : Vector T) : Reachable v → Reachable (Vector.Clear v)
  | resize (v : Vector T) : Reachable v → v.capacity * 2 ≤ INT_MAX → Reachable (Vector.resize v)
  | assign (v o : Vector T) : Reachable v → Reachable o → Reachable (Vector.assign v o false)
  | assignSelf (v : Vector T) : Reachable v → Reachable (Vector.assign v v true)

end Vector

/-! ## Date.h, MyTime.h, WeatherEntry.h -/

/-- The class `Date`: its members `day`, `month`, `year`. -/
structure Date where
  day : Int
  month : Int
  year : Int
  deriving DecidableEq, Repr

/-- `Date::Date()`. -/
def Date.new : Date := { day := -1, month := -1, year := -2000 }

/-- The class `MyTime`: its members `hour`, `minute`. -/
structure MyTime where
  hour : Int
  minute : Int
  deriving DecidableEq, Repr

/-- `MyTime::MyTime()`. -/
def MyTime.new : MyTime := { hour := 0, minute := 0 }

/-- `struct WeatherEntry`. -/
structure WeatherEntry (F : Type) where
  date : Date
  time : MyTime
  windSpeed : F
  temperature : F
  solarRadiation : F
  deriving DecidableEq

/-- A default-constructed `WeatherEntry`; its three readings are unspecified. -/
instance weatherEntryInhabited {F : Type} [Inhabited F] : Inhabited (WeatherEntry F) :=
  ⟨{ date := Date.new, time := MyTime.new, windSpeed := default, temperature := default,
     solarRadiation := default }⟩

/-- `typedef Vector<WeatherEntry> WeatherLog`. -/
abbrev WeatherLog (F : Type) : Type := Vector (WeatherEntry F)

/-! ## The standard library as `DataUtils.cpp` uses it -/

/-- A `std::map<std::string, V>`: its entries in iteration order, which is
the strictly ascending order of the keys, compared as `std::string` compares:
lexicographically, character by character. -/
structure StdMap (V : Type) where
  entries : List (String × V)
  sorted : entries.Pairwise (fun a b => a.1.data < b.1.data)

/-- `std::map::find`, `none` standing for `end()`. -/
def StdMap.find {V : Type} (m : StdMap V) (key : String) : Option V :=
  (m.entries.find? (fun p => p.1 == key)).map (fun p => p.2)

/-- `operator<<(int)` on a stream in its initial state: the decimal digits,
after a minus sign for a negative value. -/
def streamInt (n : Int) : String := toString n

/-- `std::string::substr(pos, len)`. -/
def substr (s : String) (pos len : Nat) : Except Exn String :=
  if pos > s.length then throw (Exn.out_of_range "basic_string::substr")
  else pure (String.mk ((s.data.drop pos).take len))

/-- `std::isspace` in the "C" locale. -/
def isspace (c : Char) : Bool := c.toNat = 32 || (9 ≤ c.toNat && c.toNat ≤ 13)

/-- `std::stoi(str)`: leading white space, an optional sign, then the longest
run of decimal digits; `std::invalid_argument` without a digit,
`std::out_of_range` when the value is no `int`. -/
def stoi (s : String) : Except Exn Int :=
  let cs := s.data.dropWhile isspace
  let ds := if cs.head? = some '-' ∨ cs.head? = some '+' then cs.tail else cs
  let digits := ds.takeWhile Char.isDigit
  if digits = [] then throw (Exn.invalid_argument "stoi")
  else
    let v : Int := digits.foldl (fun (acc : Int) c => acc * 10 + ((c.toNat - 48 : Nat) : Int)) 0
    let r : Int := if cs.head? = some '-' then -v else v
    if r < INT_MIN ∨ r > INT_MAX then throw (Exn.out_of_range "stoi") else pure r

/-! ## DataUtils.cpp -/

section DataUtils

variable {F : Type} [FloatOps F]

/-- The key `getRecordsByYearMonth` composes in `keyBuilder`. -/
def buildKey (year month : Int) : String :=
  streamInt year ++ "-" ++ (if month < 10 then "0" else "") ++ streamInt month

/-- `WeatherLog getRecordsByYearMonth(tree, dataMap, year, month)`. -/
def getRecordsByYearMonth (tree : BST String) (dataMap : StdMap (WeatherLog F))
    (year month : Int) : WeatherLog F :=
  let _keys : Vector String := Vector.new 1
  let _visited : Unit := tree.InOrder (fun (_ : String) (u : Unit) => u) ()
  let key := buildKey year month
  match dataMap.find key with
  | some log => Vector.copyConstruct log
  | none => Vector.new 1

/-- The loop of `getRecordsByMonth` over the entries of the map. -/
def getRecordsByMonthLoop (month : Int) :
    List (String × WeatherLog F) → Except Exn (WeatherLog F)
  | [] => pure (Vector.new 1)
  | pair :: rest => do
    let key := pair.1
    let sub ← substr key 5 2
    let foundMonth ← stoi sub
    if foundMonth = month then pure (Vector.copyConstruct pair.2)
    else getRecordsByMonthLoop month rest

/-- `WeatherLog getRecordsByMonth(tree, dataMap, month)`. -/
def getRecordsByMonth (tree : BST String) (dataMap : StdMap (WeatherLog F)) (month : Int) :
    Except Exn (WeatherLog F) :=
  let _keys : Vector String := Vector.new 1
  let _visited : Unit := tree.InOrder (fun (_ : String) (u : Unit) => u) ()
  getRecordsByMonthLoop month dataMap.entries

/-- `Vector<float> extractWindSpeeds(const WeatherLog& records)`. -/
def extractWindSpeeds (records : WeatherLog F) : Except Exn (Vector F) :=
  (List.range records.GetSize.toNat).foldlM
    (fun (wind : Vector F) (i : Nat) => do
      let r ← records.indexConst (i : Int)
      pure (wind.pushBack r.windSpeed))
    (Vector.new 1)

/-- `Vector<float> extractTemperatures(const WeatherLog& records)`. -/
def extractTemperatures (records : WeatherLog F) : Except Exn (Vector F) :=
  (List.range records.GetSize.toNat).foldlM
    (fun (temp : Vector F) (i : Nat) => do
      let r ← records.indexConst (i : Int)
      pure (temp.pushBack r.temperature))
    (Vector.new 1)

/-- `Vector<float> extractSolarRadiation(const WeatherLog& records)`. -/
def extractSolarRadiation (records : WeatherLog F) : Except Exn (Vector F) :=
  (List.range records.GetSize.toNat).foldlM
    (fun (solar : Vector F) (i : Nat) => do
      let r ← records.indexConst (i : Int)
      let sr := r.solarRadiation
      if !(FloatOps.isnan sr) && FloatOps.ge sr (FloatOps.ofInt 100) then pure (solar.pushBack sr)
      else pure solar)
    (Vector.new 1)

/-! ### The selections as the specification words them -/

/-- A number written with at least two digits, zeros in front. -/
def zeroPad2 (n : Int) : String :=
  String.mk (List.replicate (2 - (toString n).length) '0') ++ toString n

/-- The key of a year and a month: the year, a hyphen, the month zero-padded
to two digits. -/
def keySpec (year month : Int) : String := toString year ++ "-" ++ zeroPad2 month

/-- A key of the form `YYYY-MM`: four digits, a hyphen, two digits. -/
def isYearMonthKey (k : String) : Bool :=
  match k.data with
  | [a, b, c, d, h, m1, m2] =>
    a.isDigit && b.isDigit && c.isDigit && d.isDigit && h == '-' && m1.isDigit && m2.isDigit
  | _ => false

/-- The month component of a key of the form `YYYY-MM`. -/
def monthComponent (k : String) : Int :=
  match k.data with
  | [_, _, _, _, _, m1, m2] => (((m1.toNat - 48) * 10 + (m2.toNat - 48) : Nat) : Int)
  | _ => 0

end DataUtils

/-! ## FileHandler.cpp: the insertion step of `processCSVLine` -/

/-- `std::to_string(int)`: the decimal digits, after a minus sign for a
negative value. -/
def to_string (n : Int) : String := toString n

/-- The entries of a map after `f` has been applied to `m[key]`, the
reference `operator[]` returns: the value found under `key`, or else a new
entry holding the value-initialised `dflt`, placed where the key order puts
it. -/
def upsertEntries {V : Type} (key : String) (dflt : V) (f : V → V) :
    List (String × V) → List (String × V)
  | [] => [(key, f dflt)]
  | (k, v) :: rest =>
    if key.data < k.data then (key, f dflt) :: (k, v) :: rest
    else if key = k then (k, f v) :: rest
    else (k, v) :: upsertEntries key dflt f rest

/-- An empty `std::map`. -/
def StdMap.empty {V : Type} : StdMap V := { entries := [], sorted := List.Pairwise.nil }

/-- The map after `f` has been applied to `m[key]`: `std::map::operator[]`
followed by a call that changes the value in place. -/
def StdMap.atKey {V : Type} (m : StdMap V) (key : String) (dflt : V) (f : V → V) : StdMap V :=
  { entries := upsertEntries key dflt f m.entries
    sorted := by
      have hs := m.sorted
      generalize m.entries = es at hs
      suffices h : (upsertEntries key dflt f es).Pairwise (fun a b => a.1.data < b.1.data) ∧
          ∀ p ∈ upsertEntries key dflt f es, p.1 = key ∨ ∃ q ∈ es, q.1 = p.1 from h.1
      induction es with
      | nil => simp [upsertEntries]
      | cons e rest ih =>
        obtain ⟨k, v⟩ := e
        obtain ⟨hhead, htail⟩ := List.pairwise_cons.mp hs
        obtain ⟨ih1, ih2⟩ := ih htail
        simp only [upsertEntries]
        split_ifs with hlt heq
        · refine ⟨List.pairwise_cons.mpr ⟨?_, hs⟩, ?_⟩
          · intro p hp
            rcases List.mem_cons.mp hp with rfl | hp
            · exact hlt
            · have h1 := hhead p hp
              have hlt2 : key < k := String.lt_iff_toList_lt.mpr hlt
              have h12 : k < p.1 := String.lt_iff_toList_lt.mpr h1
              exact String.lt_iff_toList_lt.mp (lt_trans hlt2 h12)
          · intro p hp
            rcases List.mem_cons.mp hp with rfl | hp
            · exact Or.inl rfl
            · exact Or.inr ⟨p, hp, rfl⟩
        · refine ⟨List.pairwise_cons.mpr ⟨hhead, htail⟩, ?_⟩
          intro p hp
          rcases List.mem_cons.mp hp with rfl | hp
          · exact Or.inl heq.symm
          · exact Or.inr ⟨p, List.mem_cons_of_mem _ hp, rfl⟩
        · have hkk : k < key := by
            have h1 : ¬ key < k := fun h => hlt (String.lt_iff_toList_lt.mp h)
            exact lt_of_le_of_ne (not_lt.mp h1) (fun e => heq e.symm)
          refine ⟨List.pairwise_cons.mpr ⟨?_, ih1⟩, ?_⟩
          · intro p hp
            rcases ih2 p hp with h | ⟨q, hq, hqp⟩
            · rw [h]
              exact String.lt_iff_toList_lt.mp hkk
            · rw [← hqp]
              exact hhead q hq
          · intro p hp
            rcases List.mem_cons.mp hp with rfl | hp
            · exact Or.inr ⟨_, List.mem_cons_self _ _, rfl⟩
            · rcases ih2 p hp with h | ⟨q, hq, hqp⟩
              · exact Or.inl h
              · exact Or.inr ⟨q, List.mem_cons_of_mem _ hq, hqp⟩ }

section Ingestion

variable {F : Type} [FloatOps F]

/-- The key `processCSVLine` derives from the date of a record. -/
def recordKey (date : Date) : String :=
  to_string date.year ++ "-" ++ (if date.month < 10 then "0" else "") ++ to_string date.month

/-- The insertion step of `processCSVLine` for a parsed record `w`:
`dataMap[key].pushBack(w)`, then `dateTree.insert(key)` unless
`dateTree.search(key)`. -/
def insertionStep (state : BST String × StdMap (WeatherLog F)) (w : WeatherEntry F) :
    BST String × StdMap (WeatherLog F) :=
  let key := recordKey w.date
  let dataMap := state.2.atKey key (Vector.new 1) (fun log => log.pushBack w)
  let dateTree := if !(state.1.search key) then state.1.insert key else state.1
  (dateTree, dataMap)

/-- The index and the mapping after the insertion steps for the records of
`ws`, in order, starting from an empty index and an empty mapping. -/
def ingest (ws : List (WeatherEntry F)) : BST String × StdMap (WeatherLog F) :=
  ws.foldl insertionStep (BST.empty, StdMap.empty)

end Ingestion

/-- The number a list of decimal digits denotes. -/
def digitsValue (cs : List Char) : Nat := cs.foldl (fun acc c => acc * 10 + (c.toNat - 48)) 0

/-! ### Sample data -/

/-- A record of the given date with the given solar radiation. -/
def sampleRecord (year month day : Int) (solar : ExtRat) : WeatherEntry ExtRat :=
  { date := { day := day, month := month, year := year }, time := { hour := 9, minute := 0 },
    windSpeed := ExtRat.fin 3, temperature := ExtRat.fin 20, solarRadiation := solar }

/-- The collection holding the given records, in a block of just their number
of slots. -/
def sampleLog (rs : List (WeatherEntry ExtRat)) : WeatherLog ExtRat :=
  { data := rs, size := rs.length, capacity := rs.length }

/-- A mapping with the months May 2015, May 2016 and June 2016. -/
def sampleMap : StdMap (WeatherLog ExtRat) :=
  { entries :=
      [("2015-05", sampleLog [sampleRecord 2015 5 1 (ExtRat.fin 150)]),
       ("2016-05", sampleLog [sampleRecord 2016 5 1 (ExtRat.fin 50),
          sampleRecord 2016 5 2 (ExtRat.fin 100)]),
       ("2016-06", sampleLog [sampleRecord 2016 6 1 ExtRat.nan])],
    sorted := by decide }

/-- The index holding the keys of `sampleMap`. -/
def sampleTree : BST String :=
  { root := Node.mk "2015-05" Node.null
      (Node.mk "2016-05" Node.null (Node.mk "2016-06" Node.null Node.null)) }

/-! ### Copy assignment of `BST.h` -/

/-- `BST<T>& BST<T>::operator=(const BST<T>& otherTree)`; `sameObject` is the
outcome of the test `this == &otherTree`.  The call `destroy(root)` releases
the nodes of the destination, which no value refers to afterwards. -/
def BST.assign {T : Type} (self otherTree : BST T) (sameObject : Bool) : BST T :=
  if !sameObject then { root := Node.copy otherTree.root } else self

/-! ## The containers on the free store

The embedding above identifies a container with its content, so two
containers can never share storage in it.  For the statements about copies
the containers are embedded once more with explicit pointers: an object holds
addresses, the free store maps addresses to what `new` returned there, and
every operation takes the store and returns it.  `new` hands out the next
unused address, which no live pointer holds. -/

/-- The `T[]` blocks of the free store by address; `none` stands for a block
released by `delete[]`. -/
abbrev Blocks (T : Type) := List (Option (List T))

namespace Blocks

variable {T : Type}

/-- The block a pointer refers to; a released or unallocated address, where
the source has no defined behaviour, yields the empty block. -/
def block (h : Blocks T) (p : Nat) : List T := (h.getD p none).getD []

/-- `new T[n]`: the store with the new block, and its address. -/
def newArray [Inhabited T] (h : Blocks T) (n : Int) : Blocks T × Nat :=
  (h ++ [some (alloc n)], h.length)

/-- The store after the block at `p` has been overwritten with `b`. -/
def setBlock (h : Blocks T) (p : Nat) (b : List T) : Blocks T := h.set p (some b)

/-- `delete[] p`. -/
def deleteArray (h : Blocks T) (p : Nat) : Blocks T := h.set p none

end Blocks

/-- The members of a `Vector<T>` object: the pointer `data`, `size` and
`capacity`. -/
structure VectorObj where
  data : Nat
  size : Int
  capacity : Int
  deriving DecidableEq, Repr

/-- The mutations of a `Vector<T>` through its public interface: `pushBack`,
`popBack`, `Clear` and the assignment `v[index] = x`. -/
inductive VectorOp (T : Type) where
  | pushBack (element : T) : VectorOp T
  | popBack : VectorOp T
  | Clear : VectorOp T
  | assignAt (index : Int) (x : T) : VectorOp T

namespace VectorObj

variable {T : Type} [Inhabited T]

/-- The content of an object as the value embedding sees it. -/
def view (h : Blocks T) (v : VectorObj) : Vector T :=
  { data := h.block v.data, size := v.size, capacity := v.capacity }

/-- `Vector<T>::Vector(const Vector<T>& other)` on the free store. -/
def copyConstruct (h : Blocks T) (other : VectorObj) : Blocks T × VectorObj :=
  let a := Blocks.newArray h other.capacity
  (a.1.setBlock a.2 (copyLoop (a.1.block other.data) other.size (a.1.block a.2)),
    { data := a.2, size := other.size, capacity := other.capacity })

/-- `Vector<T>& Vector<T>::operator=(const Vector<T>& other)` on the free
store, for `this != &other`. -/
def assign (h : Blocks T) (self other : VectorObj) : Blocks T × VectorObj :=
  let h1 := h.deleteArray self.data
  let a := Blocks.newArray h1 other.capacity
  (a.1.setBlock a.2 (copyLoop (a.1.block other.data) other.size (a.1.block a.2)),
    { data := a.2, size := other.size, capacity := other.capacity })

/-- `void Vector<T>::resize()` on the free store. -/
def resize (h : Blocks T) (v : VectorObj) : Blocks T × VectorObj :=
  let newCapacity := wrapInt (v.capacity * 2)
  let a := Blocks.newArray h newCapacity
  let h2 := a.1.setBlock a.2 (copyLoop (a.1.block v.data) v.size (a.1.block a.2))
  (h2.deleteArray v.data, { data := a.2, size := v.size, capacity := newCapacity })

/-- `void Vector<T>::pushBack(const T& element)` on the free store. -/
def pushBack (h : Blocks T) (v : VectorObj) (element : T) : Blocks T × VectorObj :=
  let s := if v.size = v.capacity then resize h v else (h, v)
  (s.1.setBlock s.2.data (store (s.1.block s.2.data) s.2.size element),
    { data := s.2.data, size := wrapInt (s.2.size + 1), capacity := s.2.capacity })

/-- `void Vector<T>::popBack()`. -/
def popBack (v : VectorObj) : VectorObj :=
  if v.size > 0 then { v with size := v.size - 1 } else v

/-- `void Vector<T>::Clear()`. -/
def Clear (v : VectorObj) : VectorObj := { v with size := 0 }

/-- The statement `v[index] = x` on the free store: `operator[]` throws
before anything is written, or returns the slot that is then assigned. -/
def assignAt (h : Blocks T) (v : VectorObj) (index : Int) (x : T) : Except Exn (Blocks T) :=
  if index < 0 ∨ index ≥ v.size then throw (Exn.out_of_range "Index out of range")
  else pure (h.setBlock v.data (store (h.block v.data) index x))

/-- The store and the object after one mutation; an assignment that throws
leaves both as they were. -/
def apply (h : Blocks T) (v : VectorObj) : VectorOp T → Blocks T × VectorObj
  | VectorOp.pushBack element => pushBack h v element
  | VectorOp.popBack => (h, popBack v)
  | VectorOp.Clear => (h, Clear v)
  | VectorOp.assignAt index x =>
    match assignAt h v index x with
    | Except.ok h1 => (h1, v)
    | Except.error _ => (h, v)

/-- The store and the object after a sequence of mutations. -/
def applyAll (h : Blocks T) (v : VectorObj) (ops : List (VectorOp T)) : Blocks T × VectorObj :=
  ops.foldl (fun s op => apply s.1 s.2 op) (h, v)

end VectorObj

/-- The same mutation in the value embedding. -/
def Vector.applyOp {T : Type} [Inhabited T] (v : Vector T) : VectorOp T → Vector T
  | VectorOp.pushBack element => v.pushBack element
  | VectorOp.popBack => v.popBack
  | VectorOp.Clear => v.Clear
  | VectorOp.assignAt index x =>
    if index < 0 ∨ index ≥ v.size then v else { v with data := store v.data index x }

/-- A `Node<T>` object on the free store: `data` and the two pointers, `none`
being `NULL`. -/
structure Cell (T : Type) where
  data : T
  left : Option Nat
  right : Option Nat
  deriving DecidableEq, Repr

/-- The `Node<T>` objects of the free store by address; `none` stands for a
node released by `delete`. -/
abbrev Cells (T : Type) := List (Option (Cell T))

namespace Cells

variable {T : Type}

/-- The node a pointer refers to, if the address holds a live node. -/
def cell (h : Cells T) (p : Nat) : Option (Cell T) := (h[p]?).join

/-- The read `p->left`; at an unallocated address, where the source has no
defined behaviour, it yields `NULL`. -/
def left (h : Cells T) (p : Nat) : Option Nat := (cell h p).bind (fun c => c.left)

/-- The read `p->right`. -/
def right (h : Cells T) (p : Nat) : Option Nat := (cell h p).bind (fun c => c.right)

/-- The assignment `p->left = l`. -/
def setLeft (h : Cells T) (p : Nat) (l : Option Nat) : Cells T :=
  match cell h p with
  | some c => h.set p (some { c with left := l })
  | none => h

/-- The assignment `p->right = r`. -/
def setRight (h : Cells T) (p : Nat) (r : Option Nat) : Cells T :=
  match cell h p with
  | some c => h.set p (some { c with right := r })
  | none => h

/-- `Node<T>* BST<T>::copy(Node<T>* node)` on the free store, the depth of
the recursion bounded by `fuel`: the store after the call and the pointer
returned. -/
def copy : Nat → Cells T → Option Nat → Cells T × Option Nat
  | _, h, none => (h, none)
  | 0, h, some _ => (h, none)
  | fuel + 1, h, some a =>
    match cell h a with
    | none => (h, none)
    | some c =>
      let newNode := h.length
      let h0 := h ++ [some { data := c.data, left := none, right := none }]
      let l := copy fuel h0 (left h0 a)
      let h1 := setLeft l.1 newNode l.2
      let r := copy fuel h1 (right h1 a)
      (setRight r.1 newNode r.2, some newNode)

/-- `Node<T>* BST<T>::insert(Node<T>* node, const T& value)` on the free
store, the depth of the recursion bounded by `fuel`. -/
def insert [LinearOrder T] : Nat → Cells T → Option Nat → T → Cells T × Option Nat
  | _, h, none, value => (h ++ [some { data := value, left := none, right := none }], some h.length)
  | 0, h, some a, _ => (h, some a)
  | fuel + 1, h, some a, value =>
    match cell h a with
    | none => (h, some a)
    | some c =>
      if value < c.data then
        let l := insert fuel h c.left value
        (setLeft l.1 a l.2, some a)
      else if value > c.data then
        let r := insert fuel h c.right value
        (setRight r.1 a r.2, some a)
      else (h, some a)

/-- `void BST<T>::destroy(Node<T>* node)` on the free store, the depth of the
recursion bounded by `fuel`. -/
def destroy : Nat → Cells T → Option Nat → Cells T
  | _, h, none => h
  | 0, h, some _ => h
  | fuel + 1, h, some a =>
    let h1 := destroy fuel h (left h a)
    let h2 := destroy fuel h1 (right h1 a)
    h2.set a none

/-- `BST<T>& BST<T>::operator=(const BST<T>& otherTree)` on the free store,
for `this != &otherTree`: the store after the call and the new `root`. -/
def assign (fuel : Nat) (h : Cells T) (root otherRoot : Option Nat) : Cells T × Option Nat :=
  copy fuel (destroy fuel h root) otherRoot

/-- The store and the root after `insert(value)` for the values of a list,
in order. -/
def insertAll [LinearOrder T] (fuel : Nat) (h : Cells T) (root : Option Nat) (values : List T) :
    Cells T × Option Nat :=
  values.foldl (fun s value => insert fuel s.1 s.2 value) (h, root)

/-- The tree a pointer leads to, read off the store down to depth `fuel`. -/
def reify : Nat → Cells T → Option Nat → Node T
  | _, _, none => Node.null
  | 0, _, some _ => Node.null
  | fuel + 1, h, some a =>
    match cell h a with
    | none => Node.null
    | some c => Node.mk c.data (reify fuel h c.left) (reify fuel h c.right)

/-- The pointer `p` leads, in the store `h`, to the tree `t`, whose nodes
occupy the addresses `f`, each address once. -/
inductive Rep (h : Cells T) : Option Nat → Node T → List Nat → Prop where
  | null : Rep h none Node.null []
  | node (a : Nat) (d : T) (pl pr : Option Nat) (l r : Node T) (fl fr : List Nat) :
      cell h a = some { data := d, left := pl, right := pr } → Rep h pl l fl → Rep h pr r fr →
      a ∉ fl → a ∉ fr → (∀ b ∈ fl, b ∉ fr) →
      Rep h (some a) (Node.mk d l r) (a :: (fl ++ fr))

end Cells

/-- A free store with two blocks: `[7, 8, 9, 9]` at address 0 and `[5]` at
address 1. -/
def sampleBlocks : Blocks Nat := [some [7, 8, 9, 9], some [5]]

/-- A free store with three nodes: the tree with root 5 and left child 3 at
the addresses 0 and 1, and the single node 9 at address 2. -/
def sampleCells : Cells Nat :=
  [some { data := 5, left := some 1, right := none },
   some { data := 3, left := none, right := none },
   some { data := 9, left := none, right := none }]

/-! ### Depth and chains -/

namespace Node

variable {T : Type}

/-- The depth of a subtree: the number of nodes on the longest path from its
root down to an empty link. -/
def depth : Node T → Nat
  | null => 0
  | mk _ l r => max (depth l) (depth r) + 1

/-- No node of the subtree has a left child. -/
def noLeftChild : Node T → Bool
  | null => true
  | mk _ null r => noLeftChild r
  | mk _ (mk _ _ _) _ => false

/-- The chain of the keys of a list: each key is the right child of the key
before it, and no node has a left child. -/
def rightChain : List T → Node T
  | [] => null
  | k :: ks => mk k null (rightChain ks)

end Node

/-- The index of the slot `pushBack` writes in `data[size++] = element`: the
`size` the vector has after the `resize` of a full vector. -/
def Vector.pushBackIndex {T : Type} [Inhabited T] (v : Vector T) : Int :=
  (if v.size = v.capacity then v.resize else v).size

/-! ## FileHandler.cpp: `processCSVLine` -/

/-- `void Date::SetDay(int d)`. -/
def Date.SetDay (date : Date) (d : Int) : Except Exn Date :=
  if d < 1 ∨ d > 31 then throw (Exn.invalid_argument "Day must be 1-31")
  else pure { date with day := d }

/-- `void Date::SetMonth(int m)`. -/
def Date.SetMonth (date : Date) (m : Int) : Except Exn Date :=
  if m < 1 ∨ m > 12 then throw (Exn.invalid_argument "Month must be 1-12")
  else pure { date with month := m }

/-- `void Date::SetYear(int y)`. -/
def Date.SetYear (date : Date) (y : Int) : Date := { date with year := y }

/-- `void MyTime::SetHour(int h)`. -/
def MyTime.SetHour (t : MyTime) (h : Int) : Except Exn MyTime :=
  if h < 0 ∨ h > 23 then throw (Exn.invalid_argument "Hour must be 0-23")
  else pure { t with hour := h }

/-- `void MyTime::SetMinute(int m)`. -/
def MyTime.SetMinute (t : MyTime) (m : Int) : Except Exn MyTime :=
  if m < 0 ∨ m > 59 then throw (Exn.invalid_argument "Minute must be 0-59")
  else pure { t with minute := m }

/-- `std::map::at`. -/
def StdMap.atConst {V : Type} (m : StdMap V) (key : String) : Except Exn V :=
  match m.find key with
  | some v => pure v
  | none => throw (Exn.out_of_range "map::at")

/-- The cells the loop `while (std::getline(ss, cell, delim))` delivers from
the characters not yet read, `cur` being the characters of the cell under way,
last one first: a cell ends at each delimiter; at the end of the input the
cell under way is delivered if it has a character, and otherwise `getline`
fails and the loop ends. -/
def splitCells (delim : Char) : List Char → List Char → List String
  | [], cur => if cur = [] then [] else [String.mk cur.reverse]
  | c :: cs, cur =>
    if c = delim then String.mk cur.reverse :: splitCells delim cs []
    else splitCells delim cs (c :: cur)

/-- A `std::stringstream` being read: the characters not yet extracted and
`failbit`. -/
structure IStream where
  rest : List Char
  fail : Bool
  deriving DecidableEq, Repr

/-- `is >> n` for an `int` variable that holds `n`: the stream and the
variable afterwards.  Nothing happens on a failed stream; at the end of the
input the extraction fails and leaves the variable alone; without a digit it
fails and stores 0; outside the `int` range it fails and stores the nearest
bound. -/
def IStream.readInt (s : IStream) (n : Int) : IStream × Int :=
  if s.fail then (s, n)
  else
    let cs := s.rest.dropWhile isspace
    if cs = [] then ({ rest := [], fail := true }, n)
    else
      let ds := if cs.head? = some '-' ∨ cs.head? = some '+' then cs.tail else cs
      let digits := ds.takeWhile Char.isDigit
      if digits = [] then ({ rest := ds, fail := true }, 0)
      else
        let v : Int := digits.foldl (fun (acc : Int) c => acc * 10 + ((c.toNat - 48 : Nat) : Int)) 0
        let r : Int := if cs.head? = some '-' then -v else v
        if r > INT_MAX then ({ rest := ds.dropWhile Char.isDigit, fail := true }, INT_MAX)
        else if r < INT_MIN then ({ rest := ds.dropWhile Char.isDigit, fail := true }, INT_MIN)
        else ({ rest := ds.dropWhile Char.isDigit, fail := false }, r)

/-- `is >> c` for a `char` variable that holds `c`: the next character that
is no white space; nothing on a failed stream or at the end of the input. -/
def IStream.readChar (s : IStream) (c : Char) : IStream × Char :=
  if s.fail then (s, c)
  else
    match s.rest.dropWhile isspace with
    | [] => ({ rest := [], fail := true }, c)
    | x :: cs => ({ rest := cs, fail := false }, x)

/-- The values the locals of `parseDate` and `parseTime` hold before the
extractions: the source does not initialise them. -/
structure Indeterminate where
  day : Int
  month : Int
  year : Int
  slash : Char
  hour : Int
  minute : Int
  colon : Char

/-- `Date FileHandler::parseDate(const std::string& dateStr)`. -/
def parseDate (u : Indeterminate) (dateStr : String) : Except Exn Date :=
  let ss : IStream := { rest := dateStr.data, fail := false }
  let r1 := ss.readInt u.day
  let r2 := r1.1.readChar u.slash
  let r3 := r2.1.readInt u.month
  let r4 := r3.1.readChar r2.2
  let r5 := r4.1.readInt u.year
  let day := r1.2
  let month := r3.2
  let slash := r4.2
  let year := r5.2
  if slash ≠ '/' then throw (Exn.runtime_error "Invalid date format (expected /)")
  else do
    let d := Date.new
    let d ← d.SetDay day
    let d ← d.SetMonth month
    pure (d.SetYear year)

/-- `MyTime FileHandler::parseTime(const std::string& timeStr)`. -/
def parseTime (u : Indeterminate) (timeStr : String) : Except Exn MyTime :=
  let ss : IStream := { rest := timeStr.data, fail := false }
  let r1 := ss.readInt u.hour
  let r2 := r1.1.readChar u.colon
  let r3 := r2.1.readInt u.minute
  let hour := r1.2
  let colon := r2.2
  let minute := r3.2
  if colon ≠ ':' then throw (Exn.runtime_error "Invalid time format (expected :)")
  else do
    let t := MyTime.new
    let t ← t.SetHour hour
    t.SetMinute minute

/-- `std::map<std::string, int> FileHandler::buildColumnMap(headerLine)`. -/
def buildColumnMap (headerLine : String) : StdMap Int :=
  ((splitCells ',' headerLine.data []).foldl
    (fun (acc : StdMap Int × Int) col => (acc.1.atKey col 0 (fun _ => acc.2), acc.2 + 1))
    (StdMap.empty, 0)).1

/-- The vector `fields` of `processCSVLine`: the cells of the line between
the commas, pushed one by one onto `Vector<std::string>()`. -/
def lineFields (line : String) : Vector String :=
  (Vector.new 1).pushAll (splitCells ',' line.data [])

/-- The string `datePart` of `processCSVLine`, read by
`std::getline(dts, datePart, ' ')`: the characters before the first blank. -/
def datePart (dateTimeStr : String) : String :=
  String.mk (dateTimeStr.data.takeWhile (fun c => c ≠ ' '))

/-- The string `timePart` of `processCSVLine`, read by
`std::getline(dts, timePart)`: the characters after the first blank, up to a
line feed. -/
def timePart (dateTimeStr : String) : String :=
  String.mk
    (((dateTimeStr.data.dropWhile (fun c => c ≠ ' ')).drop 1).takeWhile (fun c => c ≠ '\n'))

section ProcessCSVLine

variable {F : Type} [FloatOps F]

/-- The expression
`fields[colMap.at(name)].empty() ? NAN : std::stof(fields[colMap.at(name)])`,
`stof` being `std::stof` followed by the conversion to `float`. -/
def readField (stof : String → Except Exn F) (fields : Vector String) (colMap : StdMap Int)
    (name : String) : Except Exn F := do
  let i ← colMap.atConst name
  let cell ← fields.index i
  if cell.data = [] then pure FloatOps.nan
  else do
    let j ← colMap.atConst name
    let cell2 ← fields.index j
    stof cell2

/-- The statements of the `try` block of `processCSVLine` up to the
construction of the record `w`; they read `line` and `colMap` and touch
neither `dateTree` nor `dataMap`. -/
def parseRecord (stof : String → Except Exn F) (u : Indeterminate) (line : String)
    (colMap : StdMap Int) : Except Exn (WeatherEntry F) := do
  let fields : Vector String := lineFields line
  let iw ← colMap.atConst "WAST"
  let dateTimeStr ← fields.index iw
  let date ← parseDate u (datePart dateTimeStr)
  let time ← parseTime u (timePart dateTimeStr)
  let wind ← readField stof fields colMap "S"
  let temp ← readField stof fields colMap "T"
  let solar ← readField stof fields colMap "SR"
  pure { date := date, time := time, windSpeed := wind, temperature := temp,
         solarRadiation := solar }

/-- `void FileHandler::processCSVLine(line, colMap, dateTree, dataMap)`, on
the pair of `dateTree` and `dataMap`: the `try` block runs the statements of
`parseRecord` and then the insertion step; `catch (...)` swallows whatever
was thrown and leaves the two structures as the statements executed so far
left them. -/
def processCSVLine (stof : String → Except Exn F) (u : Indeterminate) (line : String)
    (colMap : StdMap Int) (state : BST String × StdMap (WeatherLog F)) :
    BST String × StdMap (WeatherLog F) :=
  match parseRecord stof u line colMap with
  | Except.error _ => state
  | Except.ok w => insertionStep state w

/-- The loop of `parseCSV` over the lines after the header, from an empty
index and an empty mapping. -/
def parseLines (stof : String → Except Exn F) (u : Indeterminate) (colMap : StdMap Int)
    (lines : List String) : BST String × StdMap (WeatherLog F) :=
  lines.foldl (fun state line => processCSVLine stof u line colMap state)
    (BST.empty, StdMap.empty)

end ProcessCSVLine

/-- A stand-in for `std::stof` on the sample lines, whose readings are whole
numbers. -/
def sampleStof (s : String) : Except Exn ExtRat := (stoi s).map (fun n => ExtRat.fin n)

/-- Some values for the uninitialised locals. -/
def sampleIndeterminate : Indeterminate :=
  { day := 77, month := 77, year := 77, slash := '?', hour := 77, minute := 77, colon := '?' }

/-! ## Menu.cpp: the mean absolute deviations of `writeMonthStats` -/

section WriteMonthStats

open FloatOps

variable {F : Type} [FloatOps F]

/-- The body of the loop of `writeMonthStats` that accumulates `wMad` and
counts `w_n`, at index `i`; `k` is the literal `3.6f`. -/
def windMadStep (k : F) (wind : Vector F) (wMean : F) (acc : F × Int) (i : Nat) :
    Except Exn (F × Int) := do
  let v ← wind.index (i : Int)
  if !(isnan v) then do
    let v2 ← wind.index (i : Int)
    pure (add acc.1 (abs (sub (mul v2 k) wMean)), acc.2 + 1)
  else pure acc

/-- The value of `wMad` that `writeMonthStats` writes, computed from the
vector `wind`: `wMean = mean(wind)*3.6f`, the loop, then
`if(w_n>0) wMad /= w_n`. -/
def windMad (k : F) (wind : Vector F) : Except Exn F := do
  let m ← mean wind
  let wMean := mul m k
  let r ← (List.range wind.GetSize.toNat).foldlM (windMadStep k wind wMean) (zero, 0)
  pure (if r.2 > 0 then div r.1 (ofInt r.2) else r.1)

/-- The body of the loop of `writeMonthStats` that accumulates `tMad` and
counts `t_n`, at index `i`. -/
def tempMadStep (temp : Vector F) (tMean : F) (acc : F × Int) (i : Nat) :
    Except Exn (F × Int) := do
  let v ← temp.index (i : Int)
  if !(isnan v) then do
    let v2 ← temp.index (i : Int)
    pure (add acc.1 (abs (sub v2 tMean)), acc.2 + 1)
  else pure acc

/-- The value of `tMad` that `writeMonthStats` writes, computed from the
vector `temp`: `tMean = mean(temp)`, the loop, then `if(t_n>0) tMad /= t_n`. -/
def tempMad (temp : Vector F) : Except Exn F := do
  let tMean ← mean temp
  let r ← (List.range temp.GetSize.toNat).foldlM (tempMadStep temp tMean) (zero, 0)
  pure (if r.2 > 0 then div r.1 (ofInt r.2) else r.1)

/-- The mean absolute deviation of a list of values about a centre, as the
specification words it: the mean of `|value - centre|`, and 0 for no value. -/
def madSpec (values : List F) (centre : F) : F :=
  if values.length = 0 then zero
  else div (fsum (values.map (fun v => abs (sub v centre)))) (ofInt values.length)

/-- The mean absolute deviation of a series as the specification words it:
the mean of `|value - mean(values)|` over the non-sentinel entries. -/
def madOfSeries (v : Vector F) : F := madSpec (validEntries v) (meanSpec v)

/-- The mean absolute deviation of the wind speeds as `writeMonthStats`
computes it: the mean of `|value * 3.6f - mean(values) * 3.6f|` over the
non-sentinel entries. -/
def windMadSpec (k : F) (wind : Vector F) : F :=
  if (validEntries wind).length = 0 then zero
  else div (fsum ((validEntries wind).map (fun v => abs (sub (mul v k) (mul (meanSpec wind) k)))))
    (ofInt (validEntries wind).length)

end WriteMonthStats

/-! ## Properties of the tree -/

namespace Node

variable {T : Type} {σ : Type}

theorem InOrder_eq_foldl (process : T → σ → σ) (t : Node T) (s : σ) :
    InOrder process t s = (keys t).foldl (fun acc x => process x acc) s := by
  induction t generalizing s with
  | null => rfl
  | mk d l r ihl ihr => simp [InOrder, keys, ihl, ihr, List.foldl_append]

theorem mem_keys_insert [LinearOrder T] (t : Node T) (v x : T) :
    x ∈ keys (insert t v) ↔ x = v ∨ x ∈ keys t := by
  induction t with
  | null => simp [insert, keys]
  | mk d l r ihl ihr =>
    unfold insert
    split_ifs with h1 h2
    · simp only [keys, List.mem_append, List.mem_cons, ihl]; tauto
    · simp only [keys, List.mem_append, List.mem_cons, ihr]; tauto
    · have hv : v = d := le_antisymm (not_lt.mp h2) (not_lt.mp h1)
      subst hv
      simp only [keys, List.mem_append, List.mem_cons]; tauto

theorem ordered_insert [LinearOrder T] (t : Node T) (v : T) (h : Ordered t) :
    Ordered (insert t v) := by
  induction t with
  | null => simp [insert, Ordered, keys]
  | mk d l r ihl ihr =>
    obtain ⟨hl, hr, ol, or⟩ := h
    unfold insert
    split_ifs with h1 h2
    · refine ⟨?_, hr, ihl ol, or⟩
      intro x hx
      rcases (mem_keys_insert l v x).1 hx with rfl | hx
      · exact h1
      · exact hl x hx
    · refine ⟨hl, ?_, ol, ihr or⟩
      intro x hx
      rcases (mem_keys_insert r v x).1 hx with rfl | hx
      · exact h2
      · exact hr x hx
    · exact ⟨hl, hr, ol, or⟩

theorem sorted_keys [LinearOrder T] (t : Node T) (h : Ordered t) :
    (keys t).Sorted (· < ·) := by
  induction t with
  | null => simp [keys]
  | mk d l r ihl ihr =>
    obtain ⟨hl, hr, ol, or⟩ := h
    simp only [keys, List.Sorted, List.pairwise_append, List.pairwise_cons, List.mem_cons]
    refine ⟨ihl ol, ⟨hr, ihr or⟩, ?_⟩
    intro a ha b hb
    rcases hb with rfl | hb
    · exact hl a ha
    · exact lt_trans (hl a ha) (hr b hb)

theorem search_iff_mem [LinearOrder T] (t : Node T) (h : Ordered t) (v : T) :
    search t v = true ↔ v ∈ keys t := by
  induction t with
  | null => simp [search, keys]
  | mk d l r ihl ihr =>
    obtain ⟨hl, hr, ol, or⟩ := h
    unfold search
    split_ifs with h1 h2
    · simp [keys, h1]
    · rw [ihl ol]
      simp only [keys, List.mem_append, List.mem_cons]
      constructor
      · intro hm; exact Or.inl hm
      · rintro (hm | rfl | hm)
        · exact hm
        · exact absurd rfl h1
        · exact absurd (lt_trans (hr v hm) h2) (lt_irrefl _)
    · rw [ihr or]
      simp only [keys, List.mem_append, List.mem_cons]
      constructor
      · intro hm; exact Or.inr (Or.inr hm)
      · rintro (hm | rfl | hm)
        · exact absurd (hl v hm) h2
        · exact absurd rfl h1
        · exact hm

end Node

namespace BST

variable {T : Type}

theorem inOrderVisits_eq_keys (t : BST T) : t.inOrderVisits = Node.keys t.root := by
  unfold inOrderVisits InOrder
  rw [Node.InOrder_eq_foldl]
  have : ∀ (xs acc : List T), xs.foldl (fun acc x => record x acc) acc = acc ++ xs := by
    intro xs
    induction xs with
    | nil => simp
    | cons x xs ih => intro acc; rw [List.foldl_cons, ih]; simp [record]
  simpa using this (Node.keys t.root) []

theorem insertAll_snoc [LinearOrder T] (ks : List T) (k : T) :
    insertAll (ks ++ [k]) = (insertAll ks).insert k := by
  simp [insertAll, List.foldl_append]

theorem ordered_insertAll [LinearOrder T] (ks : List T) : Node.Ordered (insertAll ks).root := by
  induction ks using List.reverseRecOn with
  | nil => exact trivial
  | append_singleton ks k ih =>
    rw [insertAll_snoc]
    exact Node.ordered_insert _ k ih

theorem mem_keys_insertAll [LinearOrder T] (ks : List T) (x : T) :
    x ∈ Node.keys (insertAll ks).root ↔ x ∈ ks := by
  induction ks using List.reverseRecOn with
  | nil => simp [insertAll, empty, Node.keys]
  | append_singleton ks k ih =>
    rw [insertAll_snoc]
    simp only [insert, Node.mem_keys_insert, ih, List.mem_append, List.mem_singleton]
    tauto

end BST

/-! ## Properties of the vector -/

theorem wrapInt_eq_self (x : Int) (h1 : -2147483648 ≤ x) (h2 : x ≤ INT_MAX) : wrapInt x = x := by
  unfold INT_MAX at h2
  unfold wrapInt
  omega

theorem load_natCast {T : Type} [Inhabited T] (block : List T) (i : Nat) :
    load block (i : Int) = block.getD i default := by
  simp [load]

theorem store_natCast {T : Type} (block : List T) (i : Nat) (x : T) :
    store block (i : Int) x = block.set i x := by
  simp [store]

theorem length_store {T : Type} (block : List T) (i : Int) (x : T) :
    (store block i x).length = block.length := by
  unfold store
  split_ifs <;> simp

theorem length_alloc {T : Type} [Inhabited T] (n : Int) : (alloc n : List T).length = n.toNat := by
  simp [alloc]

theorem copyLoop_spec {T : Type} [Inhabited T] (src dst : List T) (n : Nat) :
    ((List.range n).foldl (fun tmp (i : Nat) => store tmp (i : Int) (load src (i : Int))) dst).length
        = dst.length ∧
    ∀ j, j < dst.length →
      ((List.range n).foldl (fun tmp (i : Nat) => store tmp (i : Int) (load src (i : Int))) dst).getD j default
        = if j < n then src.getD j default else dst.getD j default := by
  induction n with
  | zero => simp
  | succ n ih =>
    obtain ⟨ihl, ihv⟩ := ih
    rw [List.range_succ, List.foldl_append]
    simp only [List.foldl_cons, List.foldl_nil, length_store, ihl, true_and]
    intro j hj
    rw [store_natCast, load_natCast]
    by_cases hjn : j = n
    · subst hjn
      simp [List.getD_eq_getElem?_getD, List.getElem?_set, ihl, hj]
    · have := ihv j hj
      simp only [List.getD_eq_getElem?_getD] at this ⊢
      rw [List.getElem?_set]
      have hne : ¬ n = j := fun h => hjn h.symm
      simp only [hne, if_false, this]
      by_cases h1 : j < n
      · simp [h1, Nat.lt_succ_of_lt h1]
      · have h2 : ¬ j < n + 1 := by omega
        simp [h1, h2]

theorem length_copyLoop {T : Type} [Inhabited T] (src dst : List T) (size : Int) :
    (copyLoop src size dst).length = dst.length := by
  unfold copyLoop
  exact (copyLoop_spec src dst size.toNat).1

theorem getD_copyLoop {T : Type} [Inhabited T] (src dst : List T) (size : Int) (j : Nat)
    (hj : j < dst.length) (hs : j < size.toNat) :
    (copyLoop src size dst).getD j default = src.getD j default := by
  unfold copyLoop
  rw [(copyLoop_spec src dst size.toNat).2 j hj, if_pos hs]

theorem getD_set_self {T : Type} (block : List T) (n : Nat) (x d : T) (h : n < block.length) :
    (block.set n x).getD n d = x := by
  simp [List.getD_eq_getElem?_getD, List.getElem?_set, h]

theorem getD_set_ne {T : Type} (block : List T) (n j : Nat) (x d : T) (h : j ≠ n) :
    (block.set n x).getD j d = block.getD j d := by
  have hne : ¬ n = j := fun e => h e.symm
  simp [List.getD_eq_getElem?_getD, List.getElem?_set, hne]

namespace Vector

variable {T : Type} [Inhabited T]

theorem pushAll_snoc (v : Vector T) (xs : List T) (x : T) :
    pushAll v (xs ++ [x]) = (pushAll v xs).pushBack x := by
  simp [pushAll, List.foldl_append]

/-- One `pushBack` on a vector whose block has `capacity` slots, when the
doubled capacity (if the call has to grow the block) is an `int`. -/
theorem pushBack_spec (v : Vector T) (x : T) (n : Nat) (hn : v.size = n)
    (hle : v.size ≤ v.capacity) (hA : v.Allocated)
    (hdbl : v.size = v.capacity → v.capacity * 2 ≤ INT_MAX) :
    (v.pushBack x).size = n + 1 ∧
    (v.pushBack x).capacity = (if v.size = v.capacity then v.capacity * 2 else v.capacity) ∧
    (v.pushBack x).Allocated ∧
    (v.pushBack x).data.getD n default = x ∧
    ∀ j, j < n → (v.pushBack x).data.getD j default = v.data.getD j default := by
  obtain ⟨data, size, capacity⟩ := v
  obtain ⟨hc1, hc2, hlen⟩ := hA
  simp only at hn hle hdbl hc1 hc2 hlen
  subst hn
  have hmax : INT_MAX = 2147483647 := rfl
  by_cases hfull : (n : Int) = capacity
  · have h2 := hdbl hfull
    subst hfull
    have hw : wrapInt ((n : Int) * 2) = (n : Int) * 2 := wrapInt_eq_self _ (by omega) h2
    have hw1 : wrapInt ((n : Int) + 1) = (n : Int) + 1 := wrapInt_eq_self _ (by omega) (by omega)
    have hlen2 : (copyLoop data (n : Int) (alloc ((n : Int) * 2) : List T)).length = 2 * n := by
      rw [length_copyLoop, length_alloc]; omega
    simp only [pushBack, resize, if_true, hw, hw1, store_natCast, Allocated, List.length_set, hlen2]
    refine ⟨trivial, trivial, ⟨by omega, by omega, by omega⟩, ?_, ?_⟩
    · exact getD_set_self _ _ _ _ (by omega)
    · intro j hj
      rw [getD_set_ne _ _ _ _ _ (by omega)]
      exact getD_copyLoop data _ (n : Int) j (by rw [length_alloc]; omega) (by simpa using hj)
  · have hw1 : wrapInt ((n : Int) + 1) = (n : Int) + 1 := wrapInt_eq_self _ (by omega) (by omega)
    simp only [pushBack, hfull, if_false, hw1, store_natCast, Allocated, List.length_set]
    refine ⟨trivial, trivial, ⟨hc1, hc2, hlen⟩, ?_, ?_⟩
    · exact getD_set_self _ _ _ _ (by omega)
    · intro j hj
      exact getD_set_ne _ _ _ _ _ (by omega)

theorem mul_two_pow_le {c0 : Int} (hc : 1 ≤ c0) {a b : Nat} (h : a ≤ b) :
    c0 * 2 ^ a ≤ c0 * 2 ^ b :=
  mul_le_mul_of_nonneg_left (pow_le_pow_right₀ (by norm_num) h) (by omega)

theorem lt_of_mul_two_pow_lt {c0 : Int} (hc : 1 ≤ c0) {a b : Nat}
    (h : c0 * 2 ^ a < c0 * 2 ^ b) : a < b := by
  by_contra hba
  exact absurd (mul_two_pow_le hc (not_lt.mp hba)) (not_le.mpr h)

/-- The state reached from `Vector(c0)` by pushing the elements of `xs`. -/
theorem pushAll_new_spec (c0 : Int) (hc : 1 ≤ c0) (xs : List T)
    (hov : ∃ j : Nat, (xs.length : Int) ≤ c0 * 2 ^ j ∧ c0 * 2 ^ j ≤ INT_MAX) :
    ((new c0 : Vector T).pushAll xs).size = xs.length ∧
    ((new c0 : Vector T).pushAll xs).Allocated ∧
    ∃ k : Nat, ((new c0 : Vector T).pushAll xs).capacity = c0 * 2 ^ k ∧
      (xs.length : Int) ≤ c0 * 2 ^ k ∧
      ∀ j : Nat, (xs.length : Int) ≤ c0 * 2 ^ j → k ≤ j := by
  induction xs using List.reverseRecOn with
  | nil =>
    obtain ⟨j, -, hj⟩ := hov
    have h0 : c0 * 2 ^ 0 ≤ c0 * 2 ^ j := mul_two_pow_le hc (Nat.zero_le j)
    have hpos : c0 > 0 := by omega
    simp only [pushAll, List.foldl_nil, new, hpos, if_true, List.length_nil, Allocated,
      length_alloc]
    refine ⟨rfl, ⟨hc, by omega, by omega⟩, 0, by simp, by simpa using (by omega : (0 : Int) ≤ c0),
      fun j _ => Nat.zero_le j⟩
  | append_singleton xs x ih =>
    obtain ⟨j, hj1, hj2⟩ := hov
    simp only [List.length_append, List.length_singleton, Nat.cast_add, Nat.cast_one] at hj1 ⊢
    obtain ⟨hsz, hA, k, hk, hkle, hkmin⟩ := ih ⟨j, by omega, hj2⟩
    rw [pushAll_snoc]
    have hdbl : ((new c0 : Vector T).pushAll xs).size = ((new c0 : Vector T).pushAll xs).capacity →
        ((new c0 : Vector T).pushAll xs).capacity * 2 ≤ INT_MAX := by
      intro hfull
      have hlt : c0 * 2 ^ k < c0 * 2 ^ j := by rw [← hk, ← hfull, hsz]; omega
      have := mul_two_pow_le hc (Nat.succ_le_of_lt (lt_of_mul_two_pow_lt hc hlt))
      rw [hk]
      calc c0 * 2 ^ k * 2 = c0 * 2 ^ (k + 1) := by ring
        _ ≤ c0 * 2 ^ j := this
        _ ≤ INT_MAX := hj2
    obtain ⟨h1, h2, h3, -, -⟩ := pushBack_spec _ x xs.length hsz (by rw [hsz, hk]; exact hkle) hA hdbl
    refine ⟨h1, h3, ?_⟩
    rw [h2]
    by_cases hfull : ((new c0 : Vector T).pushAll xs).size = ((new c0 : Vector T).pushAll xs).capacity
    · rw [if_pos hfull, hk]
      have hfull2 : (xs.length : Int) = c0 * 2 ^ k := by rw [← hsz, hfull, hk]
      refine ⟨k + 1, by ring, ?_, ?_⟩
      · have : c0 * 2 ^ (k + 1) = c0 * 2 ^ k * 2 := by ring
        have hp : 0 < c0 * 2 ^ k := by positivity
        omega
      · intro j2 hj2le
        exact Nat.succ_le_of_lt (lt_of_mul_two_pow_lt hc (by omega))
    · rw [if_neg hfull]
      have hlt : (xs.length : Int) < c0 * 2 ^ k := by
        rw [hsz, hk] at hfull
        omega
      exact ⟨k, hk, by omega, fun j2 hj2le => hkmin j2 (by omega)⟩

end Vector

/-! ## Properties of the statistics routines -/

theorem foldlM_eq_ok_foldl {β ι α : Type} (f : β → ι → Except Exn β) (h : β → α → β)
    (rd : ι → α) (l : List ι) (hstep : ∀ i ∈ l, ∀ acc, f acc i = Except.ok (h acc (rd i)))
    (init : β) : l.foldlM f init = Except.ok ((l.map rd).foldl h init) := by
  induction l generalizing init with
  | nil => rfl
  | cons i l ih =>
    rw [List.foldlM_cons, hstep i (List.mem_cons_self i l) init]
    exact ih (fun j hj acc => hstep j (List.mem_cons_of_mem i hj) acc) _

theorem Vector.indexConst_of_lt {T : Type} [Inhabited T] (v : Vector T) (i : Nat)
    (hi : i < v.size.toNat) : v.indexConst (i : Int) = Except.ok (load v.data (i : Int)) := by
  have : ¬ ((i : Int) < 0 ∨ (i : Int) ≥ v.size) := by omega
  simp only [Vector.indexConst, this, if_false]
  rfl

section Statistics

open FloatOps

variable {F : Type} [FloatOps F]

/-- The loops of `mean` and `stdev` on the list of elements: a pass that adds
`t e` for every valid `e` and counts the valid entries. -/
theorem foldl_valid (t : F → F) (es : List F) (s : F) (k : Int) :
    es.foldl (fun (acc : F × Int) e => if !(isnan e) then (add acc.1 (t e), acc.2 + 1) else acc)
        (s, k)
      = (((es.filter (fun e => !(isnan e))).map t).foldl add s,
          k + ((es.filter (fun e => !(isnan e))).length : Int)) := by
  induction es generalizing s k with
  | nil => simp
  | cons e es ih =>
    rw [List.foldl_cons]
    by_cases he : (!(isnan e)) = true
    · have hf : List.filter (fun e => !(isnan e)) (e :: es)
          = e :: List.filter (fun e => !(isnan e)) es := List.filter_cons_of_pos he
      rw [if_pos he, ih, hf]
      simp only [List.map_cons, List.foldl_cons, List.length_cons, Nat.cast_add, Nat.cast_one]
      congr 1
      omega
    · have hf : List.filter (fun e => !(isnan e)) (e :: es)
          = List.filter (fun e => !(isnan e)) es := List.filter_cons_of_neg he
      rw [if_neg he, ih, hf]

theorem mean_loop (data : Vector F) :
    (List.range data.GetSize.toNat).foldlM (meanStep data) (zero, 0)
      = Except.ok (fsum (validEntries data), ((validEntries data).length : Int)) := by
  rw [foldlM_eq_ok_foldl (meanStep data)
    (fun (acc : F × Int) e => if !(isnan e) then (add acc.1 (id e), acc.2 + 1) else acc)
    (fun (i : Nat) => load data.data (i : Int))]
  · rw [foldl_valid id]
    simp [validEntries, Vector.elems, Vector.GetSize, fsum]
  · intro i hi acc
    rw [meanStep, Vector.indexConst_of_lt data i (List.mem_range.mp hi)]
    simp only [bind, Except.bind, id]
    split_ifs <;> rfl

theorem mean_eq_meanSpec (data : Vector F) : mean data = Except.ok (meanSpec data) := by
  unfold mean meanSpec
  rw [mean_loop]
  by_cases h : (validEntries data).length = 0
  · simp [h, bind, Except.bind, pure, Except.pure]
  · have hpos : ((validEntries data).length : Int) > 0 := by omega
    simp [h, hpos, bind, Except.bind, pure, Except.pure]

theorem stdev_loop (data : Vector F) (avg : F) :
    (List.range data.GetSize.toNat).foldlM (stdevStep data avg) (zero, 0)
      = Except.ok (fsum ((validEntries data).map (fun e => mul (sub e avg) (sub e avg))),
          ((validEntries data).length : Int)) := by
  rw [foldlM_eq_ok_foldl (stdevStep data avg)
    (fun (acc : F × Int) e =>
      if !(isnan e) then (add acc.1 ((fun e => mul (sub e avg) (sub e avg)) e), acc.2 + 1) else acc)
    (fun (i : Nat) => load data.data (i : Int))]
  · rw [foldl_valid (fun e => mul (sub e avg) (sub e avg))]
    simp [validEntries, Vector.elems, Vector.GetSize, fsum]
  · intro i hi acc
    rw [stdevStep, Vector.indexConst_of_lt data i (List.mem_range.mp hi)]
    simp only [bind, Except.bind]
    split_ifs <;> rfl

theorem foldl_add_nan (l : List F) (hl : ∀ e ∈ l, e = nan) (hne : l ≠ []) (s : F) :
    l.foldl add s = nan := by
  induction l generalizing s with
  | nil => exact absurd rfl hne
  | cons e l ih =>
    rw [List.foldl_cons, hl e (List.mem_cons_self e l), add_nan]
    cases l with
    | nil => rfl
    | cons e2 l2 => exact ih (fun x hx => hl x (List.mem_cons_of_mem e hx)) (by simp) nan

theorem stdev_eq_stdevSpec (data : Vector F) : stdev data = Except.ok (stdevSpec data) := by
  unfold stdev
  rw [mean_eq_meanSpec]
  simp only [bind, Except.bind]
  by_cases hnan : isnan (meanSpec data) = true
  · rw [if_pos hnan]
    unfold stdevSpec
    by_cases h2 : (validEntries data).length < 2
    · rw [if_pos h2]; rfl
    · rw [if_neg h2]
      have h0 : ¬ (validEntries data).length = 0 := by omega
      have havg : div (fsum (validEntries data)) (ofInt ((validEntries data).length : Int))
          = (nan : F) := by
        have := (isnan_iff _).1 hnan
        unfold meanSpec at this
        rwa [if_neg h0] at this
      simp only [havg]
      have hsum : fsum ((validEntries data).map (fun e => mul (sub e (nan : F)) (sub e nan)))
          = (nan : F) := by
        apply foldl_add_nan
        · intro e he
          obtain ⟨a, -, rfl⟩ := List.mem_map.mp he
          rw [sub_nan, mul_nan]
        · intro hnil
          rw [List.map_eq_nil_iff] at hnil
          rw [hnil] at h0
          exact h0 rfl
      rw [hsum, nan_div, sqrt_nan]
      rfl
  · rw [if_neg hnan, stdev_loop]
    unfold stdevSpec
    by_cases h2 : (validEntries data).length < 2
    · have : ((validEntries data).length : Int) ≤ 1 := by omega
      simp [h2, this, pure, Except.pure]
    · have h0 : ¬ (validEntries data).length = 0 := by omega
      have : ¬ ((validEntries data).length : Int) ≤ 1 := by omega
      have hm : meanSpec data
          = div (fsum (validEntries data)) (ofInt ((validEntries data).length : Int)) := by
        unfold meanSpec; rw [if_neg h0]
      simp only [h2, this, if_false, pure, Except.pure, hm]

end Statistics

section Pearson

open FloatOps

variable {F : Type} [FloatOps F]

/-- The body of the loop of `pearson` on one pair of elements. -/
theorem foldl_validPairs (ps : List (F × F)) (acc : PearsonAcc F) :
    ps.foldl (fun (acc : PearsonAcc F) p =>
        if (isnan p.1 || isnan p.2) = true then acc
        else PearsonAcc.mk (add acc.sumX p.1) (add acc.sumY p.2) (add acc.sumXY (mul p.1 p.2))
          (add acc.sumX2 (mul p.1 p.1)) (add acc.sumY2 (mul p.2 p.2)) (acc.n + 1)) acc
      = PearsonAcc.mk
          (((ps.filter (fun p => !(isnan p.1) && !(isnan p.2))).map (fun p => p.1)).foldl add acc.sumX)
          (((ps.filter (fun p => !(isnan p.1) && !(isnan p.2))).map (fun p => p.2)).foldl add acc.sumY)
          (((ps.filter (fun p => !(isnan p.1) && !(isnan p.2))).map (fun p => mul p.1 p.2)).foldl
            add acc.sumXY)
          (((ps.filter (fun p => !(isnan p.1) && !(isnan p.2))).map (fun p => mul p.1 p.1)).foldl
            add acc.sumX2)
          (((ps.filter (fun p => !(isnan p.1) && !(isnan p.2))).map (fun p => mul p.2 p.2)).foldl
            add acc.sumY2)
          (acc.n + ((ps.filter (fun p => !(isnan p.1) && !(isnan p.2))).length : Int)) := by
  induction ps generalizing acc with
  | nil => simp
  | cons p ps ih =>
    rw [List.foldl_cons]
    by_cases hp : (!(isnan p.1) && !(isnan p.2)) = true
    · have hf : List.filter (fun p : F × F => !(isnan p.1) && !(isnan p.2)) (p :: ps)
          = p :: List.filter (fun p : F × F => !(isnan p.1) && !(isnan p.2)) ps :=
        List.filter_cons_of_pos hp
      have hc : ¬ (isnan p.1 || isnan p.2) = true := by
        simp only [Bool.and_eq_true, Bool.not_eq_true', Bool.or_eq_true, not_or] at hp ⊢
        exact ⟨by simp [hp.1], by simp [hp.2]⟩
      rw [if_neg hc, ih, hf]
      simp only [List.map_cons, List.foldl_cons, List.length_cons, Nat.cast_add, Nat.cast_one,
        PearsonAcc.mk.injEq, true_and]
      omega
    · have hf : List.filter (fun p : F × F => !(isnan p.1) && !(isnan p.2)) (p :: ps)
          = List.filter (fun p : F × F => !(isnan p.1) && !(isnan p.2)) ps :=
        List.filter_cons_of_neg hp
      have hc : (isnan p.1 || isnan p.2) = true := by
        cases h1 : isnan p.1 <;> cases h2 : isnan p.2 <;> simp_all
      rw [if_pos hc, ih, hf]

theorem zip_elems (x y : Vector F) (h : x.GetSize = y.GetSize) :
    List.zip x.elems y.elems
      = (List.range x.GetSize.toNat).map
          (fun (i : Nat) => (load x.data (i : Int), load y.data (i : Int))) := by
  unfold Vector.GetSize at h
  simp only [Vector.elems, Vector.GetSize, ← h]
  exact List.zip_map' _ _ _

theorem pearson_loop (x y : Vector F) (h : x.GetSize = y.GetSize) (acc : PearsonAcc F) :
    (List.range x.GetSize.toNat).foldlM (pearsonStep x y) acc
      = Except.ok ((List.zip x.elems y.elems).foldl (fun (acc : PearsonAcc F) p =>
        if (isnan p.1 || isnan p.2) = true then acc
        else PearsonAcc.mk (add acc.sumX p.1) (add acc.sumY p.2) (add acc.sumXY (mul p.1 p.2))
          (add acc.sumX2 (mul p.1 p.1)) (add acc.sumY2 (mul p.2 p.2)) (acc.n + 1)) acc) := by
  rw [zip_elems x y h]
  apply foldlM_eq_ok_foldl
  intro i hi a
  have hix := List.mem_range.mp hi
  have hiy : i < y.size.toNat := by unfold Vector.GetSize at h hix; rw [← h]; exact hix
  rw [pearsonStep, Vector.indexConst_of_lt x i hix, Vector.indexConst_of_lt y i hiy]
  simp only [bind, Except.bind]
  split_ifs <;> rfl

theorem pearson_eq_pearsonSpec (x y : Vector F) (h : x.GetSize = y.GetSize)
    (hne : x.GetSize ≠ 0) : pearson x y = Except.ok (pearsonSpec x y) := by
  have hc : ¬ (x.GetSize ≠ y.GetSize ∨ x.GetSize = 0) := by
    rintro (h1 | h1)
    · exact h1 h
    · exact hne h1
  unfold pearson
  rw [if_neg hc, pearson_loop x y h, foldl_validPairs]
  simp only [bind, Except.bind, pure, Except.pure, pearsonResult, pearsonSpec, validPairs, fsum,
    zero_add]

end Pearson

/-- C1: for every finite sequence of keys inserted one by one into an empty
tree, the keys that `InOrder` hands to its callback are strictly ascending and
are exactly the distinct keys of the sequence, each once. -/
theorem C1_inorder_sorted_distinct {T : Type} [LinearOrder T] (ks : List T) :
    ((BST.insertAll ks).inOrderVisits).Sorted (· < ·) ∧
    ((BST.insertAll ks).inOrderVisits).Nodup ∧
    (∀ k, k ∈ (BST.insertAll ks).inOrderVisits ↔ k ∈ ks) ∧
    ((BST.insertAll ks).inOrderVisits).Perm ks.dedup := by
  have hs : ((BST.insertAll ks).inOrderVisits).Sorted (· < ·) := by
    rw [BST.inOrderVisits_eq_keys]
    exact Node.sorted_keys _ (BST.ordered_insertAll ks)
  have hm : ∀ k, k ∈ (BST.insertAll ks).inOrderVisits ↔ k ∈ ks := by
    intro k
    rw [BST.inOrderVisits_eq_keys]
    exact BST.mem_keys_insertAll ks k
  have hn : ((BST.insertAll ks).inOrderVisits).Nodup := hs.nodup
  refine ⟨hs, hn, hm, ?_⟩
  apply (List.perm_ext_iff_of_nodup hn (List.nodup_dedup ks)).2
  intro k
  rw [hm k, List.mem_dedup]

/-- C2: for every initial capacity `c0 ≥ 1` and every `n ≥ 0`, provided some
value `c0 * 2^j ≥ n` is an `int` (no overflow), after `n` calls of `pushBack`
on `Vector(c0)` the size is `n` and the capacity is the smallest value of the
form `c0 * 2^k` that is at least `n`. -/
theorem C2_capacity_after_pushes {T : Type} [Inhabited T] (c0 : Int) (xs : List T)
    (hc : 1 ≤ c0)
    (hov : ∃ j : Nat, (xs.length : Int) ≤ c0 * 2 ^ j ∧ c0 * 2 ^ j ≤ INT_MAX) :
    ((Vector.new c0 : Vector T).pushAll xs).GetSize = xs.length ∧
    ∃ k : Nat, ((Vector.new c0 : Vector T).pushAll xs).capacity = c0 * 2 ^ k ∧
      (xs.length : Int) ≤ c0 * 2 ^ k ∧
      ∀ j : Nat, (xs.length : Int) ≤ c0 * 2 ^ j → c0 * 2 ^ k ≤ c0 * 2 ^ j := by
  obtain ⟨hsz, -, k, hk, hle, hmin⟩ := Vector.pushAll_new_spec c0 hc xs hov
  exact ⟨hsz, k, hk, hle, fun j hj => Vector.mul_two_pow_le hc (hmin j hj)⟩

/-- C2 at `Vector(3)` and four pushes: the capacity ends at `3 * 2^1 = 6`. -/
theorem C2_capacity_after_pushes_witness :
    ((Vector.new 3 : Vector Nat).pushAll [10, 20, 30, 40]).capacity = 6 ∧
    ((Vector.new 3 : Vector Nat).pushAll [10, 20, 30, 40]).GetSize = 4 ∧
    ∃ k : Nat, ((Vector.new 3 : Vector Nat).pushAll [10, 20, 30, 40]).capacity = 3 * 2 ^ k ∧
      (4 : Int) ≤ 3 * 2 ^ k ∧ ∀ j : Nat, (4 : Int) ≤ 3 * 2 ^ j → (3 : Int) * 2 ^ k ≤ 3 * 2 ^ j :=
  ⟨by decide, C2_capacity_after_pushes 3 [10, 20, 30, 40] (by decide) ⟨1, by decide, by decide⟩⟩

/-- C3: for every list of keys inserted into an empty tree and every key `k`,
`search(k)` is true exactly when `k` occurs in the list. -/
theorem C3_search_iff_inserted {T : Type} [LinearOrder T] (ks : List T) (k : T) :
    (BST.insertAll ks).search k = true ↔ k ∈ ks := by
  unfold BST.search
  rw [Node.search_iff_mem _ (BST.ordered_insertAll ks), BST.mem_keys_insertAll]

/-- C4: the strict search-tree order holds for the empty tree and every
`insert` preserves it. -/
theorem C4_insert_preserves_order {T : Type} [LinearOrder T] :
    Node.Ordered (BST.empty : BST T).root ∧
    ∀ (t : BST T) (k : T), Node.Ordered t.root → Node.Ordered (t.insert k).root :=
  ⟨trivial, fun t k h => Node.ordered_insert t.root k h⟩

/-- C4 at a concrete tree: inserting 1 into the ordered tree `2 ← 3 → 5`. -/
theorem C4_insert_preserves_order_witness :
    Node.Ordered (BST.mk (Node.mk 3 (Node.mk 2 Node.null Node.null) (Node.mk 5 Node.null Node.null))).root ∧
    Node.Ordered ((BST.mk (Node.mk 3 (Node.mk 2 Node.null Node.null)
      (Node.mk 5 Node.null Node.null))).insert (1 : Nat)).root :=
  ⟨by decide, C4_insert_preserves_order.2 _ 1 (by decide)⟩

/-- C5: for every vector with `0 ≤ size ≤ capacity` holding `e_0 .. e_{n-1}`
and every value, after `pushBack` the size is `n + 1`, index `n` holds the
value and every index below `n` still holds `e_i`, also when the call grows
the block (the doubled capacity being an `int`). -/
theorem C5_pushBack_appends {T : Type} [Inhabited T] (v : Vector T) (x : T)
    (h0 : 0 ≤ v.size) (hle : v.size ≤ v.capacity) (hA : v.Allocated)
    (hdbl : v.size = v.capacity → v.capacity * 2 ≤ INT_MAX) :
    (v.pushBack x).GetSize = v.GetSize + 1 ∧
    (v.pushBack x).index v.GetSize = Except.ok x ∧
    (∀ i : Int, 0 ≤ i → i < v.GetSize → (v.pushBack x).index i = v.index i) ∧
    (v.pushBack x).elems = v.elems ++ [x] := by
  obtain ⟨n, hn⟩ := Int.eq_ofNat_of_zero_le h0
  obtain ⟨h1, -, -, h4, h5⟩ := Vector.pushBack_spec v x n hn hle hA hdbl
  have hload : ∀ j : Nat, j < n → load (v.pushBack x).data (j : Int) = load v.data (j : Int) := by
    intro j hj
    rw [load_natCast, load_natCast]
    exact h5 j hj
  refine ⟨by simp [Vector.GetSize, h1, hn], ?_, ?_, ?_⟩
  · have : ¬ ((n : Int) < 0 ∨ (n : Int) ≥ (n : Int) + 1) := by omega
    simp only [Vector.index, Vector.GetSize, hn, h1, this, if_false, load_natCast, h4]
    rfl
  · intro i hi0 hi
    obtain ⟨j, rfl⟩ := Int.eq_ofNat_of_zero_le hi0
    simp only [Vector.GetSize, hn] at hi
    have hj : j < n := by omega
    have c1 : ¬ ((j : Int) < 0 ∨ (j : Int) ≥ (n : Int) + 1) := by omega
    have c2 : ¬ ((j : Int) < 0 ∨ (j : Int) ≥ (n : Int)) := by omega
    simp only [Vector.index, hn, h1, c1, c2, if_false, hload j hj]
  · simp only [Vector.elems, h1, hn]
    have e1 : ((n : Int) + 1).toNat = n + 1 := by omega
    rw [e1, Int.toNat_ofNat, List.range_succ, List.map_append, List.map_cons, List.map_nil,
      load_natCast, h4]
    congr 1
    apply List.map_congr_left
    intro j hj
    exact hload j (List.mem_range.mp hj)

/-- C5 on a full vector of capacity 2: the push grows the block to 4. -/
theorem C5_pushBack_appends_witness :
    ((Vector.mk [7, 8] 2 2 : Vector Nat).pushBack 9).capacity = 4 ∧
    ((Vector.mk [7, 8] 2 2 : Vector Nat).pushBack 9).GetSize = 2 + 1 ∧
    ((Vector.mk [7, 8] 2 2 : Vector Nat).pushBack 9).index 2 = Except.ok 9 ∧
    (∀ i : Int, 0 ≤ i → i < 2 →
      ((Vector.mk [7, 8] 2 2 : Vector Nat).pushBack 9).index i = (Vector.mk [7, 8] 2 2).index i) ∧
    ((Vector.mk [7, 8] 2 2 : Vector Nat).pushBack 9).elems = [7, 8] ++ [9] :=
  ⟨by decide, C5_pushBack_appends (Vector.mk [7, 8] 2 2) 9 (by decide) (by decide) (by decide)
    (by decide)⟩

/-- C6: for every vector and every integer index, `operator[]` (non-const
and const) throws `std::out_of_range` exactly when `index < 0` or
`index >= GetSize()`; otherwise it returns the element stored in that slot
of the block. -/
theorem C6_index_out_of_range {T : Type} [Inhabited T] (v : Vector T) (i : Int) :
    (v.index i = Except.error (Exn.out_of_range "Index out of range") ↔ (i < 0 ∨ i ≥ v.GetSize)) ∧
    (v.indexConst i = Except.error (Exn.out_of_range "Index out of range") ↔
      (i < 0 ∨ i ≥ v.GetSize)) ∧
    ((∃ e, v.index i = Except.error e) ↔ (i < 0 ∨ i ≥ v.GetSize)) ∧
    ((∃ e, v.indexConst i = Except.error e) ↔ (i < 0 ∨ i ≥ v.GetSize)) ∧
    (¬ (i < 0 ∨ i ≥ v.GetSize) →
      v.index i = Except.ok (load v.data i) ∧ v.indexConst i = Except.ok (load v.data i) ∧
      ∀ e, v.data[i.toNat]? = some e → load v.data i = e) := by
  by_cases h : i < 0 ∨ i ≥ v.size
  · simp [Vector.index, Vector.indexConst, Vector.GetSize, h, throw, throwThe, MonadExceptOf.throw]
  · have h0 : 0 ≤ i := by omega
    simp only [Vector.index, Vector.indexConst, Vector.GetSize, h, if_false, pure, Except.pure,
      false_iff, not_false_eq_true, true_implies, true_and, reduceCtorEq, not_exists,
      exists_false]
    intro e he
    simp [load, h0, List.getD_eq_getElem?_getD, he]

/-- C6 on a vector of size 2 in a block of 4: index 1 is served, index 2 is not. -/
theorem C6_index_out_of_range_witness :
    (Vector.mk [7, 8, 0, 0] 2 4 : Vector Nat).index 1 = Except.ok 8 ∧
    (Vector.mk [7, 8, 0, 0] 2 4 : Vector Nat).indexConst 1 = Except.ok 8 ∧
    (Vector.mk [7, 8, 0, 0] 2 4 : Vector Nat).index 2
      = Except.error (Exn.out_of_range "Index out of range") ∧
    (Vector.mk [7, 8, 0, 0] 2 4 : Vector Nat).index (-1)
      = Except.error (Exn.out_of_range "Index out of range") :=
  ⟨((C6_index_out_of_range (Vector.mk [7, 8, 0, 0] 2 4) 1).2.2.2.2 (by decide)).1,
   ((C6_index_out_of_range (Vector.mk [7, 8, 0, 0] 2 4) 1).2.2.2.2 (by decide)).2.1,
   (C6_index_out_of_range (Vector.mk [7, 8, 0, 0] 2 4) 2).1.2 (by decide),
   (C6_index_out_of_range (Vector.mk [7, 8, 0, 0] 2 4) (-1)).1.2 (by decide)⟩

/-- C7: for every pair of vectors, `pearson` throws `std::invalid_argument`
exactly when the sizes differ or both vectors are empty; in every other case
it returns a value and throws nothing. -/
theorem C7_pearson_invalid_argument {F : Type} [FloatOps F] (x y : Vector F) :
    (pearson x y = Except.error (Exn.invalid_argument "Vector dimensions mismatch") ↔
      (x.GetSize ≠ y.GetSize ∨ (x.GetSize = 0 ∧ y.GetSize = 0))) ∧
    ((∃ e, pearson x y = Except.error e) ↔
      (x.GetSize ≠ y.GetSize ∨ (x.GetSize = 0 ∧ y.GetSize = 0))) ∧
    (¬ (x.GetSize ≠ y.GetSize ∨ (x.GetSize = 0 ∧ y.GetSize = 0)) →
      ∃ r, pearson x y = Except.ok r) := by
  by_cases h : x.GetSize ≠ y.GetSize ∨ x.GetSize = 0
  · have h2 : x.GetSize ≠ y.GetSize ∨ (x.GetSize = 0 ∧ y.GetSize = 0) := by
      rcases h with h | h
      · exact Or.inl h
      · by_cases he : x.GetSize = y.GetSize
        · exact Or.inr ⟨h, he ▸ h⟩
        · exact Or.inl he
    have hp : pearson x y = Except.error (Exn.invalid_argument "Vector dimensions mismatch") := by
      unfold pearson
      rw [if_pos h]
      rfl
    refine ⟨⟨fun _ => h2, fun _ => hp⟩, ⟨fun _ => h2, fun _ => ⟨_, hp⟩⟩, fun hn => absurd h2 hn⟩
  · have hsz : x.GetSize = y.GetSize := by
      by_contra hne
      exact h (Or.inl hne)
    have hne : x.GetSize ≠ 0 := fun h0 => h (Or.inr h0)
    have h2 : ¬ (x.GetSize ≠ y.GetSize ∨ (x.GetSize = 0 ∧ y.GetSize = 0)) := by
      rintro (h3 | ⟨h3, -⟩)
      · exact h3 hsz
      · exact hne h3
    have hp := pearson_eq_pearsonSpec x y hsz hne
    refine ⟨⟨fun he => ?_, fun h3 => absurd h3 h2⟩, ⟨fun he => ?_, fun h3 => absurd h3 h2⟩,
      fun _ => ⟨_, hp⟩⟩
    · rw [hp] at he
      cases he
    · obtain ⟨e, he⟩ := he
      rw [hp] at he
      cases he

/-- C7 on vectors of sizes 1 and 2 (thrown) and on two vectors of size 1
(a value is returned). -/
theorem C7_pearson_invalid_argument_witness :
    pearson (Vector.mk [ExtRat.fin 1] 1 1) (Vector.mk [ExtRat.fin 1, ExtRat.fin 2] 2 2)
      = Except.error (Exn.invalid_argument "Vector dimensions mismatch") ∧
    ∃ r, pearson (Vector.mk [ExtRat.fin 1] 1 1) (Vector.mk [ExtRat.fin 2] 1 1) = Except.ok r :=
  ⟨(C7_pearson_invalid_argument (Vector.mk [ExtRat.fin 1] 1 1)
      (Vector.mk [ExtRat.fin 1, ExtRat.fin 2] 2 2)).1.2 (Or.inl (by decide)),
   (C7_pearson_invalid_argument (Vector.mk [ExtRat.fin 1] 1 1) (Vector.mk [ExtRat.fin 2] 1 1)).2.2
      (by decide)⟩

/-- C9, counterexample: on the two entries `+inf` and `-inf`, neither of them
the sentinel, `mean` returns the sentinel: the sum is `0 + inf = inf`, then
`inf + -inf = NaN`, and `NaN / 2 = NaN`, as in IEEE 754. -/
theorem C9_mean_sentinel_iff_counterexample :
    mean (Vector.mk [ExtRat.inf false, ExtRat.inf true] 2 2) = Except.ok FloatOps.nan ∧
    validEntries (Vector.mk [ExtRat.inf false, ExtRat.inf true] 2 2)
      = [ExtRat.inf false, ExtRat.inf true] ∧
    ¬ (mean (Vector.mk [ExtRat.inf false, ExtRat.inf true] 2 2) = Except.ok FloatOps.nan ↔
        validEntries (Vector.mk [ExtRat.inf false, ExtRat.inf true] 2 2) = []) := by
  have h1 : mean (Vector.mk [ExtRat.inf false, ExtRat.inf true] 2 2) = Except.ok FloatOps.nan :=
    (mean_eq_meanSpec _).trans (congrArg Except.ok (by decide))
  have h2 : validEntries (Vector.mk [ExtRat.inf false, ExtRat.inf true] 2 2)
      = [ExtRat.inf false, ExtRat.inf true] := by decide
  refine ⟨h1, h2, fun h => ?_⟩
  have := h.1 h1
  rw [h2] at this
  cases this

/-- C9, amended: for every vector of values, `mean` returns the sentinel when
the vector has no non-sentinel entry, and otherwise the sum of the non-sentinel
entries (accumulated from `0.0f` in index order) divided by their count. -/
theorem C9_mean_value {F : Type} [FloatOps F] (v : Vector F) :
    mean v = Except.ok (meanSpec v) ∧
    (validEntries v = [] → mean v = Except.ok FloatOps.nan) ∧
    (validEntries v ≠ [] →
      mean v = Except.ok
        (FloatOps.div (fsum (validEntries v)) (FloatOps.ofInt (validEntries v).length))) := by
  have hm := mean_eq_meanSpec v
  refine ⟨hm, fun h => ?_, fun h => ?_⟩
  · rw [hm, meanSpec, h]; rfl
  · rw [hm, meanSpec, if_neg (fun h0 => h (List.length_eq_zero.mp h0))]

unseal Rat.add Rat.mul Rat.inv Rat.sub in
/-- C9 on `[2, 4, NaN]`, whose mean is `3`, and on `[NaN, NaN]`. -/
theorem C9_mean_value_witness :
    mean (Vector.mk [ExtRat.fin 2, ExtRat.fin 4, ExtRat.nan] 3 3) = Except.ok (ExtRat.fin 3) ∧
    mean (Vector.mk [ExtRat.nan, ExtRat.nan] 2 2) = Except.ok ExtRat.nan :=
  ⟨((C9_mean_value _).2.2 (by decide)).trans (congrArg Except.ok (by decide)),
   (C9_mean_value (Vector.mk [ExtRat.nan, ExtRat.nan] 2 2)).2.1 (by decide)⟩

/-- C10: for every vector with `m` non-sentinel entries, `stdev` returns the
sentinel when `m < 2`, and otherwise the square root of the sum, over the
non-sentinel entries, of the squared deviation from their mean, divided by
`m - 1`. -/
theorem C10_stdev_value {F : Type} [FloatOps F] (v : Vector F) :
    stdev v = Except.ok (stdevSpec v) ∧
    ((validEntries v).length < 2 → stdev v = Except.ok FloatOps.nan) ∧
    (2 ≤ (validEntries v).length →
      stdev v = Except.ok (FloatOps.sqrt (FloatOps.div
        (fsum ((validEntries v).map (fun e =>
          FloatOps.mul
            (FloatOps.sub e
              (FloatOps.div (fsum (validEntries v)) (FloatOps.ofInt (validEntries v).length)))
            (FloatOps.sub e
              (FloatOps.div (fsum (validEntries v)) (FloatOps.ofInt (validEntries v).length))))))
        (FloatOps.ofInt ((validEntries v).length - 1))))) := by
  have hs := stdev_eq_stdevSpec v
  refine ⟨hs, fun h => ?_, fun h => ?_⟩
  · rw [hs, stdevSpec, if_pos h]
  · rw [hs, stdevSpec, if_neg (by omega)]

unseal Rat.add Rat.mul Rat.inv Rat.sub in
/-- C10 on `[5]`, with a single valid entry, and on `[2, 4, 6]`, whose
standard deviation is `2`. -/
theorem C10_stdev_value_witness :
    stdev (Vector.mk [ExtRat.fin 5] 1 1) = Except.ok ExtRat.nan ∧
    stdev (Vector.mk [ExtRat.fin 2, ExtRat.fin 4, ExtRat.fin 6] 3 3) = Except.ok (ExtRat.fin 2) :=
  ⟨(C10_stdev_value (Vector.mk [ExtRat.fin 5] 1 1)).2.1 (by decide),
   ((C10_stdev_value (Vector.mk [ExtRat.fin 2, ExtRat.fin 4, ExtRat.fin 6] 3 3)).2.2
      (by decide)).trans (congrArg Except.ok (by decide))⟩

/-! ## Further properties of the tree -/

namespace Node

variable {T : Type} {σ : Type}

theorem insert_eq_self_of_search [LinearOrder T] (t : Node T) (k : T)
    (h : search t k = true) : insert t k = t := by
  induction t with
  | null => simp [search] at h
  | mk d l r ihl ihr =>
    unfold search at h
    unfold insert
    by_cases hd : d = k
    · subst hd
      simp
    · rw [if_neg hd] at h
      by_cases h1 : k < d
      · rw [if_pos h1] at h
        rw [if_pos h1, ihl h]
      · rw [if_neg h1] at h
        have h2 : k > d := lt_of_le_of_ne (not_lt.mp h1) hd
        rw [if_neg h1, if_pos h2, ihr h]

theorem search_insert_self [LinearOrder T] (t : Node T) (k : T) :
    search (insert t k) k = true := by
  induction t with
  | null => simp [insert, search]
  | mk d l r ihl ihr =>
    unfold insert
    by_cases h1 : k < d
    · rw [if_pos h1]
      unfold search
      rw [if_neg (ne_of_gt h1), if_pos h1]
      exact ihl
    · rw [if_neg h1]
      by_cases h2 : k > d
      · rw [if_pos h2]
        unfold search
        rw [if_neg (ne_of_lt h2), if_neg h1]
        exact ihr
      · rw [if_neg h2]
        have hd : d = k := le_antisymm (not_lt.mp h1) (not_lt.mp h2)
        unfold search
        rw [if_pos hd]

/-- What `insert` does to a tree that does not hold the key. -/
theorem insert_of_not_search [LinearOrder T] (t : Node T) (k : T) (h : search t k = false) :
    size (insert t k) = size t + 1 ∧
    keyAt t (descent t k) = none ∧
    keyAt (insert t k) (descent t k) = some k ∧
    keyAt (insert t k) (descent t k ++ [false]) = none ∧
    keyAt (insert t k) (descent t k ++ [true]) = none ∧
    ∀ q, q ≠ descent t k → keyAt (insert t k) q = keyAt t q := by
  induction t with
  | null =>
    refine ⟨rfl, rfl, rfl, rfl, rfl, ?_⟩
    intro q hq
    cases q with
    | nil => exact absurd rfl hq
    | cons b q => cases b <;> rfl
  | mk d l r ihl ihr =>
    unfold search at h
    by_cases hd : d = k
    · rw [if_pos hd] at h
      cases h
    · rw [if_neg hd] at h
      by_cases h1 : k < d
      · rw [if_pos h1] at h
        obtain ⟨i1, i2, i3, i4, i5, i6⟩ := ihl h
        simp only [insert, descent, if_pos h1, size, keyAt, List.cons_append]
        refine ⟨by omega, i2, i3, i4, i5, ?_⟩
        intro q hq
        cases q with
        | nil => rfl
        | cons b q =>
          cases b
          · exact i6 q (fun e => hq (by rw [e]))
          · rfl
      · rw [if_neg h1] at h
        have h2 : k > d := lt_of_le_of_ne (not_lt.mp h1) hd
        obtain ⟨i1, i2, i3, i4, i5, i6⟩ := ihr h
        simp only [insert, descent, if_neg h1, if_pos h2, size, keyAt, List.cons_append]
        refine ⟨by omega, i2, i3, i4, i5, ?_⟩
        intro q hq
        cases q with
        | nil => rfl
        | cons b q =>
          cases b
          · rfl
          · exact i6 q (fun e => hq (by rw [e]))

theorem PreOrder_eq_foldl (process : T → σ → σ) (t : Node T) (s : σ) :
    PreOrder process t s = (preKeys t).foldl (fun acc x => process x acc) s := by
  induction t generalizing s with
  | null => rfl
  | mk d l r ihl ihr => simp [PreOrder, preKeys, ihl, ihr, List.foldl_append]

theorem PostOrder_eq_foldl (process : T → σ → σ) (t : Node T) (s : σ) :
    PostOrder process t s = (postKeys t).foldl (fun acc x => process x acc) s := by
  induction t generalizing s with
  | null => rfl
  | mk d l r ihl ihr => simp [PostOrder, postKeys, ihl, ihr, List.foldl_append]

theorem length_keys (t : Node T) : (keys t).length = size t := by
  induction t with
  | null => rfl
  | mk d l r ihl ihr => simp [keys, size, ihl, ihr]; omega

theorem preKeys_perm_keys (t : Node T) : (preKeys t).Perm (keys t) := by
  induction t with
  | null => exact List.Perm.refl _
  | mk d l r ihl ihr =>
    simp only [preKeys, keys]
    exact ((ihl.append ihr).cons d).trans List.perm_middle.symm

theorem postKeys_perm_keys (t : Node T) : (postKeys t).Perm (keys t) := by
  induction t with
  | null => exact List.Perm.refl _
  | mk d l r ihl ihr =>
    simp only [postKeys, keys]
    have h1 : (postKeys l ++ postKeys r ++ [d]).Perm (d :: (postKeys l ++ postKeys r)) :=
      List.perm_append_singleton d _
    exact (h1.trans ((ihl.append ihr).cons d)).trans List.perm_middle.symm

end Node

theorem foldl_record {T : Type} (xs acc : List T) :
    xs.foldl (fun acc x => BST.record x acc) acc = acc ++ xs := by
  induction xs generalizing acc with
  | nil => simp
  | cons x xs ih => rw [List.foldl_cons, ih]; simp [BST.record]

namespace BST

variable {T : Type}

theorem preOrderVisits_eq (t : BST T) : t.preOrderVisits = Node.preKeys t.root := by
  unfold preOrderVisits PreOrder
  rw [Node.PreOrder_eq_foldl, foldl_record, List.nil_append]

theorem postOrderVisits_eq (t : BST T) : t.postOrderVisits = Node.postKeys t.root := by
  unfold postOrderVisits PostOrder
  rw [Node.PostOrder_eq_foldl, foldl_record, List.nil_append]

end BST

/-- C11: for every tree and key, if `search(k)` is true then `insert(k)`
leaves the tree structurally unchanged; and a second `insert(k)` right after
a first one changes nothing. -/
theorem C11_insert_existing_unchanged {T : Type} [LinearOrder T] (t : BST T) (k : T) :
    (t.search k = true → t.insert k = t) ∧
    (t.insert k).search k = true ∧
    (t.insert k).insert k = t.insert k := by
  refine ⟨fun h => ?_, Node.search_insert_self t.root k, ?_⟩
  · unfold BST.insert
    rw [Node.insert_eq_self_of_search t.root k h]
  · unfold BST.insert
    rw [Node.insert_eq_self_of_search _ k (Node.search_insert_self t.root k)]

/-- C11 on the tree `2 ← 3 → 5` and the key 5, which it holds. -/
theorem C11_insert_existing_unchanged_witness :
    (BST.mk (Node.mk 3 (Node.mk 2 Node.null Node.null) (Node.mk 5 Node.null Node.null))).insert
        (5 : Nat)
      = BST.mk (Node.mk 3 (Node.mk 2 Node.null Node.null) (Node.mk 5 Node.null Node.null)) :=
  (C11_insert_existing_unchanged _ 5).1 (by decide)

/-- C12: for every tree and every key that `search` does not find, `insert`
adds exactly one node: the node count grows by one, the new node holds the
key, has no children and sits at the empty link the descent reaches, and every
other position holds what it held before. -/
theorem C12_insert_absent_adds_leaf {T : Type} [LinearOrder T] (t : BST T) (k : T)
    (h : t.search k = false) :
    Node.size (t.insert k).root = Node.size t.root + 1 ∧
    Node.keyAt t.root (Node.descent t.root k) = none ∧
    Node.keyAt (t.insert k).root (Node.descent t.root k) = some k ∧
    Node.keyAt (t.insert k).root (Node.descent t.root k ++ [false]) = none ∧
    Node.keyAt (t.insert k).root (Node.descent t.root k ++ [true]) = none ∧
    (∀ q, q ≠ Node.descent t.root k →
      Node.keyAt (t.insert k).root q = Node.keyAt t.root q) ∧
    (∀ q d, Node.keyAt t.root q = some d → Node.keyAt (t.insert k).root q = some d) := by
  obtain ⟨h1, h2, h3, h4, h5, h6⟩ := Node.insert_of_not_search t.root k h
  refine ⟨h1, h2, h3, h4, h5, h6, ?_⟩
  intro q d hq
  by_cases hqd : q = Node.descent t.root k
  · rw [hqd, h2] at hq
    cases hq
  · rw [BST.insert, h6 q hqd, hq]

/-- C12 on the tree `2 ← 3 → 5` and the key 4: the new leaf is the left
child of 5. -/
theorem C12_insert_absent_adds_leaf_witness :
    Node.descent (Node.mk 3 (Node.mk 2 Node.null Node.null) (Node.mk 5 Node.null Node.null))
      (4 : Nat) = [true, false] ∧
    (BST.mk (Node.mk 3 (Node.mk 2 Node.null Node.null) (Node.mk 5 Node.null Node.null))).insert
        (4 : Nat)
      = BST.mk (Node.mk 3 (Node.mk 2 Node.null Node.null)
          (Node.mk 5 (Node.mk 4 Node.null Node.null) Node.null)) ∧
    Node.size ((BST.mk (Node.mk 3 (Node.mk 2 Node.null Node.null)
      (Node.mk 5 Node.null Node.null))).insert (4 : Nat)).root
      = Node.size (Node.mk 3 (Node.mk 2 Node.null Node.null) (Node.mk 5 Node.null Node.null)) + 1 :=
  ⟨by decide, by decide,
    (C12_insert_absent_adds_leaf
      (BST.mk (Node.mk 3 (Node.mk 2 Node.null Node.null) (Node.mk 5 Node.null Node.null))) 4
      (by decide)).1⟩

/-- C13: for every tree and every callback, `InOrder`, `PreOrder` and
`PostOrder` call the callback once per node, on the keys in the order
left-self-right, self-left-right and left-right-self respectively; each of
the three visit sequences has as many entries as the tree has nodes, and they
are permutations of one another. -/
theorem C13_traversals_visit_once {T σ : Type} (t : BST T) (process : T → σ → σ) (s : σ) :
    t.InOrder process s = t.inOrderVisits.foldl (fun acc x => process x acc) s ∧
    t.PreOrder process s = t.preOrderVisits.foldl (fun acc x => process x acc) s ∧
    t.PostOrder process s = t.postOrderVisits.foldl (fun acc x => process x acc) s ∧
    t.inOrderVisits.length = Node.size t.root ∧
    t.preOrderVisits.length = Node.size t.root ∧
    t.postOrderVisits.length = Node.size t.root ∧
    t.preOrderVisits.Perm t.inOrderVisits ∧
    t.postOrderVisits.Perm t.inOrderVisits ∧
    t.preOrderVisits.Perm t.postOrderVisits ∧
    (BST.mk (Node.null : Node T)).inOrderVisits = [] ∧
    (BST.mk (Node.null : Node T)).preOrderVisits = [] ∧
    (BST.mk (Node.null : Node T)).postOrderVisits = [] ∧
    (∀ (d : T) (l r : Node T),
      (BST.mk (Node.mk d l r)).inOrderVisits
        = (BST.mk l).inOrderVisits ++ [d] ++ (BST.mk r).inOrderVisits ∧
      (BST.mk (Node.mk d l r)).preOrderVisits
        = [d] ++ (BST.mk l).preOrderVisits ++ (BST.mk r).preOrderVisits ∧
      (BST.mk (Node.mk d l r)).postOrderVisits
        = (BST.mk l).postOrderVisits ++ (BST.mk r).postOrderVisits ++ [d]) := by
  have hin := BST.inOrderVisits_eq_keys t
  have hpre := BST.preOrderVisits_eq t
  have hpost := BST.postOrderVisits_eq t
  have hp1 := Node.preKeys_perm_keys t.root
  have hp2 := Node.postKeys_perm_keys t.root
  refine ⟨?_, ?_, ?_, ?_, ?_, ?_, ?_, ?_, ?_, ?_, ?_, ?_, ?_⟩
  · rw [hin]; exact Node.InOrder_eq_foldl process t.root s
  · rw [hpre]; exact Node.PreOrder_eq_foldl process t.root s
  · rw [hpost]; exact Node.PostOrder_eq_foldl process t.root s
  · rw [hin, Node.length_keys]
  · rw [hpre, hp1.length_eq, Node.length_keys]
  · rw [hpost, hp2.length_eq, Node.length_keys]
  · rw [hpre, hin]; exact hp1
  · rw [hpost, hin]; exact hp2
  · rw [hpre, hpost]; exact hp1.trans hp2.symm
  · rw [BST.inOrderVisits_eq_keys]; rfl
  · rw [BST.preOrderVisits_eq]; rfl
  · rw [BST.postOrderVisits_eq]; rfl
  · intro d l r
    simp only [BST.inOrderVisits_eq_keys, BST.preOrderVisits_eq, BST.postOrderVisits_eq,
      Node.keys, Node.preKeys, Node.postKeys, List.append_assoc, List.singleton_append,
      List.cons_append, List.nil_append, and_self]

/-! ## Further properties of the vector -/

theorem fillLoop_spec {T : Type} [Inhabited T] (x : T) (dst : List T) (n : Nat) :
    ((List.range n).foldl (fun d (i : Nat) => store d (i : Int) x) dst).length = dst.length ∧
    ∀ j, j < dst.length →
      ((List.range n).foldl (fun d (i : Nat) => store d (i : Int) x) dst).getD j default
        = if j < n then x else dst.getD j default := by
  induction n with
  | zero => simp
  | succ n ih =>
    obtain ⟨ihl, ihv⟩ := ih
    rw [List.range_succ, List.foldl_append]
    simp only [List.foldl_cons, List.foldl_nil, length_store, ihl, true_and]
    intro j hj
    rw [store_natCast]
    by_cases hjn : j = n
    · subst hjn
      rw [getD_set_self _ _ _ _ (by rw [ihl]; exact hj)]
      simp
    · rw [getD_set_ne _ _ _ _ _ hjn, ihv j hj]
      by_cases h1 : j < n
      · simp [h1, Nat.lt_succ_of_lt h1]
      · have h2 : ¬ j < n + 1 := by omega
        simp [h1, h2]

namespace Vector

variable {T : Type} [Inhabited T]

theorem newFilled_getD (n : Int) (x : T) (j : Nat) (hj : j < n.toNat) :
    (newFilled n x).data.getD j default = x := by
  have hpos : n > 0 := by omega
  simp only [newFilled, hpos, if_true, fillLoop]
  rw [(fillLoop_spec x (alloc n) n.toNat).2 j (by rw [length_alloc]; exact hj), if_pos hj]

theorem newFilled_elems (n : Int) (x : T) : (newFilled n x).elems = List.replicate n.toNat x := by
  have hsz : (newFilled n x).size = n := rfl
  unfold elems
  rw [hsz]
  apply List.ext_getElem
  · simp
  · intro i h1 h2
    simp only [List.length_map, List.length_range] at h1
    simp only [List.getElem_map, List.getElem_range, List.getElem_replicate, load_natCast]
    exact newFilled_getD n x i h1

theorem newFilled_data (n : Int) (x : T) (hn : 1 ≤ n) :
    (newFilled n x).data = List.replicate n.toNat x := by
  have hpos : n > 0 := by omega
  have hlen : (newFilled n x).data.length = n.toNat := by
    simp only [newFilled, hpos, if_true, fillLoop]
    rw [(fillLoop_spec x (alloc n) n.toNat).1, length_alloc]
  apply List.ext_getElem
  · rw [hlen, List.length_replicate]
  · intro i h1 h2
    rw [hlen] at h1
    have := newFilled_getD n x i h1
    rw [List.getD_eq_getElem?_getD, List.getElem?_eq_getElem (by rw [hlen]; exact h1)] at this
    simpa using this

theorem sizeInv_pushBack (v : Vector T) (x : T) (h : SizeInv v)
    (hdbl : v.size = v.capacity → v.capacity * 2 ≤ INT_MAX) : SizeInv (pushBack v x) := by
  obtain ⟨h1, h2, h3, h4⟩ := h
  have hmax : INT_MAX = 2147483647 := rfl
  have hmin : INT_MIN = -2147483648 := rfl
  by_cases hfull : v.size = v.capacity
  · have hd := hdbl hfull
    have hw : wrapInt (v.capacity * 2) = v.capacity * 2 := wrapInt_eq_self _ (by omega) hd
    have hw1 : wrapInt (v.size + 1) = v.size + 1 := wrapInt_eq_self _ (by omega) (by omega)
    simp only [SizeInv, pushBack, resize, hfull, if_true, hw]
    rw [← hfull, hw1, hfull]
    refine ⟨by omega, by omega, by omega, hd⟩
  · have hw1 : wrapInt (v.size + 1) = v.size + 1 := wrapInt_eq_self _ (by omega) (by omega)
    simp only [SizeInv, pushBack, hfull, if_false, hw1]
    refine ⟨by omega, by omega, h3, h4⟩

theorem sizeInv_resize (v : Vector T) (h : SizeInv v) (hdbl : v.capacity * 2 ≤ INT_MAX) :
    SizeInv (resize v) := by
  obtain ⟨h1, h2, h3, h4⟩ := h
  have hw : wrapInt (v.capacity * 2) = v.capacity * 2 := wrapInt_eq_self _ (by omega) hdbl
  simp only [SizeInv, resize, hw]
  exact ⟨h1, by omega, by omega, hdbl⟩

theorem sizeInv_new (n : Int) (hn : n ≤ INT_MAX) : SizeInv (new n : Vector T) := by
  have hmax : INT_MAX = 2147483647 := rfl
  have hmin : INT_MIN = -2147483648 := rfl
  by_cases hpos : n > 0
  · simp only [SizeInv, new, hpos, if_true]; omega
  · simp only [SizeInv, new, hpos, if_false]; omega

theorem sizeInv_newFilled (n : Int) (x : T) (h1 : INT_MIN ≤ n) (h2 : n ≤ INT_MAX) :
    SizeInv (newFilled n x) := by
  have hmax : INT_MAX = 2147483647 := rfl
  by_cases hpos : n > 0
  · simp only [SizeInv, newFilled, hpos, if_true]; omega
  · simp only [SizeInv, newFilled, hpos, if_false]; omega

theorem sizeInv_popBack (v : Vector T) (h : SizeInv v) : SizeInv (popBack v) := by
  obtain ⟨h1, h2, h3, h4⟩ := h
  have hmin : INT_MIN = -2147483648 := rfl
  unfold popBack
  split_ifs with hp
  · exact ⟨by simp only; omega, by simp only; omega, h3, h4⟩
  · exact ⟨h1, h2, h3, h4⟩

theorem sizeInv_Clear (v : Vector T) (h : SizeInv v) : SizeInv (Clear v) := by
  obtain ⟨h1, h2, h3, h4⟩ := h
  have hmin : INT_MIN = -2147483648 := rfl
  exact ⟨by simp only [Clear]; omega, by simp only [Clear]; omega, h3, h4⟩

theorem sizeInv_of_reachable (v : Vector T) (h : Reachable v) : SizeInv v := by
  induction h with
  | new n _ h2 => exact sizeInv_new n h2
  | newFilled n x h1 h2 => exact sizeInv_newFilled n x h1 h2
  | copyConstruct o _ ih => exact ih
  | pushBack v x _ hd ih => exact sizeInv_pushBack v x ih hd
  | popBack v _ ih => exact sizeInv_popBack v ih
  | Clear v _ ih => exact sizeInv_Clear v ih
  | resize v _ hd ih => exact sizeInv_resize v ih hd
  | assign v o _ _ _ iho => exact iho
  | assignSelf v _ ih => exact ih

end Vector

/-- C19, counterexample: `Vector(0, 7)` has length 0, not `max(1, 0) = 1`,
and its single slot was not filled. -/
theorem C19_newFilled_length_counterexample :
    (Vector.newFilled 0 (7 : Nat)).GetSize = 0 ∧
    (Vector.newFilled 0 (7 : Nat)).capacity = 1 ∧
    (Vector.newFilled 0 (7 : Nat)).GetSize ≠ max 1 0 ∧
    (Vector.newFilled 0 (7 : Nat)).data = [0] := by
  decide

/-- C19, amended: for every count and fill value, `Vector(count, fillValue)`
has capacity `max(1, count)`; for `count ≥ 0` its length is `count` and every
element below the length is the fill value; so for `count ≥ 1` length and
capacity are both `max(1, count)` and every slot holds the fill value. -/
theorem C19_newFilled {T : Type} [Inhabited T] (count : Int) (fillValue : T) :
    (Vector.newFilled count fillValue).capacity = max 1 count ∧
    (0 ≤ count →
      (Vector.newFilled count fillValue).GetSize = count ∧
      (Vector.newFilled count fillValue).elems = List.replicate count.toNat fillValue ∧
      ∀ i : Int, 0 ≤ i → i < count →
        (Vector.newFilled count fillValue).index i = Except.ok fillValue) ∧
    (1 ≤ count →
      (Vector.newFilled count fillValue).GetSize = max 1 count ∧
      (Vector.newFilled count fillValue).GetSize = (Vector.newFilled count fillValue).capacity ∧
      (Vector.newFilled count fillValue).data = List.replicate count.toNat fillValue) := by
  have hcap : (Vector.newFilled count fillValue).capacity = max 1 count := by
    by_cases hpos : count > 0
    · simp only [Vector.newFilled, hpos, if_true]; omega
    · simp only [Vector.newFilled, hpos, if_false]; omega
  refine ⟨hcap, fun h0 => ⟨rfl, Vector.newFilled_elems count fillValue, ?_⟩, fun h1 => ⟨?_, ?_, ?_⟩⟩
  · intro i hi0 hi
    obtain ⟨j, rfl⟩ := Int.eq_ofNat_of_zero_le hi0
    have hc : ¬ ((j : Int) < 0 ∨ (j : Int) ≥ (Vector.newFilled count fillValue).size) := by
      have : (Vector.newFilled count fillValue).size = count := rfl
      omega
    simp only [Vector.index, hc, if_false, load_natCast]
    rw [Vector.newFilled_getD count fillValue j (by omega)]
    rfl
  · show count = max 1 count
    omega
  · rw [hcap]
    show count = max 1 count
    omega
  · exact Vector.newFilled_data count fillValue h1

/-- C19 on `Vector(3, 7)`: three slots, all 7. -/
theorem C19_newFilled_witness :
    (Vector.newFilled 3 (7 : Nat)).GetSize = max 1 3 ∧
    (Vector.newFilled 3 (7 : Nat)).GetSize = (Vector.newFilled 3 (7 : Nat)).capacity ∧
    (Vector.newFilled 3 (7 : Nat)).data = List.replicate (3 : Int).toNat 7 :=
  (C19_newFilled 3 7).2.2 (by decide)

/-- C20: `capacity >= size` holds for every vector: the constructors
establish it, with the capacity a positive `int`, and `pushBack`, `popBack`,
`Clear`, `resize` and copy assignment preserve it (the doubling of the
capacity staying an `int`). -/
theorem C20_capacity_ge_size {T : Type} [Inhabited T] :
    (∀ n : Int, INT_MIN ≤ n → n ≤ INT_MAX → (Vector.new n : Vector T).SizeInv) ∧
    (∀ (n : Int) (x : T), INT_MIN ≤ n → n ≤ INT_MAX → (Vector.newFilled n x).SizeInv) ∧
    (∀ o : Vector T, o.SizeInv → (Vector.copyConstruct o).SizeInv) ∧
    (∀ (v : Vector T) (x : T), v.SizeInv →
      (v.size = v.capacity → v.capacity * 2 ≤ INT_MAX) → (v.pushBack x).SizeInv) ∧
    (∀ v : Vector T, v.SizeInv → v.popBack.SizeInv) ∧
    (∀ v : Vector T, v.SizeInv → v.Clear.SizeInv) ∧
    (∀ v : Vector T, v.SizeInv → v.capacity * 2 ≤ INT_MAX → v.resize.SizeInv) ∧
    (∀ (v o : Vector T) (b : Bool), v.SizeInv → o.SizeInv → (v.assign o b).SizeInv) ∧
    (∀ v : Vector T, v.SizeInv → v.capacity ≥ v.GetSize) ∧
    (∀ v : Vector T, v.Reachable → v.capacity ≥ v.GetSize) := by
  refine ⟨fun n _ h2 => Vector.sizeInv_new n h2,
    fun n x h1 h2 => Vector.sizeInv_newFilled n x h1 h2, fun o h => h,
    fun v x h hd => Vector.sizeInv_pushBack v x h hd, fun v h => Vector.sizeInv_popBack v h,
    fun v h => Vector.sizeInv_Clear v h, fun v h hd => Vector.sizeInv_resize v h hd, ?_,
    fun v h => h.2.1, fun v h => (Vector.sizeInv_of_reachable v h).2.1⟩
  intro v o b hv ho
  cases b
  · exact ho
  · exact hv

/-- C20 on a full vector of capacity 2: after `pushBack` the capacity is 4
and the size 3. -/
theorem C20_capacity_ge_size_witness :
    ((Vector.mk [7, 8] 2 2 : Vector Nat).pushBack 9).capacity = 4 ∧
    ((Vector.mk [7, 8] 2 2 : Vector Nat).pushBack 9).GetSize = 3 ∧
    ((Vector.mk [7, 8] 2 2 : Vector Nat).pushBack 9).SizeInv ∧
    ((Vector.new 2 : Vector Nat).pushBack 7).capacity ≥ ((Vector.new 2 : Vector Nat).pushBack 7).GetSize :=
  ⟨by decide, by decide,
   C20_capacity_ge_size.2.2.2.1 (Vector.mk [7, 8] 2 2) 9 (by decide) (by decide),
   C20_capacity_ge_size.2.2.2.2.2.2.2.2.2 _
     (Vector.Reachable.pushBack _ 7 (Vector.Reachable.new 2 (by decide) (by decide)) (by decide))⟩

/-! ## Properties of the record selection -/

theorem Vector.elems_copyConstruct {T : Type} [Inhabited T] (o : Vector T)
    (h : o.size ≤ o.capacity) : (Vector.copyConstruct o).elems = o.elems := by
  unfold Vector.elems
  have hsz : (Vector.copyConstruct o).size = o.size := rfl
  rw [hsz]
  apply List.map_congr_left
  intro i hi
  have hi2 := List.mem_range.mp hi
  rw [load_natCast, load_natCast]
  exact getD_copyLoop o.data _ o.size i (by rw [length_alloc]; omega) hi2

theorem Vector.elems_new {T : Type} [Inhabited T] (n : Int) : (Vector.new n : Vector T).elems = [] :=
  rfl

theorem buildKey_eq_keySpec (year month : Int) (h1 : 1 ≤ month) (h12 : month ≤ 12) :
    buildKey year month = keySpec year month := by
  have hm : (if month < 10 then "0" else "") ++ streamInt month = zeroPad2 month := by
    interval_cases month <;> decide
  unfold buildKey keySpec
  rw [String.append_assoc, hm]
  rfl

theorem isDigit_bounds (c : Char) (h : c.isDigit = true) : 48 ≤ c.toNat ∧ c.toNat ≤ 57 := by
  simp only [Char.isDigit, Bool.and_eq_true, decide_eq_true_eq] at h
  exact ⟨h.1, h.2⟩

theorem stoi_two_digits (m1 m2 : Char) (h1 : m1.isDigit = true) (h2 : m2.isDigit = true) :
    stoi (String.mk [m1, m2])
      = Except.ok ((((m1.toNat - 48) * 10 + (m2.toNat - 48) : Nat) : Int)) := by
  obtain ⟨a1, b1⟩ := isDigit_bounds m1 h1
  obtain ⟨a2, b2⟩ := isDigit_bounds m2 h2
  have hsp : isspace m1 = false := by
    simp only [isspace, Bool.or_eq_false_iff, decide_eq_false_iff_not, Bool.and_eq_false_iff]
    omega
  have hminus : ¬ (m1 = '-') := by
    intro e
    rw [e] at a1
    exact absurd a1 (by decide)
  have hplus : ¬ (m1 = '+') := by
    intro e
    rw [e] at a1
    exact absurd a1 (by decide)
  have hcs : List.dropWhile isspace [m1, m2] = [m1, m2] := by
    simp [List.dropWhile, hsp]
  have hds : List.takeWhile Char.isDigit [m1, m2] = [m1, m2] := by
    simp [List.takeWhile, h1, h2]
  have hr : ¬ ((((0 : Int) * 10 + ((m1.toNat - 48 : Nat) : Int)) * 10 + ((m2.toNat - 48 : Nat) : Int))
        < INT_MIN ∨
      (((0 : Int) * 10 + ((m1.toNat - 48 : Nat) : Int)) * 10 + ((m2.toNat - 48 : Nat) : Int))
        > INT_MAX) := by
    have hmax : INT_MAX = 2147483647 := rfl
    have hmin : INT_MIN = -2147483648 := rfl
    omega
  unfold stoi
  simp only [hcs, List.head?_cons, Option.some.injEq, hminus, hplus, or_self, if_false, hds,
    List.foldl_cons, List.foldl_nil, hr, reduceCtorEq]
  simp only [pure, Except.pure]
  congr 1
  push_cast
  omega

theorem month_of_key (k : String) (hk : isYearMonthKey k = true) :
    ∃ s, substr k 5 2 = Except.ok s ∧ stoi s = Except.ok (monthComponent k) := by
  unfold isYearMonthKey at hk
  split at hk
  · rename_i a b c d h m1 m2 heq
    simp only [Bool.and_eq_true] at hk
    obtain ⟨⟨_, hm1⟩, hm2⟩ := hk
    refine ⟨String.mk [m1, m2], ?_, ?_⟩
    · have hlen : k.length = 7 := by
        show k.data.length = 7
        rw [heq]
        rfl
      have hpos : ¬ 5 > k.length := by omega
      unfold substr
      rw [if_neg hpos, heq]
      rfl
    · rw [stoi_two_digits m1 m2 hm1 hm2]
      unfold monthComponent
      rw [heq]
  · cases hk

section DataUtils

variable {F : Type} [FloatOps F]

theorem getRecordsByMonthLoop_spec (month : Int) (entries : List (String × WeatherLog F))
    (hkeys : ∀ p ∈ entries, isYearMonthKey p.1 = true) :
    getRecordsByMonthLoop month entries
      = Except.ok (match entries.find? (fun p => decide (monthComponent p.1 = month)) with
          | some p => Vector.copyConstruct p.2
          | none => Vector.new 1) := by
  induction entries with
  | nil => rfl
  | cons p rest ih =>
    obtain ⟨s, hs1, hs2⟩ := month_of_key p.1 (hkeys p (List.mem_cons_self p rest))
    unfold getRecordsByMonthLoop
    simp only [hs1, hs2, bind, Except.bind]
    by_cases hm : monthComponent p.1 = month
    · rw [if_pos hm, List.find?_cons_of_pos _ (by simpa using hm)]
      rfl
    · rw [if_neg hm, List.find?_cons_of_neg _ (by simpa using hm)]
      exact ih (fun q hq => hkeys q (List.mem_cons_of_mem p hq))

end DataUtils

/-- C14: for every index, mapping, year and month in 1..12,
`getRecordsByYearMonth` looks up the key made of the year, a hyphen and the
month zero-padded to two digits, and returns a copy of the collection the
mapping holds under it, or an empty collection without such a key; the index
has no influence on the result. -/
theorem C14_getRecordsByYearMonth {F : Type} [FloatOps F] (tree : BST String)
    (dataMap : StdMap (WeatherLog F)) (year month : Int) (h1 : 1 ≤ month) (h12 : month ≤ 12) :
    buildKey year month = keySpec year month ∧
    (∀ log, dataMap.find (keySpec year month) = some log →
      getRecordsByYearMonth tree dataMap year month = Vector.copyConstruct log ∧
      (getRecordsByYearMonth tree dataMap year month).GetSize = log.GetSize ∧
      (getRecordsByYearMonth tree dataMap year month).capacity = log.capacity ∧
      (log.size ≤ log.capacity →
        (getRecordsByYearMonth tree dataMap year month).elems = log.elems)) ∧
    (dataMap.find (keySpec year month) = none →
      getRecordsByYearMonth tree dataMap year month = Vector.new 1 ∧
      (getRecordsByYearMonth tree dataMap year month).GetSize = 0 ∧
      (getRecordsByYearMonth tree dataMap year month).elems = []) ∧
    (∀ tree2 : BST String,
      getRecordsByYearMonth tree2 dataMap year month
        = getRecordsByYearMonth tree dataMap year month) := by
  have hkey := buildKey_eq_keySpec year month h1 h12
  refine ⟨hkey, ?_, ?_, fun _ => rfl⟩
  · intro log hlog
    have hres : getRecordsByYearMonth tree dataMap year month = Vector.copyConstruct log := by
      simp only [getRecordsByYearMonth, hkey, hlog]
    rw [hres]
    exact ⟨rfl, rfl, rfl, fun hle => Vector.elems_copyConstruct log hle⟩
  · intro hnone
    have hres : getRecordsByYearMonth tree dataMap year month = Vector.new 1 := by
      simp only [getRecordsByYearMonth, hkey, hnone]
    rw [hres]
    exact ⟨rfl, rfl, rfl⟩

/-- C14 on the sample mapping: the query (2016, 5) returns the two records
held under "2016-05", the query (2016, 7) an empty collection. -/
theorem C14_getRecordsByYearMonth_witness :
    (getRecordsByYearMonth sampleTree sampleMap 2016 5).elems
      = [sampleRecord 2016 5 1 (ExtRat.fin 50), sampleRecord 2016 5 2 (ExtRat.fin 100)] ∧
    (getRecordsByYearMonth sampleTree sampleMap 2016 7).elems = [] :=
  ⟨((C14_getRecordsByYearMonth sampleTree sampleMap 2016 5 (by decide) (by decide)).2.1
      (sampleLog [sampleRecord 2016 5 1 (ExtRat.fin 50), sampleRecord 2016 5 2 (ExtRat.fin 100)])
      (by decide)).2.2.2 (by decide),
   ((C14_getRecordsByYearMonth sampleTree sampleMap 2016 7 (by decide) (by decide)).2.2.1
      (by decide)).2.2⟩

/-- C15: for every mapping whose keys all have the form `YYYY-MM` and every
month, `getRecordsByMonth` returns a copy of the collection of the first
entry, in ascending key order, whose month component is the month, and an
empty collection when no entry matches; the collections of the other
matching entries are no part of the result. -/
theorem C15_getRecordsByMonth_first {F : Type} [FloatOps F] (tree : BST String)
    (dataMap : StdMap (WeatherLog F)) (month : Int)
    (hkeys : ∀ p ∈ dataMap.entries, isYearMonthKey p.1 = true) :
    (∀ p, dataMap.entries.find? (fun p => decide (monthComponent p.1 = month)) = some p →
      getRecordsByMonth tree dataMap month = Except.ok (Vector.copyConstruct p.2) ∧
      (p.2.size ≤ p.2.capacity → (Vector.copyConstruct p.2).elems = p.2.elems) ∧
      p ∈ dataMap.entries ∧ monthComponent p.1 = month ∧
      ∀ q ∈ dataMap.entries, monthComponent q.1 = month → q = p ∨ p.1.data < q.1.data) ∧
    (dataMap.entries.find? (fun p => decide (monthComponent p.1 = month)) = none →
      getRecordsByMonth tree dataMap month = Except.ok (Vector.new 1) ∧
      ∀ q ∈ dataMap.entries, monthComponent q.1 ≠ month) := by
  have hloop := getRecordsByMonthLoop_spec month dataMap.entries hkeys
  refine ⟨fun p hp => ?_, fun hnone => ?_⟩
  · refine ⟨?_, fun hle => Vector.elems_copyConstruct p.2 hle, ?_⟩
    · unfold getRecordsByMonth
      rw [hloop, hp]
    · obtain ⟨hpm, as, bs, heq, has⟩ := List.find?_eq_some.mp hp
      have hsorted := dataMap.sorted
      rw [heq] at hsorted ⊢
      refine ⟨by simp, by simpa using hpm, ?_⟩
      intro q hq hqm
      rcases List.mem_append.mp hq with hq1 | hq1
      · have := has q hq1
        simp [hqm] at this
      · rcases List.mem_cons.mp hq1 with rfl | hq2
        · exact Or.inl rfl
        · exact Or.inr ((List.pairwise_cons.mp (List.pairwise_append.mp hsorted).2.1).1 q hq2)
  · refine ⟨?_, ?_⟩
    · unfold getRecordsByMonth
      rw [hloop, hnone]
    · intro q hq
      have := List.find?_eq_none.mp hnone q hq
      simpa using this

/-- C15 on the sample mapping: month 5 gives the collection of "2015-05",
although "2016-05" matches too; month 7 gives an empty collection. -/
theorem C15_getRecordsByMonth_first_witness :
    getRecordsByMonth sampleTree sampleMap 5
      = Except.ok (Vector.copyConstruct (sampleLog [sampleRecord 2015 5 1 (ExtRat.fin 150)])) ∧
    getRecordsByMonth sampleTree sampleMap 7 = Except.ok (Vector.new 1) :=
  ⟨((C15_getRecordsByMonth_first sampleTree sampleMap 5 (by decide)).1
      ("2015-05", sampleLog [sampleRecord 2015 5 1 (ExtRat.fin 150)]) (by decide)).1,
   ((C15_getRecordsByMonth_first sampleTree sampleMap 7 (by decide)).2 (by decide)).1⟩

/-- C16, the code at the failing input: with records under "2015-05" and
under "2016-05", the query for month 5 returns the record of 2015 alone, not
the three records of the two months of May. -/
theorem C16_getRecordsByMonth_not_combined :
    (getRecordsByMonth sampleTree sampleMap 5).map Vector.elems
      = Except.ok [sampleRecord 2015 5 1 (ExtRat.fin 150)] ∧
    (getRecordsByMonth sampleTree sampleMap 5).map Vector.elems
      ≠ Except.ok [sampleRecord 2015 5 1 (ExtRat.fin 150), sampleRecord 2016 5 1 (ExtRat.fin 50),
          sampleRecord 2016 5 2 (ExtRat.fin 100)] := by
  have h : (getRecordsByMonth sampleTree sampleMap 5).map Vector.elems
      = Except.ok [sampleRecord 2015 5 1 (ExtRat.fin 150)] := by
    have hg : getRecordsByMonth sampleTree sampleMap 5
        = getRecordsByMonthLoop 5 sampleMap.entries := rfl
    rw [hg, getRecordsByMonthLoop_spec 5 sampleMap.entries (by decide)]
    rfl
  refine ⟨h, ?_⟩
  rw [h]
  intro e
  cases e

namespace Vector

variable {T : Type} [Inhabited T]

theorem elems_pushBack (v : Vector T) (x : T) (n : Nat) (hn : v.size = n)
    (hle : v.size ≤ v.capacity) (hA : v.Allocated)
    (hdbl : v.size = v.capacity → v.capacity * 2 ≤ INT_MAX) :
    (v.pushBack x).elems = v.elems ++ [x] := by
  obtain ⟨h1, -, -, h4, h5⟩ := pushBack_spec v x n hn hle hA hdbl
  simp only [elems, h1, hn]
  have e1 : ((n : Int) + 1).toNat = n + 1 := by omega
  rw [e1, Int.toNat_ofNat, List.range_succ, List.map_append, List.map_cons, List.map_nil,
    load_natCast, h4]
  congr 1
  apply List.map_congr_left
  intro j hj
  rw [load_natCast, load_natCast]
  exact h5 j (List.mem_range.mp hj)

/-- The vector obtained from `Vector()` by pushing at most `2^30` elements
holds just these elements. -/
theorem pushAll_new_one (xs : List T) (hlen : xs.length ≤ 1073741824) :
    ((new 1 : Vector T).pushAll xs).elems = xs ∧
    ((new 1 : Vector T).pushAll xs).size = xs.length := by
  have hmax : INT_MAX = 2147483647 := rfl
  induction xs using List.reverseRecOn with
  | nil => exact ⟨rfl, rfl⟩
  | append_singleton xs x ih =>
    simp only [List.length_append, List.length_singleton] at hlen
    obtain ⟨ihe, ihs⟩ := ih (by omega)
    have hov : ∃ j : Nat, (xs.length : Int) ≤ 1 * 2 ^ j ∧ (1 : Int) * 2 ^ j ≤ INT_MAX :=
      ⟨30, by norm_num; omega, by norm_num [INT_MAX]⟩
    obtain ⟨hsz, hA, k, hk, hkle, hkmin⟩ := pushAll_new_spec 1 (le_refl 1) xs hov
    have hdbl : ((new 1 : Vector T).pushAll xs).size = ((new 1 : Vector T).pushAll xs).capacity →
        ((new 1 : Vector T).pushAll xs).capacity * 2 ≤ INT_MAX := by
      intro hfull
      have hlt : (1 : Int) * 2 ^ k < 1 * 2 ^ 30 := by
        rw [← hk, ← hfull, hsz]
        norm_num
        omega
      have hk30 : k + 1 ≤ 30 := Nat.succ_le_of_lt (lt_of_mul_two_pow_lt (le_refl 1) hlt)
      have := mul_two_pow_le (le_refl (1 : Int)) hk30
      rw [hk]
      calc (1 : Int) * 2 ^ k * 2 = 1 * 2 ^ (k + 1) := by ring
        _ ≤ 1 * 2 ^ 30 := this
        _ ≤ INT_MAX := by norm_num [INT_MAX]
    rw [pushAll_snoc]
    refine ⟨?_, ?_⟩
    · rw [elems_pushBack _ x xs.length hsz (by rw [hsz, hk]; exact hkle) hA hdbl, ihe]
    · rw [(pushBack_spec _ x xs.length hsz (by rw [hsz, hk]; exact hkle) hA hdbl).1]
      simp

end Vector

section DataUtils

variable {F : Type} [FloatOps F]

theorem foldl_pushBack_map {α : Type} (f : α → F) (es : List α) (v : Vector F) :
    es.foldl (fun (w : Vector F) e => w.pushBack (f e)) v = v.pushAll (es.map f) := by
  unfold Vector.pushAll
  rw [List.foldl_map]

theorem foldl_pushBack_filter (p : F → Bool) (xs : List F) (v : Vector F) :
    xs.foldl (fun (w : Vector F) x => if p x = true then w.pushBack x else w) v
      = v.pushAll (xs.filter p) := by
  induction xs generalizing v with
  | nil => rfl
  | cons x xs ih =>
    rw [List.foldl_cons, ih]
    by_cases hp : p x = true
    · rw [if_pos hp, List.filter_cons_of_pos hp]
      rfl
    · rw [if_neg hp, List.filter_cons_of_neg hp]

theorem extractWindSpeeds_eq (records : WeatherLog F) :
    extractWindSpeeds records
      = Except.ok ((Vector.new 1 : Vector F).pushAll (records.elems.map (fun r => r.windSpeed))) := by
  unfold extractWindSpeeds
  rw [foldlM_eq_ok_foldl _ (fun (w : Vector F) (e : WeatherEntry F) => w.pushBack e.windSpeed)
    (fun (i : Nat) => load records.data (i : Int))]
  · rw [foldl_pushBack_map]
    rfl
  · intro i hi acc
    rw [Vector.indexConst_of_lt records i (List.mem_range.mp hi)]
    rfl

theorem extractTemperatures_eq (records : WeatherLog F) :
    extractTemperatures records
      = Except.ok
          ((Vector.new 1 : Vector F).pushAll (records.elems.map (fun r => r.temperature))) := by
  unfold extractTemperatures
  rw [foldlM_eq_ok_foldl _ (fun (w : Vector F) (e : WeatherEntry F) => w.pushBack e.temperature)
    (fun (i : Nat) => load records.data (i : Int))]
  · rw [foldl_pushBack_map]
    rfl
  · intro i hi acc
    rw [Vector.indexConst_of_lt records i (List.mem_range.mp hi)]
    rfl

theorem extractSolarRadiation_eq (records : WeatherLog F) :
    extractSolarRadiation records
      = Except.ok ((Vector.new 1 : Vector F).pushAll
          ((records.elems.map (fun r => r.solarRadiation)).filter
            (fun sr => !(FloatOps.isnan sr) && FloatOps.ge sr (FloatOps.ofInt 100)))) := by
  unfold extractSolarRadiation
  rw [foldlM_eq_ok_foldl _
    (fun (w : Vector F) (e : WeatherEntry F) =>
      if (!(FloatOps.isnan e.solarRadiation)
          && FloatOps.ge e.solarRadiation (FloatOps.ofInt 100)) = true
      then w.pushBack e.solarRadiation else w)
    (fun (i : Nat) => load records.data (i : Int))]
  · rw [← foldl_pushBack_filter]
    simp only [Vector.elems, Vector.GetSize, List.foldl_map]
  · intro i hi acc
    rw [Vector.indexConst_of_lt records i (List.mem_range.mp hi)]
    simp only [bind, Except.bind]
    split_ifs <;> rfl

end DataUtils

theorem Vector.getElem?_elems {T : Type} [Inhabited T] (v : Vector T) (i : Nat)
    (hi : i < v.size.toNat) : v.elems[i]? = some (load v.data (i : Int)) := by
  unfold Vector.elems
  rw [List.getElem?_map, List.getElem?_range hi]
  rfl

theorem Vector.length_elems {T : Type} [Inhabited T] (v : Vector T) :
    v.elems.length = v.size.toNat := by
  simp [Vector.elems]

/-- A vector that holds the image of the elements of another one serves, at
every index, the image of what the other one serves. -/
theorem Vector.index_of_elems_map {α T : Type} [Inhabited α] [Inhabited T] (f : α → T)
    (records : Vector α) (v : Vector T) (he : v.elems = records.elems.map f) (i : Int)
    (hi0 : 0 ≤ i) (hi : i < records.GetSize) :
    v.index i = (records.indexConst i).map f := by
  obtain ⟨j, rfl⟩ := Int.eq_ofNat_of_zero_le hi0
  have hlen : v.size.toNat = records.size.toNat := by
    have := congrArg List.length he
    rwa [List.length_map, Vector.length_elems, Vector.length_elems] at this
  have hj : j < records.size.toNat := by
    unfold Vector.GetSize at hi
    omega
  have h1 := Vector.getElem?_elems v j (by omega)
  rw [he, List.getElem?_map, Vector.getElem?_elems records j hj] at h1
  have h2 : f (load records.data (j : Int)) = load v.data (j : Int) := by
    simpa using h1
  have c1 : ¬ ((j : Int) < 0 ∨ (j : Int) ≥ v.size) := by omega
  rw [Vector.indexConst_of_lt records j hj]
  simp only [Vector.index, c1, if_false, Except.map, ← h2]
  rfl

/-- C17: for every record collection, `extractSolarRadiation` returns, in the
original order, exactly the solar-radiation values that are not the sentinel
and are `>= 100` (the result, grown from capacity 1 by doubling, holding at
most `2^30` values). -/
theorem C17_extractSolarRadiation {F : Type} [FloatOps F] (records : WeatherLog F)
    (hfit : ((records.elems.map (fun r => r.solarRadiation)).filter
      (fun sr => !(FloatOps.isnan sr) && FloatOps.ge sr (FloatOps.ofInt 100))).length
        ≤ 1073741824) :
    ∃ v, extractSolarRadiation records = Except.ok v ∧
      v.elems = (records.elems.map (fun r => r.solarRadiation)).filter
        (fun sr => !(FloatOps.isnan sr) && FloatOps.ge sr (FloatOps.ofInt 100)) ∧
      v.GetSize = ((records.elems.map (fun r => r.solarRadiation)).filter
        (fun sr => !(FloatOps.isnan sr) && FloatOps.ge sr (FloatOps.ofInt 100))).length := by
  obtain ⟨h1, h2⟩ := Vector.pushAll_new_one _ hfit
  exact ⟨_, extractSolarRadiation_eq records, h1, h2⟩

/-- C17 on the solar values `[50, 150, NaN, 100]`, which yield `[150, 100]`. -/
theorem C17_extractSolarRadiation_witness :
    ∃ v, extractSolarRadiation (sampleLog [sampleRecord 2016 5 1 (ExtRat.fin 50),
        sampleRecord 2016 5 2 (ExtRat.fin 150), sampleRecord 2016 5 3 ExtRat.nan,
        sampleRecord 2016 5 4 (ExtRat.fin 100)]) = Except.ok v ∧
      v.elems = [ExtRat.fin 150, ExtRat.fin 100] ∧ v.GetSize = 2 :=
  C17_extractSolarRadiation (sampleLog [sampleRecord 2016 5 1 (ExtRat.fin 50),
    sampleRecord 2016 5 2 (ExtRat.fin 150), sampleRecord 2016 5 3 ExtRat.nan,
    sampleRecord 2016 5 4 (ExtRat.fin 100)]) (by decide)

/-- C18: for every record collection (of at most `2^30` records, the result
growing from capacity 1 by doubling), `extractWindSpeeds` and
`extractTemperatures` return a vector with one element per record, the
element at index `i` being the wind speed, respectively the temperature, of
record `i`, whatever its value. -/
theorem C18_extract_fields {F : Type} [FloatOps F] (records : WeatherLog F)
    (hfit : records.GetSize ≤ 1073741824) :
    (∃ v, extractWindSpeeds records = Except.ok v ∧
      v.elems = records.elems.map (fun r => r.windSpeed) ∧
      v.GetSize = records.elems.length ∧
      (0 ≤ records.GetSize → v.GetSize = records.GetSize) ∧
      ∀ i : Int, 0 ≤ i → i < records.GetSize →
        v.index i = (records.indexConst i).map (fun r => r.windSpeed)) ∧
    (∃ v, extractTemperatures records = Except.ok v ∧
      v.elems = records.elems.map (fun r => r.temperature) ∧
      v.GetSize = records.elems.length ∧
      (0 ≤ records.GetSize → v.GetSize = records.GetSize) ∧
      ∀ i : Int, 0 ≤ i → i < records.GetSize →
        v.index i = (records.indexConst i).map (fun r => r.temperature)) := by
  have hlen : records.elems.length = records.size.toNat := Vector.length_elems records
  have hfit2 : records.elems.length ≤ 1073741824 := by
    unfold Vector.GetSize at hfit
    omega
  constructor
  · obtain ⟨h1, h2⟩ := Vector.pushAll_new_one (records.elems.map (fun r => r.windSpeed))
      (by rw [List.length_map]; exact hfit2)
    rw [List.length_map] at h2
    refine ⟨_, extractWindSpeeds_eq records, h1, h2, fun h0 => ?_, fun i hi0 hi => ?_⟩
    · unfold Vector.GetSize at h0 ⊢
      rw [h2, hlen]
      omega
    · exact Vector.index_of_elems_map _ records _ h1 i hi0 hi
  · obtain ⟨h1, h2⟩ := Vector.pushAll_new_one (records.elems.map (fun r => r.temperature))
      (by rw [List.length_map]; exact hfit2)
    rw [List.length_map] at h2
    refine ⟨_, extractTemperatures_eq records, h1, h2, fun h0 => ?_, fun i hi0 hi => ?_⟩
    · unfold Vector.GetSize at h0 ⊢
      rw [h2, hlen]
      omega
    · exact Vector.index_of_elems_map _ records _ h1 i hi0 hi

/-- C18 on two records, the second without a temperature. -/
theorem C18_extract_fields_witness :
    (∃ v, extractWindSpeeds (sampleLog [sampleRecord 2016 5 1 (ExtRat.fin 50),
        { sampleRecord 2016 5 2 ExtRat.nan with temperature := ExtRat.nan }]) = Except.ok v ∧
      v.elems = [ExtRat.fin 3, ExtRat.fin 3] ∧ v.GetSize = 2) ∧
    (∃ v, extractTemperatures (sampleLog [sampleRecord 2016 5 1 (ExtRat.fin 50),
        { sampleRecord 2016 5 2 ExtRat.nan with temperature := ExtRat.nan }]) = Except.ok v ∧
      v.elems = [ExtRat.fin 20, ExtRat.nan] ∧ v.GetSize = 2) :=
  ⟨(C18_extract_fields _ (by decide)).1.imp (fun _ h => ⟨h.1, h.2.1, h.2.2.1⟩),
   (C18_extract_fields _ (by decide)).2.imp (fun _ h => ⟨h.1, h.2.1, h.2.2.1⟩)⟩

/-! ## Copies, `popBack` and `resize` -/

theorem Node.copy_eq {T : Type} (t : Node T) : Node.copy t = t := by
  induction t with
  | null => rfl
  | mk d l r ihl ihr => simp [Node.copy, ihl, ihr]

theorem Vector.load_copyLoop {T : Type} [Inhabited T] (src : List T) (size capacity : Int)
    (hle : size ≤ capacity) (i : Int) (hi0 : 0 ≤ i) (hi : i < size) :
    load (copyLoop src size (alloc capacity)) i = load src i := by
  obtain ⟨j, rfl⟩ := Int.eq_ofNat_of_zero_le hi0
  rw [load_natCast, load_natCast]
  exact getD_copyLoop src _ size j (by rw [length_alloc]; omega) (by omega)

theorem Vector.elems_copyLoop {T : Type} [Inhabited T] (v : Vector T) (capacity : Int)
    (hle : v.size ≤ capacity) :
    (Vector.mk (copyLoop v.data v.size (alloc capacity)) v.size capacity).elems = v.elems := by
  unfold Vector.elems
  apply List.map_congr_left
  intro i hi
  have hi2 := List.mem_range.mp hi
  exact Vector.load_copyLoop v.data v.size capacity hle i (by omega) (by simp only at hi2; omega)

theorem Vector.index_copyLoop {T : Type} [Inhabited T] (v : Vector T) (capacity : Int)
    (hle : v.size ≤ capacity) (i : Int) :
    (Vector.mk (copyLoop v.data v.size (alloc capacity)) v.size capacity).index i = v.index i := by
  unfold Vector.index
  by_cases hc : i < 0 ∨ i ≥ v.size
  · rw [if_pos hc, if_pos hc]
  · rw [if_neg hc, if_neg hc, Vector.load_copyLoop v.data v.size capacity hle i (by omega) (by omega)]

/-- C21: for every vector (its length, a count, not negative), `popBack` is a
no-op when the length is 0 and otherwise decreases the length by exactly 1; in
both cases the capacity and the block are unchanged, so every index below the
new length serves the element it served before. -/
theorem C21_popBack {T : Type} [Inhabited T] (v : Vector T) (hsize : 0 ≤ v.GetSize) :
    (v.GetSize = 0 → v.popBack = v) ∧
    (v.GetSize ≠ 0 → v.popBack.GetSize = v.GetSize - 1) ∧
    v.popBack.capacity = v.capacity ∧
    v.popBack.data = v.data ∧
    (∀ i : Int, i < v.popBack.GetSize → v.popBack.index i = v.index i) := by
  unfold Vector.GetSize at hsize ⊢
  by_cases hp : v.size > 0
  · have hpop : v.popBack = { v with size := v.size - 1 } := by
      unfold Vector.popBack
      rw [if_pos hp]
    rw [hpop]
    refine ⟨fun h => absurd hp (by omega), fun _ => rfl, rfl, rfl, ?_⟩
    intro i hi
    simp only at hi
    unfold Vector.index
    by_cases h0 : i < 0
    · rw [if_pos (Or.inl h0), if_pos (Or.inl h0)]
    · rw [if_neg (by simp only; omega), if_neg (by omega)]
  · have hpop : v.popBack = v := by
      unfold Vector.popBack
      rw [if_neg hp]
    rw [hpop]
    exact ⟨fun _ => rfl, fun h => absurd (show v.size = 0 by omega) h, rfl, rfl, fun _ _ => rfl⟩

/-- C21 on a vector of three elements in a block of four: the length drops
to 2 and the first two elements stay; and on an empty vector, which stays as
it is. -/
theorem C21_popBack_witness :
    (Vector.mk [7, 8, 9, 0] 3 4 : Vector Nat).popBack.GetSize = 3 - 1 ∧
    (Vector.mk [7, 8, 9, 0] 3 4 : Vector Nat).popBack.elems = [7, 8] ∧
    (Vector.mk [7, 8, 9, 0] 3 4 : Vector Nat).popBack.capacity = 4 ∧
    (Vector.mk [0] 0 1 : Vector Nat).popBack = Vector.mk [0] 0 1 :=
  ⟨(C21_popBack (Vector.mk [7, 8, 9, 0] 3 4) (by decide)).2.1 (by decide), by decide,
   (C21_popBack (Vector.mk [7, 8, 9, 0] 3 4) (by decide)).2.2.1,
   (C21_popBack (Vector.mk [0] 0 1) (by decide)).1 (by decide)⟩

/-- C22: for every source vector (its size within its capacity), the copy
constructor and copy assignment produce a vector with the size, the capacity
and, at every index, the element of the source, whatever the destination
held; and assigning a vector to itself leaves it as it was. -/
theorem C22_vector_copy {T : Type} [Inhabited T] (src dst : Vector T)
    (hle : src.size ≤ src.capacity) :
    ((Vector.copyConstruct src).GetSize = src.GetSize ∧
      (Vector.copyConstruct src).capacity = src.capacity ∧
      (∀ i : Int, (Vector.copyConstruct src).index i = src.index i) ∧
      (Vector.copyConstruct src).elems = src.elems) ∧
    ((dst.assign src false).GetSize = src.GetSize ∧
      (dst.assign src false).capacity = src.capacity ∧
      (∀ i : Int, (dst.assign src false).index i = src.index i) ∧
      (dst.assign src false).elems = src.elems) ∧
    src.assign src true = src :=
  ⟨⟨rfl, rfl, fun i => Vector.index_copyLoop src src.capacity hle i,
      Vector.elems_copyLoop src src.capacity hle⟩,
   ⟨rfl, rfl, fun i => Vector.index_copyLoop src src.capacity hle i,
      Vector.elems_copyLoop src src.capacity hle⟩,
   rfl⟩

/-- C22 on a source of two elements in a block of four and a destination of
one element. -/
theorem C22_vector_copy_witness :
    ((Vector.mk [5] 1 1 : Vector Nat).assign (Vector.mk [7, 8, 9, 9] 2 4) false).elems = [7, 8] ∧
    ((Vector.mk [5] 1 1 : Vector Nat).assign (Vector.mk [7, 8, 9, 9] 2 4) false).capacity = 4 ∧
    (Vector.copyConstruct (Vector.mk [7, 8, 9, 9] 2 4 : Vector Nat)).elems = [7, 8] :=
  ⟨(C22_vector_copy (Vector.mk [7, 8, 9, 9] 2 4) (Vector.mk [5] 1 1) (by decide)).2.1.2.2.2,
   (C22_vector_copy (Vector.mk [7, 8, 9, 9] 2 4) (Vector.mk [5] 1 1) (by decide)).2.1.2.1,
   (C22_vector_copy (Vector.mk [7, 8, 9, 9] 2 4) (Vector.mk [5] 1 1) (by decide)).1.2.2.2⟩

/-- C23: for every source tree, the copy constructor and copy assignment
produce a tree equal to the source, node for node, whatever the destination
held; so the three traversals and every search give on the copy what they
give on the source. -/
theorem C23_bst_copy {T σ : Type} [LinearOrder T] (src dst : BST T) :
    BST.copyConstruct src = src ∧
    dst.assign src false = src ∧
    src.assign src true = src ∧
    (∀ (process : T → σ → σ) (s : σ),
      (BST.copyConstruct src).InOrder process s = src.InOrder process s ∧
      (BST.copyConstruct src).PreOrder process s = src.PreOrder process s ∧
      (BST.copyConstruct src).PostOrder process s = src.PostOrder process s ∧
      (dst.assign src false).InOrder process s = src.InOrder process s ∧
      (dst.assign src false).PreOrder process s = src.PreOrder process s ∧
      (dst.assign src false).PostOrder process s = src.PostOrder process s) ∧
    (∀ k : T, (BST.copyConstruct src).search k = src.search k ∧
      (dst.assign src false).search k = src.search k) := by
  have h1 : BST.copyConstruct src = src := by
    unfold BST.copyConstruct
    rw [Node.copy_eq]
  have h2 : dst.assign src false = src := by
    simp only [BST.assign, Bool.not_false, if_true, Node.copy_eq]
  refine ⟨h1, h2, rfl, fun process s => ?_, fun k => ?_⟩
  · rw [h1, h2]
    exact ⟨rfl, rfl, rfl, rfl, rfl, rfl⟩
  · rw [h1, h2]
    exact ⟨rfl, rfl⟩

/-- For every arithmetic, `RoundVal` returns the sentinel for the sentinel. -/
theorem RoundVal_nan {F : Type} [FloatOps F] (n : Int) :
    RoundVal (FloatOps.nan : F) n = FloatOps.nan := by
  have h : FloatOps.isnan (FloatOps.nan : F) = true := (FloatOps.isnan_iff _).2 rfl
  simp [RoundVal, h]

/-- C29: for every vector with capacity `c >= 1` (its size within its
capacity, `2 * c` an `int`), `resize()` sets the capacity to `2 * c` and
leaves the size and the element at every index as they were. -/
theorem C29_resize {T : Type} [Inhabited T] (v : Vector T) (hc : 1 ≤ v.capacity)
    (hle : v.size ≤ v.capacity) (hdbl : v.capacity * 2 ≤ INT_MAX) :
    v.resize.capacity = 2 * v.capacity ∧
    v.resize.GetSize = v.GetSize ∧
    (∀ i : Int, v.resize.index i = v.index i) ∧
    v.resize.elems = v.elems ∧
    (v.resize.data.length : Int) = 2 * v.capacity := by
  have hw : wrapInt (v.capacity * 2) = v.capacity * 2 := wrapInt_eq_self _ (by omega) hdbl
  have hr : v.resize = Vector.mk (copyLoop v.data v.size (alloc (v.capacity * 2))) v.size
      (v.capacity * 2) := by
    simp only [Vector.resize, hw]
  rw [hr]
  refine ⟨by simp only; omega, rfl, fun i => Vector.index_copyLoop v _ (by omega) i,
    Vector.elems_copyLoop v _ (by omega), ?_⟩
  simp only [length_copyLoop, length_alloc]
  omega

/-- C29 on a full vector of capacity 2. -/
theorem C29_resize_witness :
    (Vector.mk [7, 8] 2 2 : Vector Nat).resize.capacity = 2 * 2 ∧
    (Vector.mk [7, 8] 2 2 : Vector Nat).resize.GetSize = 2 ∧
    (Vector.mk [7, 8] 2 2 : Vector Nat).resize.elems = [7, 8] :=
  ⟨(C29_resize (Vector.mk [7, 8] 2 2) (by decide) (by decide) (by decide)).1,
   (C29_resize (Vector.mk [7, 8] 2 2) (by decide) (by decide) (by decide)).2.1,
   (C29_resize (Vector.mk [7, 8] 2 2) (by decide) (by decide) (by decide)).2.2.2.1⟩

/-! ## Decimal representations and keys -/

theorem digitChar_spec (k : Nat) (hk : k < 10) :
    (Nat.digitChar k).toNat - 48 = k ∧ (Nat.digitChar k).isDigit = true := by
  interval_cases k <;> exact ⟨rfl, rfl⟩

theorem digitsValue_append_singleton (cs : List Char) (c : Char) :
    digitsValue (cs ++ [c]) = digitsValue cs * 10 + (c.toNat - 48) := by
  simp [digitsValue, List.foldl_append]

theorem toDigitsCore_spec (fuel : Nat) : ∀ (n : Nat) (ds : List Char), n < fuel →
    ∃ cs, Nat.toDigitsCore 10 fuel n ds = cs ++ ds ∧ digitsValue cs = n ∧ cs ≠ [] ∧
      ∀ c ∈ cs, c.isDigit = true := by
  induction fuel with
  | zero => intro n ds h; omega
  | succ fuel ih =>
    intro n ds h
    obtain ⟨hd1, hd2⟩ := digitChar_spec (n % 10) (Nat.mod_lt n (by decide))
    simp only [Nat.toDigitsCore]
    split_ifs with h0
    · refine ⟨[Nat.digitChar (n % 10)], rfl, ?_, by simp, ?_⟩
      · simp only [digitsValue, List.foldl_cons, List.foldl_nil, hd1]
        omega
      · intro c hc
        rw [List.mem_singleton.mp hc]
        exact hd2
    · obtain ⟨cs, h1, h2, h3, h4⟩ := ih (n / 10) (Nat.digitChar (n % 10) :: ds) (by omega)
      refine ⟨cs ++ [Nat.digitChar (n % 10)], ?_, ?_, by simp, ?_⟩
      · rw [h1]; simp
      · rw [digitsValue_append_singleton, h2, hd1]
        omega
      · intro c hc
        rcases List.mem_append.mp hc with hc | hc
        · exact h4 c hc
        · rw [List.mem_singleton.mp hc]
          exact hd2

theorem natRepr_spec (n : Nat) :
    digitsValue (Nat.repr n).data = n ∧ (Nat.repr n).data ≠ [] ∧
      ∀ c ∈ (Nat.repr n).data, c.isDigit = true := by
  obtain ⟨cs, h1, h2, h3, h4⟩ := toDigitsCore_spec (n + 1) n [] (Nat.lt_succ_self n)
  have hd : (Nat.repr n).data = cs := by
    show Nat.toDigitsCore 10 (n + 1) n [] = cs
    rw [h1, List.append_nil]
  rw [hd]
  exact ⟨h2, h3, h4⟩

theorem natRepr_injective (a b : Nat) (h : Nat.repr a = Nat.repr b) : a = b := by
  rw [← (natRepr_spec a).1, ← (natRepr_spec b).1, h]

theorem intToString_data (n : Int) :
    (0 ≤ n ∧ (toString n).data = (Nat.repr n.toNat).data) ∨
    (n < 0 ∧ (toString n).data = '-' :: (Nat.repr (-n).toNat).data) := by
  cases n with
  | ofNat m => exact Or.inl ⟨Int.ofNat_nonneg m, rfl⟩
  | negSucc m => exact Or.inr ⟨Int.negSucc_lt_zero m, rfl⟩

theorem intToString_injective (a b : Int) (h : toString a = toString b) : a = b := by
  have hdata : (toString a).data = (toString b).data := congrArg String.data h
  have hne : ∀ n : Nat, ∀ l : List Char, (Nat.repr n).data ≠ '-' :: l := by
    intro n l e
    obtain ⟨-, h2, h3⟩ := natRepr_spec n
    have := h3 '-' (by rw [e]; exact List.mem_cons_self _ _)
    exact absurd this (by decide)
  rcases intToString_data a with ⟨ha, ea⟩ | ⟨ha, ea⟩ <;>
    rcases intToString_data b with ⟨hb, eb⟩ | ⟨hb, eb⟩
  · rw [ea, eb] at hdata
    have := natRepr_injective _ _ (String.ext hdata)
    omega
  · rw [ea, eb] at hdata
    exact absurd hdata (hne _ _)
  · rw [ea, eb] at hdata
    exact absurd hdata.symm (hne _ _)
  · rw [ea, eb] at hdata
    have := natRepr_injective _ _ (String.ext (List.cons.inj hdata).2)
    omega

theorem monthPart_length (m : Int) (h1 : 1 ≤ m) (h12 : m ≤ 12) :
    ((if m < 10 then "0" else "") ++ toString m).data.length = 2 := by
  interval_cases m <;> rfl

theorem monthPart_value (m : Int) (h1 : 1 ≤ m) (h12 : m ≤ 12) :
    (digitsValue ((if m < 10 then "0" else "") ++ toString m).data : Int) = m := by
  interval_cases m <;> rfl

theorem buildKey_data (y m : Int) :
    (buildKey y m).data
      = ((toString y).data ++ ['-']) ++ ((if m < 10 then "0" else "") ++ toString m).data := by
  simp only [buildKey, streamInt, String.data_append, List.append_assoc]

theorem buildKey_injective (y m y2 m2 : Int) (h1 : 1 ≤ m) (h12 : m ≤ 12) (h1b : 1 ≤ m2)
    (h12b : m2 ≤ 12) (h : buildKey y m = buildKey y2 m2) : y = y2 ∧ m = m2 := by
  have hdata := congrArg String.data h
  rw [buildKey_data, buildKey_data] at hdata
  obtain ⟨e1, e2⟩ := List.append_inj' hdata
    (by rw [monthPart_length m h1 h12, monthPart_length m2 h1b h12b])
  have ey : (toString y).data = (toString y2).data := List.append_cancel_right e1
  refine ⟨intToString_injective y y2 (String.ext ey), ?_⟩
  rw [← monthPart_value m h1 h12, ← monthPart_value m2 h1b h12b, e2]

theorem recordKey_eq_buildKey (d : Date) : recordKey d = buildKey d.year d.month := rfl

/-! ## The mapping built by the insertion steps -/

theorem find_entries_none_of_lt {V : Type} (es : List (String × V)) (key : String)
    (h : ∀ p ∈ es, key.data < p.1.data) : es.find? (fun p => p.1 == key) = none := by
  rw [List.find?_eq_none]
  intro p hp hpk
  have h1 : key < p.1 := String.lt_iff_toList_lt.mpr (h p hp)
  have h2 : p.1 = key := by simpa using hpk
  rw [h2] at h1
  exact lt_irrefl _ h1

theorem find_upsertEntries {V : Type} (key : String) (dflt : V) (f : V → V) (k : String) :
    ∀ es : List (String × V), es.Pairwise (fun a b => a.1.data < b.1.data) →
    ((upsertEntries key dflt f es).find? (fun p => p.1 == k)).map (fun p => p.2)
      = if k = key then
          some (f (((es.find? (fun p => p.1 == key)).map (fun p => p.2)).getD dflt))
        else (es.find? (fun p => p.1 == k)).map (fun p => p.2) := by
  intro es
  induction es with
  | nil =>
    intro _
    by_cases hk : k = key
    · subst hk
      simp [upsertEntries]
    · have hk2 : ¬ key = k := fun e => hk e.symm
      simp [upsertEntries, hk, hk2]
  | cons e rest ih =>
    intro hs
    obtain ⟨k0, v⟩ := e
    obtain ⟨hhead, htail⟩ := List.pairwise_cons.mp hs
    have ih2 := ih htail
    by_cases hlt : key.data < k0.data
    · have hu : upsertEntries key dflt f ((k0, v) :: rest) = (key, f dflt) :: (k0, v) :: rest := by
        simp only [upsertEntries, if_pos hlt]
      rw [hu]
      by_cases hk : k = key
      · subst hk
        have hnone : ((k0, v) :: rest).find? (fun p => p.1 == k) = none := by
          apply find_entries_none_of_lt
          intro p hp
          rcases List.mem_cons.mp hp with rfl | hp
          · exact hlt
          · exact String.lt_iff_toList_lt.mp
              (lt_trans (String.lt_iff_toList_lt.mpr hlt)
                (String.lt_iff_toList_lt.mpr (hhead p hp)))
        rw [if_pos rfl, hnone]
        simp
      · have hk2 : ¬ key = k := fun e => hk e.symm
        rw [if_neg hk, List.find?_cons_of_neg _ (by simpa using hk2)]
    · by_cases heq : key = k0
      · subst heq
        have hu : upsertEntries key dflt f ((key, v) :: rest) = (key, f v) :: rest := by
          simp only [upsertEntries, if_neg hlt, if_true]
        rw [hu]
        by_cases hk : k = key
        · subst hk
          simp
        · have hk2 : ¬ key = k := fun e => hk e.symm
          rw [if_neg hk, List.find?_cons_of_neg _ (by simpa using hk2),
            List.find?_cons_of_neg _ (by simpa using hk2)]
      · have hu : upsertEntries key dflt f ((k0, v) :: rest)
            = (k0, v) :: upsertEntries key dflt f rest := by
          simp only [upsertEntries, if_neg hlt, if_neg heq]
        rw [hu]
        by_cases h0 : k0 = k
        · subst h0
          have hk : ¬ k0 = key := fun e => heq e.symm
          rw [if_neg hk, List.find?_cons_of_pos _ (by simp), List.find?_cons_of_pos _ (by simp)]
        · rw [List.find?_cons_of_neg _ (by simpa using h0), ih2]
          by_cases hk : k = key
          · subst hk
            rw [if_pos rfl, if_pos rfl, List.find?_cons_of_neg _ (by simpa using h0)]
          · rw [if_neg hk, if_neg hk, List.find?_cons_of_neg _ (by simpa using h0)]

theorem StdMap.find_atKey {V : Type} (m : StdMap V) (key : String) (dflt : V) (f : V → V)
    (k : String) :
    (m.atKey key dflt f).find k
      = if k = key then some (f ((m.find key).getD dflt)) else m.find k :=
  find_upsertEntries key dflt f k m.entries m.sorted

section Ingestion

variable {F : Type} [FloatOps F]

theorem ingest_snoc (ws : List (WeatherEntry F)) (w : WeatherEntry F) :
    ingest (ws ++ [w]) = insertionStep (ingest ws) w := by
  simp [ingest, List.foldl_append]

/-- The collection the mapping holds under a key after the insertion steps:
none when no record has the key, and otherwise the vector grown from
`WeatherLog()` by pushing the records of that key, in order. -/
theorem find_ingest (ws : List (WeatherEntry F)) (k : String) :
    (ingest ws).2.find k
      = if (ws.filter (fun w => decide (recordKey w.date = k))).isEmpty = true then none
        else some ((Vector.new 1 : WeatherLog F).pushAll
          (ws.filter (fun w => decide (recordKey w.date = k)))) := by
  induction ws using List.reverseRecOn with
  | nil => rfl
  | append_singleton ws w ih =>
    rw [ingest_snoc]
    simp only [insertionStep, StdMap.find_atKey, List.filter_append]
    by_cases hk : k = recordKey w.date
    · subst hk
      have hw : List.filter (fun w2 : WeatherEntry F => decide (recordKey w2.date = recordKey w.date))
          [w] = [w] := by simp
      have hne : ¬ (List.filter (fun w2 : WeatherEntry F =>
          decide (recordKey w2.date = recordKey w.date)) ws ++ [w]).isEmpty = true := by simp
      rw [if_pos rfl, hw, if_neg hne, Vector.pushAll_snoc, ih]
      congr 2
      by_cases hnil : (List.filter (fun w2 : WeatherEntry F =>
          decide (recordKey w2.date = recordKey w.date)) ws).isEmpty = true
      · rw [if_pos hnil, List.isEmpty_iff.mp hnil]; rfl
      · rw [if_neg hnil]; rfl
    · have hk2 : ¬ recordKey w.date = k := fun e => hk e.symm
      have hw : List.filter (fun w2 : WeatherEntry F => decide (recordKey w2.date = k)) [w] = [] := by
        simp [hk2]
      rw [if_neg hk, ih, hw, List.append_nil]

end Ingestion

section Ingestion

variable {F : Type} [FloatOps F]

theorem Vector.pushAll_new_one_le {T : Type} [Inhabited T] (xs : List T)
    (hlen : xs.length ≤ 1073741824) :
    ((Vector.new 1 : Vector T).pushAll xs).size ≤ ((Vector.new 1 : Vector T).pushAll xs).capacity := by
  have hov : ∃ j : Nat, (xs.length : Int) ≤ 1 * 2 ^ j ∧ (1 : Int) * 2 ^ j ≤ INT_MAX :=
    ⟨30, by norm_num; omega, by norm_num [INT_MAX]⟩
  obtain ⟨hsz, -, k, hk, hkle, -⟩ := Vector.pushAll_new_spec 1 (le_refl 1) xs hov
  rw [hsz, hk]
  exact hkle

theorem filter_key_eq (ws : List (WeatherEntry F)) (y m : Int)
    (hmonths : ∀ w ∈ ws, 1 ≤ w.date.month ∧ w.date.month ≤ 12) (h1 : 1 ≤ m) (h12 : m ≤ 12) :
    ws.filter (fun w => decide (recordKey w.date = buildKey y m))
      = ws.filter (fun w => decide (w.date.year = y ∧ w.date.month = m)) := by
  apply List.filter_congr
  intro w hw
  obtain ⟨hw1, hw12⟩ := hmonths w hw
  rw [recordKey_eq_buildKey]
  by_cases h : w.date.year = y ∧ w.date.month = m
  · have hk : buildKey w.date.year w.date.month = buildKey y m := by rw [h.1, h.2]
    simp [h, hk]
  · have hk : ¬ buildKey w.date.year w.date.month = buildKey y m :=
      fun e => h (buildKey_injective _ _ _ _ hw1 hw12 h1 h12 e)
    simp [h, hk]

end Ingestion

/-- C30: starting from an empty index and an empty mapping, after the
insertion steps of `processCSVLine` for any list of parsed records (months in
1..12), `getRecordsByYearMonth(index, mapping, y, m)` returns exactly the
ingested records of year `y` and month `m`, in ingestion order, and so an
empty collection when there is none (the collection of a month, grown from
capacity 1 by doubling, holding at most `2^30` records). -/
theorem C30_end_to_end {F : Type} [FloatOps F] (ws : List (WeatherEntry F)) (y m : Int)
    (hmonths : ∀ w ∈ ws, 1 ≤ w.date.month ∧ w.date.month ≤ 12) (h1 : 1 ≤ m) (h12 : m ≤ 12)
    (hfit : (ws.filter (fun w => decide (w.date.year = y ∧ w.date.month = m))).length
      ≤ 1073741824) :
    (getRecordsByYearMonth (ingest ws).1 (ingest ws).2 y m).elems
      = ws.filter (fun w => decide (w.date.year = y ∧ w.date.month = m)) ∧
    (getRecordsByYearMonth (ingest ws).1 (ingest ws).2 y m).GetSize
      = (ws.filter (fun w => decide (w.date.year = y ∧ w.date.month = m))).length := by
  have hsel := filter_key_eq ws y m hmonths h1 h12
  have hfind := find_ingest ws (buildKey y m)
  rw [hsel] at hfind
  by_cases hnil : (ws.filter (fun w => decide (w.date.year = y ∧ w.date.month = m))).isEmpty = true
  · rw [if_pos hnil] at hfind
    have hres : getRecordsByYearMonth (ingest ws).1 (ingest ws).2 y m = Vector.new 1 := by
      simp only [getRecordsByYearMonth, hfind]
    rw [hres, List.isEmpty_iff.mp hnil]
    exact ⟨rfl, rfl⟩
  · rw [if_neg hnil] at hfind
    have hres : getRecordsByYearMonth (ingest ws).1 (ingest ws).2 y m
        = Vector.copyConstruct ((Vector.new 1 : WeatherLog F).pushAll
            (ws.filter (fun w => decide (w.date.year = y ∧ w.date.month = m)))) := by
      simp only [getRecordsByYearMonth, hfind]
    obtain ⟨he, hs⟩ := Vector.pushAll_new_one
      (ws.filter (fun w => decide (w.date.year = y ∧ w.date.month = m))) hfit
    rw [hres]
    refine ⟨?_, ?_⟩
    · rw [Vector.elems_copyConstruct _ (Vector.pushAll_new_one_le _ hfit), he]
    · show ((Vector.new 1 : WeatherLog F).pushAll _).size = _
      rw [hs]

/-- C30 on three records, two of May 2016 and one of June 2016: the query
(2016, 5) returns the two records of May in the order of ingestion, the query
(2016, 7) nothing. -/
theorem C30_end_to_end_witness :
    (getRecordsByYearMonth
        (ingest [sampleRecord 2016 5 1 (ExtRat.fin 50), sampleRecord 2016 6 1 ExtRat.nan,
          sampleRecord 2016 5 2 (ExtRat.fin 100)]).1
        (ingest [sampleRecord 2016 5 1 (ExtRat.fin 50), sampleRecord 2016 6 1 ExtRat.nan,
          sampleRecord 2016 5 2 (ExtRat.fin 100)]).2 2016 5).elems
      = [sampleRecord 2016 5 1 (ExtRat.fin 50), sampleRecord 2016 5 2 (ExtRat.fin 100)] ∧
    (getRecordsByYearMonth
        (ingest [sampleRecord 2016 5 1 (ExtRat.fin 50), sampleRecord 2016 6 1 ExtRat.nan,
          sampleRecord 2016 5 2 (ExtRat.fin 100)]).1
        (ingest [sampleRecord 2016 5 1 (ExtRat.fin 50), sampleRecord 2016 6 1 ExtRat.nan,
          sampleRecord 2016 5 2 (ExtRat.fin 100)]).2 2016 7).elems = [] :=
  ⟨(C30_end_to_end [sampleRecord 2016 5 1 (ExtRat.fin 50), sampleRecord 2016 6 1 ExtRat.nan,
      sampleRecord 2016 5 2 (ExtRat.fin 100)] 2016 5 (by decide) (by decide) (by decide)
      (by decide)).1,
   (C30_end_to_end [sampleRecord 2016 5 1 (ExtRat.fin 50), sampleRecord 2016 6 1 ExtRat.nan,
      sampleRecord 2016 5 2 (ExtRat.fin 100)] 2016 7 (by decide) (by decide) (by decide)
      (by decide)).1⟩

theorem digitsValue_lt (cs : List Char) (h : ∀ c ∈ cs, c.isDigit = true) :
    digitsValue cs < 10 ^ cs.length := by
  induction cs using List.reverseRecOn with
  | nil => simp [digitsValue]
  | append_singleton cs c ih =>
    have h1 := ih (fun x hx => h x (List.mem_append_left _ hx))
    obtain ⟨-, hc⟩ := isDigit_bounds c (h c (by simp))
    rw [digitsValue_append_singleton, List.length_append, List.length_singleton, pow_succ]
    omega

theorem year_four_digits (y : Int) (h1 : 1000 ≤ y) (h2 : y ≤ 9999) :
    ∃ a b c d : Char, (toString y).data = [a, b, c, d] ∧ a.isDigit = true ∧ b.isDigit = true ∧
      c.isDigit = true ∧ d.isDigit = true := by
  obtain ⟨n, rfl⟩ := Int.eq_ofNat_of_zero_le (by omega : 0 ≤ y)
  have hdata : (toString (n : Int)).data = (Nat.repr n).data := rfl
  obtain ⟨hv, -, hd⟩ := natRepr_spec n
  have hle : (Nat.repr n).data.length ≤ 4 := Nat.repr_length n 4 (by decide) (by omega)
  have hlt := digitsValue_lt _ hd
  rw [hv] at hlt
  have hge : 4 ≤ (Nat.repr n).data.length := by
    by_contra hcon
    have h3 : (Nat.repr n).data.length ≤ 3 := by omega
    have : 10 ^ (Nat.repr n).data.length ≤ 10 ^ 3 := Nat.pow_le_pow_right (by decide) h3
    omega
  rw [hdata]
  match hl : (Nat.repr n).data, hd, hle, hge with
  | [a, b, c, d], hd, _, _ =>
    exact ⟨a, b, c, d, rfl, hd a (by simp), hd b (by simp), hd c (by simp), hd d (by simp)⟩
  | [], _, _, hge => simp at hge
  | [_], _, _, hge => simp at hge
  | [_, _], _, _, hge => simp at hge
  | [_, _, _], _, _, hge => simp at hge
  | _ :: _ :: _ :: _ :: _ :: _, _, hle, _ => simp at hle

theorem monthPart_digits (m : Int) (h1 : 1 ≤ m) (h12 : m ≤ 12) :
    ∃ m1 m2 : Char, ((if m < 10 then "0" else "") ++ toString m).data = [m1, m2] ∧
      m1.isDigit = true ∧ m2.isDigit = true := by
  interval_cases m <;> exact ⟨_, _, rfl, rfl, rfl⟩

/-- C28, counterexample: for the year 25 and the month 7 the key is `25-07`,
five characters long. -/
theorem C28_key_length_counterexample :
    buildKey 25 7 = "25-07" ∧ (buildKey 25 7).length = 5 ∧ (buildKey 25 7).length ≠ 7 ∧
    isYearMonthKey (buildKey 25 7) = false := by
  decide

/-- C28, amended: for every year in 1000..9999 and every month in 1..12, the
key `getRecordsByYearMonth` builds has exactly 7 characters: the four digits
of the year, a hyphen and the month zero-padded to two digits. -/
theorem C28_key_length (year month : Int) (hy1 : 1000 ≤ year) (hy2 : year ≤ 9999)
    (h1 : 1 ≤ month) (h12 : month ≤ 12) :
    (buildKey year month).length = 7 ∧
    isYearMonthKey (buildKey year month) = true ∧
    (streamInt year).length = 4 ∧
    buildKey year month = streamInt year ++ "-" ++ zeroPad2 month ∧
    (zeroPad2 month).length = 2 ∧
    monthComponent (buildKey year month) = month := by
  obtain ⟨a, b, c, d, hy, ha, hb, hc, hd⟩ := year_four_digits year hy1 hy2
  obtain ⟨m1, m2, hm, hm1, hm2⟩ := monthPart_digits month h1 h12
  have hdata : (buildKey year month).data = [a, b, c, d, '-', m1, m2] := by
    rw [buildKey_data, hy, hm]
    rfl
  have hval := monthPart_value month h1 h12
  rw [hm] at hval
  have hz : (if month < 10 then "0" else "") ++ toString month = zeroPad2 month := by
    interval_cases month <;> rfl
  refine ⟨?_, ?_, ?_, ?_, ?_, ?_⟩
  · show (buildKey year month).data.length = 7
    rw [hdata]
    rfl
  · unfold isYearMonthKey
    rw [hdata]
    simp [ha, hb, hc, hd, hm1, hm2]
  · show (toString year).data.length = 4
    rw [hy]
    rfl
  · have := buildKey_eq_keySpec year month h1 h12
    rw [this]
    rfl
  · rw [← hz]
    show ((if month < 10 then "0" else "") ++ toString month).data.length = 2
    rw [hm]
    rfl
  · unfold monthComponent
    rw [hdata]
    simp only
    rw [← hval]
    simp [digitsValue]

/-- C28 on the year 2016 and the month 5. -/
theorem C28_key_length_witness :
    buildKey 2016 5 = "2016-05" ∧ (buildKey 2016 5).length = 7 :=
  ⟨by decide, (C28_key_length 2016 5 (by decide) (by decide) (by decide) (by decide)).1⟩

set_option maxRecDepth 100000 in
unseal Rat.add Rat.mul Rat.inv Rat.sub in
/-- C25, evaluated on binary32 values: the three examples of the claim give
`1.0`, `-1.0` and `0.0`; but on `x = y = [4096, 4097]` (two distinct values,
`y_i = 1 * x_i + 0`) `pearson` returns `0.0` where the claim says `1.0`, on
`x = [4096, 4097]`, `y = [-4096, -4097]` it returns `0.0` where the claim says
`-1.0`, and on `x = [1.1, 1.1, 1.1]`, `y = [1, 2, 3]` (all values of `x`
equal) it returns NaN where the claim says `0.0`.  In the first two cases
`sumX2` is rounded to `33562624` and so is `sumX * sumX / n`; in the last one
`sumX2 - sumX * sumX / n` is rounded to a value below zero, whose product with
the spread of `y` has no square root. -/
theorem C25_pearson_linear_evaluated :
    pearson (Vector.mk [F32.lit 1, F32.lit 2, F32.lit 3] 3 3)
        (Vector.mk [F32.lit 1, F32.lit 2, F32.lit 3] 3 3) = Except.ok (F32.lit 1) ∧
    pearson (Vector.mk [F32.lit 1, F32.lit 2, F32.lit 3] 3 3)
        (Vector.mk [F32.lit 3, F32.lit 2, F32.lit 1] 3 3) = Except.ok (F32.lit (-1)) ∧
    pearson (Vector.mk [F32.lit 1, F32.lit 1, F32.lit 1] 3 3)
        (Vector.mk [F32.lit 1, F32.lit 2, F32.lit 3] 3 3) = Except.ok (F32.lit 0) ∧
    F32.lit 4096 ≠ F32.lit 4097 ∧
    pearson (Vector.mk [F32.lit 4096, F32.lit 4097] 2 2)
        (Vector.mk [F32.lit 4096, F32.lit 4097] 2 2) = Except.ok (F32.lit 0) ∧
    pearson (Vector.mk [F32.lit 4096, F32.lit 4097] 2 2)
        (Vector.mk [F32.lit (-4096), F32.lit (-4097)] 2 2) = Except.ok (F32.lit 0) ∧
    F32.lit 0 ≠ F32.lit 1 ∧ F32.lit 0 ≠ F32.lit (-1) ∧
    pearson (Vector.mk [F32.lit (11 / 10), F32.lit (11 / 10), F32.lit (11 / 10)] 3 3)
        (Vector.mk [F32.lit 1, F32.lit 2, F32.lit 3] 3 3) = Except.ok FloatOps.nan ∧
    (FloatOps.nan : F32) ≠ F32.lit 0 :=
  ⟨(pearson_eq_pearsonSpec _ _ (by decide) (by decide)).trans (congrArg Except.ok (by decide)),
   (pearson_eq_pearsonSpec _ _ (by decide) (by decide)).trans (congrArg Except.ok (by decide)),
   (pearson_eq_pearsonSpec _ _ (by decide) (by decide)).trans (congrArg Except.ok (by decide)),
   by decide,
   (pearson_eq_pearsonSpec _ _ (by decide) (by decide)).trans (congrArg Except.ok (by decide)),
   (pearson_eq_pearsonSpec _ _ (by decide) (by decide)).trans (congrArg Except.ok (by decide)),
   by decide, by decide,
   (pearson_eq_pearsonSpec _ _ (by decide) (by decide)).trans (congrArg Except.ok (by decide)),
   by decide⟩

set_option maxRecDepth 100000 in
unseal Rat.add Rat.mul Rat.inv Rat.sub in
/-- C26, evaluated on binary32 values: on `x = [2896, 2897, 2899]`,
`y = [1, 2, 3]`, three valid pairs, `pearson` returns `1.5`, which is above
`1` (`sumX2` is rounded to `25183624` and `sumX * sumX / n` to `25183622`, so
the spread of `x` comes out as `2` instead of `14 / 3`); on `x = [5793, 5794]`,
`y = [1, 2]`, two valid pairs, it returns NaN (the spread of `x` comes out as
`-8`).  Without any rounding, on `x = [+inf, 1]`, `y = [1, 2]`, two valid
pairs, it returns NaN as well (`inf - inf`). -/
theorem C26_pearson_range_evaluated :
    pearson (Vector.mk [F32.lit 2896, F32.lit 2897, F32.lit 2899] 3 3)
        (Vector.mk [F32.lit 1, F32.lit 2, F32.lit 3] 3 3) = Except.ok (F32.lit (3 / 2)) ∧
    (validPairs (Vector.mk [F32.lit 2896, F32.lit 2897, F32.lit 2899] 3 3)
        (Vector.mk [F32.lit 1, F32.lit 2, F32.lit 3] 3 3)).length = 3 ∧
    FloatOps.ge (F32.lit 1) (F32.lit (3 / 2)) = false ∧
    pearson (Vector.mk [F32.lit 5793, F32.lit 5794] 2 2)
        (Vector.mk [F32.lit 1, F32.lit 2] 2 2) = Except.ok FloatOps.nan ∧
    (validPairs (Vector.mk [F32.lit 5793, F32.lit 5794] 2 2)
        (Vector.mk [F32.lit 1, F32.lit 2] 2 2)).length = 2 ∧
    pearson (Vector.mk [ExtRat.inf false, ExtRat.fin 1] 2 2)
        (Vector.mk [ExtRat.fin 1, ExtRat.fin 2] 2 2) = Except.ok FloatOps.nan ∧
    (validPairs (Vector.mk [ExtRat.inf false, ExtRat.fin 1] 2 2)
        (Vector.mk [ExtRat.fin 1, ExtRat.fin 2] 2 2)).length = 2 ∧
    FloatOps.ge (FloatOps.nan : F32) (F32.lit (-1)) = false ∧
    FloatOps.ge (FloatOps.nan : ExtRat) (ExtRat.fin (-1)) = false :=
  ⟨(pearson_eq_pearsonSpec _ _ (by decide) (by decide)).trans (congrArg Except.ok (by decide)),
   by decide, by decide,
   (pearson_eq_pearsonSpec _ _ (by decide) (by decide)).trans (congrArg Except.ok (by decide)),
   by decide,
   (pearson_eq_pearsonSpec _ _ (by decide) (by decide)).trans (congrArg Except.ok (by decide)),
   by decide, by decide, by decide⟩

/-! ## Properties of the free store -/

namespace Blocks

variable {T : Type}

theorem block_append_lt (h l : Blocks T) (p : Nat) (hp : p < h.length) :
    (h ++ l).block p = h.block p := by
  simp [block, List.getElem?_append_left hp]

theorem block_append_length (h : Blocks T) (b : List T) :
    (h ++ [some b]).block h.length = b := by
  simp [block]

theorem block_setBlock_self (h : Blocks T) (p : Nat) (b : List T) (hp : p < h.length) :
    (h.setBlock p b).block p = b := by
  simp [block, setBlock, hp]

theorem block_setBlock_ne (h : Blocks T) (p q : Nat) (b : List T) (hq : q ≠ p) :
    (h.setBlock p b).block q = h.block q := by
  simp [block, setBlock, List.getElem?_set_ne (Ne.symm hq)]

theorem block_deleteArray_ne (h : Blocks T) (p q : Nat) (hq : q ≠ p) :
    (h.deleteArray p).block q = h.block q := by
  simp [block, deleteArray, List.getElem?_set_ne (Ne.symm hq)]

theorem length_setBlock (h : Blocks T) (p : Nat) (b : List T) :
    (h.setBlock p b).length = h.length := by
  simp [setBlock]

theorem length_deleteArray (h : Blocks T) (p : Nat) : (h.deleteArray p).length = h.length := by
  simp [deleteArray]

end Blocks

namespace VectorObj

variable {T : Type} [Inhabited T]

/-- The frame of one mutation: the store does not shrink, the object's block
stays where it was or moves to a new address, and no other block of the old
store changes. -/
theorem apply_frame (h : Blocks T) (v : VectorObj) (op : VectorOp T) (q : Nat)
    (hq : q < h.length) (hne : q ≠ v.data) :
    h.length ≤ (apply h v op).1.length ∧
    ((apply h v op).2.data = v.data ∨ h.length ≤ (apply h v op).2.data) ∧
    (apply h v op).1.block q = h.block q := by
  cases op with
  | pushBack element =>
    by_cases hfull : v.size = v.capacity
    · have hq2 : q ≠ h.length := Nat.ne_of_lt hq
      refine ⟨?_, Or.inr ?_, ?_⟩
      · simp [apply, pushBack, resize, hfull, Blocks.newArray, Blocks.length_setBlock,
          Blocks.length_deleteArray]
      · simp [apply, pushBack, resize, hfull, Blocks.newArray]
      · simp only [apply, pushBack, resize, hfull, if_true, Blocks.newArray]
        rw [Blocks.block_setBlock_ne _ _ _ _ hq2, Blocks.block_deleteArray_ne _ _ _ hne,
          Blocks.block_setBlock_ne _ _ _ _ hq2, Blocks.block_append_lt _ _ _ hq]
    · refine ⟨?_, Or.inl ?_, ?_⟩
      · simp [apply, pushBack, hfull, Blocks.length_setBlock]
      · simp [apply, pushBack, hfull]
      · simp only [apply, pushBack, hfull, if_false]
        rw [Blocks.block_setBlock_ne _ _ _ _ hne]
  | popBack =>
    refine ⟨Nat.le_refl _, Or.inl ?_, rfl⟩
    show (popBack v).data = v.data
    unfold popBack
    split <;> rfl
  | Clear => exact ⟨Nat.le_refl _, Or.inl rfl, rfl⟩
  | assignAt index x =>
    by_cases hr : index < 0 ∨ index ≥ v.size
    · simp [apply, assignAt, hr, throw, throwThe, MonadExceptOf.throw]
    · have ha : apply h v (VectorOp.assignAt index x)
          = (h.setBlock v.data (store (h.block v.data) index x), v) := by
        simp [apply, assignAt, hr, pure, Except.pure]
      rw [ha]
      exact ⟨by simp [Blocks.length_setBlock], Or.inl rfl, Blocks.block_setBlock_ne _ _ _ _ hne⟩

/-- The frame of a sequence of mutations. -/
theorem applyAll_frame (ops : List (VectorOp T)) (h : Blocks T) (v : VectorObj) (q : Nat)
    (hq : q < h.length) (hne : q ≠ v.data) :
    (applyAll h v ops).1.block q = h.block q := by
  induction ops generalizing h v with
  | nil => rfl
  | cons op ops ih =>
    obtain ⟨hlen, hdata, hblock⟩ := apply_frame h v op q hq hne
    have hne2 : q ≠ (apply h v op).2.data := by
      rcases hdata with hd | hd
      · rw [hd]; exact hne
      · omega
    have := ih (apply h v op).1 (apply h v op).2 (Nat.lt_of_lt_of_le hq hlen) hne2
    simp only [applyAll, List.foldl_cons] at this ⊢
    rw [this, hblock]

/-- The copy constructor on the free store builds the copy of the value
embedding in a new block and leaves the blocks of the old store alone. -/
theorem copyConstruct_spec (h : Blocks T) (other : VectorObj) (hlive : other.data < h.length) :
    (copyConstruct h other).2.data = h.length ∧
    (copyConstruct h other).1.length = h.length + 1 ∧
    view (copyConstruct h other).1 (copyConstruct h other).2 = (view h other).copyConstruct ∧
    ∀ q, q < h.length → (copyConstruct h other).1.block q = h.block q := by
  refine ⟨rfl, by simp [copyConstruct, Blocks.newArray, Blocks.length_setBlock], ?_, ?_⟩
  · simp only [view, copyConstruct, Blocks.newArray, Vector.copyConstruct]
    rw [Blocks.block_setBlock_self _ _ _ (by simp), Blocks.block_append_lt _ _ _ hlive,
      Blocks.block_append_length]
  · intro q hq
    simp only [copyConstruct, Blocks.newArray]
    rw [Blocks.block_setBlock_ne _ _ _ _ (Nat.ne_of_lt hq), Blocks.block_append_lt _ _ _ hq]

/-- The assignment operator on the free store, for two objects with blocks of
their own. -/
theorem assign_spec (h : Blocks T) (self other : VectorObj) (hlive : other.data < h.length)
    (hne : other.data ≠ self.data) :
    (assign h self other).2.data = h.length ∧
    (assign h self other).1.length = h.length + 1 ∧
    view (assign h self other).1 (assign h self other).2
      = (view h self).assign (view h other) false ∧
    ∀ q, q < h.length → q ≠ self.data → (assign h self other).1.block q = h.block q := by
  refine ⟨by simp [assign, Blocks.newArray, Blocks.length_deleteArray],
    by simp [assign, Blocks.newArray, Blocks.length_setBlock, Blocks.length_deleteArray], ?_, ?_⟩
  · simp only [view, assign, Blocks.newArray, Vector.assign, Bool.not_false, if_true]
    rw [Blocks.block_setBlock_self _ _ _ (by simp),
      Blocks.block_append_lt _ _ _ (by rw [Blocks.length_deleteArray]; exact hlive),
      Blocks.block_deleteArray_ne _ _ _ hne]
    have := Blocks.block_append_length (h.deleteArray self.data) (alloc (T := T) other.capacity)
    rw [this]
  · intro q hq hqs
    simp only [assign, Blocks.newArray]
    rw [Blocks.block_setBlock_ne _ _ _ _ (by rw [Blocks.length_deleteArray]; exact Nat.ne_of_lt hq),
      Blocks.block_append_lt _ _ _ (by rw [Blocks.length_deleteArray]; exact hq),
      Blocks.block_deleteArray_ne _ _ _ hqs]

end VectorObj

namespace VectorObj

variable {T : Type} [Inhabited T]

/-- Every mutation on the free store is the mutation of the value embedding
on the object's content. -/
theorem view_apply (h : Blocks T) (v : VectorObj) (op : VectorOp T) (hlive : v.data < h.length) :
    view (apply h v op).1 (apply h v op).2 = (view h v).applyOp op ∧
    (apply h v op).2.data < (apply h v op).1.length := by
  cases op with
  | pushBack element =>
    by_cases hfull : v.size = v.capacity
    · have hne : h.length ≠ v.data := Nat.ne_of_gt hlive
      refine ⟨?_, ?_⟩
      · simp only [view, apply, pushBack, resize, hfull, if_true, Blocks.newArray,
          Vector.applyOp, Vector.pushBack, Vector.resize]
        rw [Blocks.block_setBlock_self _ _ _ (by simp [Blocks.length_deleteArray,
            Blocks.length_setBlock]),
          Blocks.block_deleteArray_ne _ _ _ hne, Blocks.block_setBlock_self _ _ _ (by simp),
          Blocks.block_append_lt _ _ _ hlive, Blocks.block_append_length]
      · simp [apply, pushBack, resize, hfull, Blocks.newArray, Blocks.length_deleteArray,
          Blocks.length_setBlock]
    · refine ⟨?_, ?_⟩
      · simp only [view, apply, pushBack, hfull, if_false, Vector.applyOp, Vector.pushBack]
        rw [Blocks.block_setBlock_self _ _ _ hlive]
      · simpa [apply, pushBack, hfull, Blocks.length_setBlock] using hlive
  | popBack =>
    refine ⟨?_, ?_⟩
    · simp only [view, apply, popBack, Vector.applyOp, Vector.popBack]
      split <;> rfl
    · show (popBack v).data < h.length
      unfold popBack
      split <;> exact hlive
  | Clear => exact ⟨rfl, hlive⟩
  | assignAt index x =>
    by_cases hr : index < 0 ∨ index ≥ v.size
    · have ha : apply h v (VectorOp.assignAt index x) = (h, v) := by
        simp [apply, assignAt, hr, throw, throwThe, MonadExceptOf.throw]
      rw [ha]
      refine ⟨?_, hlive⟩
      simp only [Vector.applyOp, view, hr, if_true]
    · have ha : apply h v (VectorOp.assignAt index x)
          = (h.setBlock v.data (store (h.block v.data) index x), v) := by
        simp [apply, assignAt, hr, pure, Except.pure]
      rw [ha]
      refine ⟨?_, by simpa [Blocks.length_setBlock] using hlive⟩
      simp only [Vector.applyOp, view, hr, if_false]
      rw [Blocks.block_setBlock_self _ _ _ hlive]

end VectorObj

namespace Cells

variable {T : Type}

theorem cell_lt_length {h : Cells T} {p : Nat} {c : Cell T} (hc : cell h p = some c) :
    p < h.length := by
  by_contra hp
  have : h[p]? = none := List.getElem?_eq_none (Nat.le_of_not_lt hp)
  simp [cell, this] at hc

theorem cell_append_left (h l : Cells T) (p : Nat) (hp : p < h.length) :
    cell (h ++ l) p = cell h p := by
  simp [cell, List.getElem?_append_left hp]

theorem cell_concat_length (h : Cells T) (c : Cell T) : cell (h ++ [some c]) h.length = some c := by
  simp [cell]

theorem cell_set_ne (h : Cells T) (p q : Nat) (x : Option (Cell T)) (hq : q ≠ p) :
    cell (h.set p x) q = cell h q := by
  simp [cell, List.getElem?_set_ne (Ne.symm hq)]

theorem cell_set_self (h : Cells T) (p : Nat) (x : Option (Cell T)) (hp : p < h.length) :
    cell (h.set p x) p = x := by
  simp [cell, hp]

theorem length_setLeft (h : Cells T) (p : Nat) (l : Option Nat) :
    (setLeft h p l).length = h.length := by
  unfold setLeft
  split <;> simp

theorem length_setRight (h : Cells T) (p : Nat) (r : Option Nat) :
    (setRight h p r).length = h.length := by
  unfold setRight
  split <;> simp

theorem cell_setLeft_ne (h : Cells T) (p q : Nat) (l : Option Nat) (hq : q ≠ p) :
    cell (setLeft h p l) q = cell h q := by
  unfold setLeft
  split
  · exact cell_set_ne _ _ _ _ hq
  · rfl

theorem cell_setRight_ne (h : Cells T) (p q : Nat) (r : Option Nat) (hq : q ≠ p) :
    cell (setRight h p r) q = cell h q := by
  unfold setRight
  split
  · exact cell_set_ne _ _ _ _ hq
  · rfl

theorem cell_setLeft_self (h : Cells T) (p : Nat) (l : Option Nat) (c : Cell T)
    (hc : cell h p = some c) : cell (setLeft h p l) p = some { c with left := l } := by
  have hp : p < h.length := cell_lt_length hc
  unfold setLeft
  rw [hc]
  exact cell_set_self _ _ _ hp

theorem cell_setRight_self (h : Cells T) (p : Nat) (r : Option Nat) (c : Cell T)
    (hc : cell h p = some c) : cell (setRight h p r) p = some { c with right := r } := by
  have hp : p < h.length := cell_lt_length hc
  unfold setRight
  rw [hc]
  exact cell_set_self _ _ _ hp

/-- The addresses of a tree are allocated. -/
theorem Rep.lt_length {h : Cells T} {p : Option Nat} {t : Node T} {f : List Nat}
    (hrep : Rep h p t f) : ∀ a ∈ f, a < h.length := by
  induction hrep with
  | null => intro a ha; cases ha
  | node a d pl pr l r fl fr hc _ _ _ _ _ ihl ihr =>
    intro b hb
    rcases List.mem_cons.mp hb with rfl | hb
    · exact cell_lt_length hc
    · rcases List.mem_append.mp hb with hb | hb
      · exact ihl b hb
      · exact ihr b hb

/-- A tree is still there in every store that agrees on its addresses. -/
theorem Rep.frame {h k : Cells T} {p : Option Nat} {t : Node T} {f : List Nat}
    (hrep : Rep h p t f) (hk : ∀ a ∈ f, cell k a = cell h a) : Rep k p t f := by
  induction hrep with
  | null => exact Rep.null
  | node a d pl pr l r fl fr hc _ _ hal har hd ihl ihr =>
    refine Rep.node a d pl pr l r fl fr ?_ (ihl ?_) (ihr ?_) hal har hd
    · rw [hk a (List.mem_cons_self _ _)]; exact hc
    · intro b hb
      exact hk b (List.mem_cons_of_mem _ (List.mem_append_left _ hb))
    · intro b hb
      exact hk b (List.mem_cons_of_mem _ (List.mem_append_right _ hb))

/-- The tree read off the store is the tree the pointer leads to. -/
theorem reify_of_rep {h : Cells T} {p : Option Nat} {t : Node T} {f : List Nat}
    (hrep : Rep h p t f) : ∀ fuel, t.size ≤ fuel → reify fuel h p = t := by
  induction hrep with
  | null => intro fuel _; cases fuel <;> rfl
  | node a d pl pr l r fl fr hc _ _ _ _ _ ihl ihr =>
    intro fuel hfuel
    cases fuel with
    | zero => simp [Node.size] at hfuel
    | succ n =>
      simp only [Node.size] at hfuel
      simp only [reify, hc]
      rw [ihl n (by omega), ihr n (by omega)]

end Cells

namespace Cells

variable {T : Type}

/-- `insert` on the free store builds the tree `Node.insert` builds; it
writes only at addresses of the tree and at new addresses. -/
theorem insert_spec [LinearOrder T] (t : Node T) :
    ∀ (h : Cells T) (p : Option Nat) (f : List Nat) (fuel : Nat) (value : T),
      Rep h p t f → t.size ≤ fuel →
      ∃ g, Rep (insert fuel h p value).1 (insert fuel h p value).2 (t.insert value) g ∧
        h.length ≤ (insert fuel h p value).1.length ∧
        (∀ a, a < h.length → a ∉ f → cell (insert fuel h p value).1 a = cell h a) ∧
        (∀ a ∈ g, a ∈ f ∨ h.length ≤ a) := by
  induction t with
  | null =>
    intro h p f fuel value hrep _
    cases hrep
    have hins : insert fuel h none value
        = (h ++ [some { data := value, left := none, right := none }], some h.length) := by
      cases fuel <;> rfl
    rw [hins]
    refine ⟨h.length :: ([] ++ []), ?_, by simp, ?_, ?_⟩
    · exact Rep.node h.length value none none Node.null Node.null [] []
        (cell_concat_length _ _) Rep.null Rep.null (by simp) (by simp) (by simp)
    · intro a ha _
      exact cell_append_left _ _ _ ha
    · intro a ha
      simp at ha
      exact Or.inr (by omega)
  | mk d l r ihl ihr =>
    intro h p f fuel value hrep hfuel
    cases hrep with
    | node a _ pl pr _ _ fl fr hc hl hr hal har hdis =>
    have ha : a < h.length := cell_lt_length hc
    cases fuel with
    | zero => simp [Node.size] at hfuel
    | succ n =>
      simp only [Node.size] at hfuel
      by_cases hlt : value < d
      · obtain ⟨g, hg, hlen, hframe, hsub⟩ := ihl h pl fl n value hl (by omega)
        have hins : insert (n + 1) h (some a) value
            = (setLeft (insert n h pl value).1 a (insert n h pl value).2, some a) := by
          simp [insert, hc, hlt]
        have ht : (Node.mk d l r).insert value = Node.mk d (l.insert value) r := by
          simp [Node.insert, hlt]
        have hag : a ∉ g := fun hin => by
          rcases hsub a hin with h1 | h1
          · exact hal h1
          · omega
        have hca : cell (insert n h pl value).1 a = some { data := d, left := pl, right := pr } := by
          rw [hframe a ha hal]; exact hc
        rw [hins, ht]
        refine ⟨a :: (g ++ fr), ?_, ?_, ?_, ?_⟩
        · refine Rep.node a d (insert n h pl value).2 pr _ _ g fr
            (cell_setLeft_self _ _ _ _ hca) (hg.frame ?_) (hr.frame ?_) hag har ?_
          · intro b hb
            exact cell_setLeft_ne _ _ _ _ (fun e => hag (e ▸ hb))
          · intro b hb
            have hba : b ≠ a := fun e => har (e ▸ hb)
            rw [cell_setLeft_ne _ _ _ _ hba]
            exact hframe b (hr.lt_length b hb) (fun hbl => hdis b hbl hb)
          · intro b hb hbr
            rcases hsub b hb with h1 | h1
            · exact hdis b h1 hbr
            · have := hr.lt_length b hbr
              omega
        · rw [length_setLeft]; exact hlen
        · intro b hb hbf
          have hba : b ≠ a := fun e => hbf (e ▸ List.mem_cons_self _ _)
          rw [cell_setLeft_ne _ _ _ _ hba]
          exact hframe b hb (fun hbl => hbf (List.mem_cons_of_mem _ (List.mem_append_left _ hbl)))
        · intro b hb
          rcases List.mem_cons.mp hb with rfl | hb
          · exact Or.inl (List.mem_cons_self _ _)
          · rcases List.mem_append.mp hb with hb | hb
            · rcases hsub b hb with h1 | h1
              · exact Or.inl (List.mem_cons_of_mem _ (List.mem_append_left _ h1))
              · exact Or.inr h1
            · exact Or.inl (List.mem_cons_of_mem _ (List.mem_append_right _ hb))
      · by_cases hgt : value > d
        · obtain ⟨g, hg, hlen, hframe, hsub⟩ := ihr h pr fr n value hr (by omega)
          have hins : insert (n + 1) h (some a) value
              = (setRight (insert n h pr value).1 a (insert n h pr value).2, some a) := by
            simp [insert, hc, hlt, hgt]
          have ht : (Node.mk d l r).insert value = Node.mk d l (r.insert value) := by
            simp [Node.insert, hlt, hgt]
          have hag : a ∉ g := fun hin => by
            rcases hsub a hin with h1 | h1
            · exact har h1
            · omega
          have hca : cell (insert n h pr value).1 a
              = some { data := d, left := pl, right := pr } := by
            rw [hframe a ha har]; exact hc
          rw [hins, ht]
          refine ⟨a :: (fl ++ g), ?_, ?_, ?_, ?_⟩
          · refine Rep.node a d pl (insert n h pr value).2 _ _ fl g
              (cell_setRight_self _ _ _ _ hca) (hl.frame ?_) (hg.frame ?_) hal hag ?_
            · intro b hb
              have hba : b ≠ a := fun e => hal (e ▸ hb)
              rw [cell_setRight_ne _ _ _ _ hba]
              exact hframe b (hl.lt_length b hb) (fun hbr => hdis b hb hbr)
            · intro b hb
              exact cell_setRight_ne _ _ _ _ (fun e => hag (e ▸ hb))
            · intro b hb hbg
              rcases hsub b hbg with h1 | h1
              · exact hdis b hb h1
              · have := hl.lt_length b hb
                omega
          · rw [length_setRight]; exact hlen
          · intro b hb hbf
            have hba : b ≠ a := fun e => hbf (e ▸ List.mem_cons_self _ _)
            rw [cell_setRight_ne _ _ _ _ hba]
            exact hframe b hb
              (fun hbr => hbf (List.mem_cons_of_mem _ (List.mem_append_right _ hbr)))
          · intro b hb
            rcases List.mem_cons.mp hb with rfl | hb
            · exact Or.inl (List.mem_cons_self _ _)
            · rcases List.mem_append.mp hb with hb | hb
              · exact Or.inl (List.mem_cons_of_mem _ (List.mem_append_left _ hb))
              · rcases hsub b hb with h1 | h1
                · exact Or.inl (List.mem_cons_of_mem _ (List.mem_append_right _ h1))
                · exact Or.inr h1
        · have hins : insert (n + 1) h (some a) value = (h, some a) := by
            simp [insert, hc, hlt, hgt]
          have ht : (Node.mk d l r).insert value = Node.mk d l r := by
            simp [Node.insert, hlt, hgt]
          rw [hins, ht]
          exact ⟨a :: (fl ++ fr), Rep.node a d pl pr l r fl fr hc hl hr hal har hdis,
            Nat.le_refl _, fun _ _ _ => rfl, fun b hb => Or.inl hb⟩

end Cells

namespace Cells

variable {T : Type}

/-- `copy` on the free store builds the same tree at new addresses and
writes nowhere else. -/
theorem copy_spec (t : Node T) :
    ∀ (h : Cells T) (p : Option Nat) (f : List Nat) (fuel : Nat),
      Rep h p t f → t.size ≤ fuel →
      ∃ g, Rep (copy fuel h p).1 (copy fuel h p).2 t g ∧
        h.length ≤ (copy fuel h p).1.length ∧
        (∀ a, a < h.length → cell (copy fuel h p).1 a = cell h a) ∧
        (∀ a ∈ g, h.length ≤ a) := by
  induction t with
  | null =>
    intro h p f fuel hrep _
    cases hrep
    have hcopy : copy fuel h none = (h, none) := by cases fuel <;> rfl
    rw [hcopy]
    exact ⟨[], Rep.null, Nat.le_refl _, fun _ _ => rfl, fun a ha => by cases ha⟩
  | mk d l r ihl ihr =>
    intro h p f fuel hrep hfuel
    cases hrep with
    | node a _ pl pr _ _ fl fr hc hl hr hal har hdis =>
    have ha : a < h.length := cell_lt_length hc
    cases fuel with
    | zero => simp [Node.size] at hfuel
    | succ n =>
      simp only [Node.size] at hfuel
      have h0a : ∀ b, b < h.length →
          cell (h ++ [some ({ data := d, left := none, right := none } : Cell T)]) b = cell h b :=
        fun b hb => cell_append_left _ _ _ hb
      have hleft : left (h ++ [some ({ data := d, left := none, right := none } : Cell T)]) a = pl := by
        simp [left, h0a a ha, hc]
      have hl0 : Rep (h ++ [some ({ data := d, left := none, right := none } : Cell T)]) pl l fl :=
        hl.frame (fun b hb => h0a b (hl.lt_length b hb))
      obtain ⟨gl, hgl, hlenl, hframel, hsubl⟩ := ihl _ pl fl n hl0 (by omega)
      generalize hL : copy n (h ++ [some ({ data := d, left := none, right := none } : Cell T)]) pl = L
        at hgl hlenl hframel
      have hlen0 : (h ++ [some ({ data := d, left := none, right := none } : Cell T)]).length
          = h.length + 1 := by simp
      rw [hlen0] at hlenl hframel hsubl
      have hLnew : cell L.1 h.length = some { data := d, left := none, right := none } := by
        rw [hframel _ (Nat.lt_succ_self _)]
        exact cell_concat_length _ _
      have h1new : cell (setLeft L.1 h.length L.2) h.length
          = some { data := d, left := L.2, right := none } :=
        cell_setLeft_self _ _ _ _ hLnew
      have h1old : ∀ b, b < h.length → cell (setLeft L.1 h.length L.2) b = cell h b := by
        intro b hb
        rw [cell_setLeft_ne _ _ _ _ (Nat.ne_of_lt hb), hframel b (by omega), h0a b hb]
      have hright : right (setLeft L.1 h.length L.2) a = pr := by
        simp [right, h1old a ha, hc]
      have hr1 : Rep (setLeft L.1 h.length L.2) pr r fr :=
        hr.frame (fun b hb => h1old b (hr.lt_length b hb))
      obtain ⟨gr, hgr, hlenr, hframer, hsubr⟩ := ihr _ pr fr n hr1 (by omega)
      generalize hR : copy n (setLeft L.1 h.length L.2) pr = R at hgr hlenr hframer
      rw [length_setLeft] at hlenr hframer hsubr
      have hcopy : copy (n + 1) h (some a) = (setRight R.1 h.length R.2, some h.length) := by
        simp only [copy, hc, hleft, hL, hright, hR]
      have hRnew : cell R.1 h.length = some { data := d, left := L.2, right := none } := by
        rw [hframer _ (by omega)]
        exact h1new
      rw [hcopy]
      refine ⟨h.length :: (gl ++ gr), ?_, ?_, ?_, ?_⟩
      · refine Rep.node h.length d L.2 R.2 l r gl gr (cell_setRight_self _ _ _ _ hRnew)
          (hgl.frame ?_) (hgr.frame ?_) ?_ ?_ ?_
        · intro b hb
          have h1 := hsubl b hb
          have h2 := hgl.lt_length b hb
          rw [cell_setRight_ne _ _ _ _ (by omega), hframer b h2,
            cell_setLeft_ne _ _ _ _ (by omega)]
        · intro b hb
          have h1 := hsubr b hb
          exact cell_setRight_ne _ _ _ _ (by omega)
        · intro hin
          have := hsubl _ hin
          omega
        · intro hin
          have := hsubr _ hin
          omega
        · intro b hb hbr
          have h1 := hgl.lt_length b hb
          have h2 := hsubr b hbr
          omega
      · rw [length_setRight]; omega
      · intro b hb
        rw [cell_setRight_ne _ _ _ _ (Nat.ne_of_lt hb), hframer b (by omega)]
        exact h1old b hb
      · intro b hb
        rcases List.mem_cons.mp hb with rfl | hb
        · exact Nat.le_refl _
        · rcases List.mem_append.mp hb with hb | hb
          · have := hsubl b hb
            omega
          · have := hsubr b hb
            omega

end Cells

namespace Node

variable {T : Type}

theorem size_insert_le [LinearOrder T] (t : Node T) (value : T) :
    (t.insert value).size ≤ t.size + 1 := by
  induction t with
  | null => simp [Node.insert, Node.size]
  | mk d l r ihl ihr =>
    simp only [Node.insert]
    split_ifs <;> simp only [Node.size] <;> omega

end Node

namespace Cells

variable {T : Type}

/-- `destroy` releases the nodes of the tree and writes nowhere else. -/
theorem destroy_spec (t : Node T) :
    ∀ (h : Cells T) (p : Option Nat) (f : List Nat) (fuel : Nat),
      Rep h p t f → t.size ≤ fuel →
      (destroy fuel h p).length = h.length ∧
      ∀ b, b ∉ f → cell (destroy fuel h p) b = cell h b := by
  induction t with
  | null =>
    intro h p f fuel hrep _
    cases hrep
    have hd : destroy fuel h none = h := by cases fuel <;> rfl
    rw [hd]
    exact ⟨rfl, fun _ _ => rfl⟩
  | mk d l r ihl ihr =>
    intro h p f fuel hrep hfuel
    cases hrep with
    | node a _ pl pr _ _ fl fr hc hl hr hal har hdis =>
    cases fuel with
    | zero => simp [Node.size] at hfuel
    | succ n =>
      simp only [Node.size] at hfuel
      have hleft : left h a = pl := by simp [left, hc]
      obtain ⟨hlen1, hout1⟩ := ihl h pl fl n hl (by omega)
      have hright : right (destroy n h pl) a = pr := by simp [right, hout1 a hal, hc]
      have hr1 : Rep (destroy n h pl) pr r fr :=
        hr.frame (fun b hb => hout1 b (fun hbl => hdis b hbl hb))
      obtain ⟨hlen2, hout2⟩ := ihr _ pr fr n hr1 (by omega)
      have hd : destroy (n + 1) h (some a)
          = (destroy n (destroy n h pl) pr).set a none := by
        simp only [destroy, hleft, hright]
      rw [hd]
      refine ⟨by rw [List.length_set, hlen2, hlen1], ?_⟩
      intro b hb
      have hba : b ≠ a := fun e => hb (e ▸ List.mem_cons_self _ _)
      rw [cell_set_ne _ _ _ _ hba,
        hout2 b (fun hbr => hb (List.mem_cons_of_mem _ (List.mem_append_right _ hbr))),
        hout1 b (fun hbl => hb (List.mem_cons_of_mem _ (List.mem_append_left _ hbl)))]

/-- A sequence of `insert` calls on one tree builds the tree the value
embedding builds and leaves every tree at other addresses as it was. -/
theorem insertAll_spec [LinearOrder T] (values : List T) :
    ∀ (h : Cells T) (p : Option Nat) (t : Node T) (f : List Nat) (q : Option Nat) (u : Node T)
      (g : List Nat) (fuel : Nat),
      Rep h p t f → Rep h q u g → (∀ a ∈ f, a ∉ g) → t.size + values.length ≤ fuel →
      (∃ f2, Rep (insertAll fuel h p values).1 (insertAll fuel h p values).2
          (values.foldl Node.insert t) f2 ∧ ∀ a ∈ f2, a ∉ g) ∧
      Rep (insertAll fuel h p values).1 q u g := by
  induction values with
  | nil =>
    intro h p t f q u g fuel hp hq hdis _
    exact ⟨⟨f, hp, hdis⟩, hq⟩
  | cons value values ih =>
    intro h p t f q u g fuel hp hq hdis hfuel
    simp only [List.length_cons] at hfuel
    obtain ⟨f1, hf1, _, hframe, hsub⟩ := insert_spec t h p f fuel value hp (by omega)
    have hq1 : Rep (insert fuel h p value).1 q u g :=
      hq.frame (fun b hb => hframe b (hq.lt_length b hb) (fun hbf => hdis b hbf hb))
    have hdis1 : ∀ a ∈ f1, a ∉ g := by
      intro a ha hag
      rcases hsub a ha with h1 | h1
      · exact hdis a h1 hag
      · have := hq.lt_length a hag
        omega
    have hsize := Node.size_insert_le t value
    exact ih (insert fuel h p value).1 (insert fuel h p value).2 (t.insert value) f1 q u g fuel
      hf1 hq1 hdis1 (by omega)

/-- The copy constructor `root = copy(other.root)` on the free store: the
copy is the same tree at addresses of its own, and the source is untouched. -/
theorem copy_separate {h : Cells T} {p : Option Nat} {t : Node T} {f : List Nat} (fuel : Nat)
    (hrep : Rep h p t f) (hfuel : t.size ≤ fuel) :
    ∃ g, Rep (copy fuel h p).1 (copy fuel h p).2 t g ∧ Rep (copy fuel h p).1 p t f ∧
      (∀ a ∈ g, a ∉ f) ∧ (∀ a ∈ f, a ∉ g) := by
  obtain ⟨g, hg, _, hframe, hsub⟩ := copy_spec t h p f fuel hrep hfuel
  have hdis : ∀ a ∈ g, a ∉ f := by
    intro a ha haf
    have h1 := hsub a ha
    have h2 := hrep.lt_length a haf
    omega
  exact ⟨g, hg, hrep.frame (fun b hb => hframe b (hrep.lt_length b hb)), hdis,
    fun a haf hag => hdis a hag haf⟩

/-- The assignment operator on the free store, for two trees at addresses of
their own: the target becomes the same tree as the source at new addresses,
and the source is untouched. -/
theorem assign_separate {h : Cells T} {self other : Option Nat} {ts t : Node T}
    {fs f : List Nat} (fuel : Nat) (hself : Rep h self ts fs) (hother : Rep h other t f)
    (hdis : ∀ a ∈ f, a ∉ fs) (hfs : ts.size ≤ fuel) (hfuel : t.size ≤ fuel) :
    ∃ g, Rep (assign fuel h self other).1 (assign fuel h self other).2 t g ∧
      Rep (assign fuel h self other).1 other t f ∧
      (∀ a ∈ g, a ∉ f) ∧ (∀ a ∈ f, a ∉ g) := by
  obtain ⟨_, hout⟩ := destroy_spec ts h self fs fuel hself hfs
  have hother1 : Rep (destroy fuel h self) other t f :=
    hother.frame (fun b hb => hout b (hdis b hb))
  exact copy_separate fuel hother1 hfuel

end Cells

namespace VectorObj

variable {T : Type} [Inhabited T]

/-- A sequence of mutations on the free store is the sequence of mutations of
the value embedding on the object's content. -/
theorem view_applyAll (ops : List (VectorOp T)) (h : Blocks T) (v : VectorObj)
    (hlive : v.data < h.length) :
    view (applyAll h v ops).1 (applyAll h v ops).2 = ops.foldl Vector.applyOp (view h v) := by
  induction ops generalizing h v with
  | nil => rfl
  | cons op ops ih =>
    obtain ⟨hview, hlive2⟩ := view_apply h v op hlive
    have := ih (apply h v op).1 (apply h v op).2 hlive2
    simp only [applyAll, List.foldl_cons] at this ⊢
    rw [this, hview]

end VectorObj

/-- C24: on the free store, for every vector with a block of its own and
every tree with nodes of its own, and for a copy of it made by the copy
constructor or by the assignment operator (the target having storage of its
own): after any sequence of `pushBack`, `popBack`, `Clear` and element
assignments applied to the copy, the source has the size, capacity and block
content it had, and after any such sequence applied to the source the copy
has the content the copy operation gave it; after any sequence of `insert`
calls applied to the copy of a tree, the source pointer still leads to the
same tree, node for node at the same addresses, and after any such sequence
applied to the source so does the copy.  The mutated object holds what the
mutations produce in the value embedding. -/
theorem C24_deep_copy_independence {T K : Type} [Inhabited T] [LinearOrder K]
    (h : Blocks T) (src self : VectorObj) (ops : List (VectorOp T))
    (hlive : src.data < h.length) (hself : src.data ≠ self.data)
    (k : Cells K) (root selfRoot : Option Nat) (t ts : Node K) (f fs : List Nat)
    (values : List K) (fuel : Nat)
    (hroot : Cells.Rep k root t f) (hselfRoot : Cells.Rep k selfRoot ts fs)
    (hsep : ∀ a ∈ f, a ∉ fs) (hfuel : t.size + values.length ≤ fuel) (hfs : ts.size ≤ fuel) :
    (VectorObj.view (VectorObj.applyAll (VectorObj.copyConstruct h src).1
          (VectorObj.copyConstruct h src).2 ops).1 src = VectorObj.view h src ∧
      VectorObj.view (VectorObj.applyAll (VectorObj.copyConstruct h src).1
          (VectorObj.copyConstruct h src).2 ops).1
          (VectorObj.applyAll (VectorObj.copyConstruct h src).1
            (VectorObj.copyConstruct h src).2 ops).2
        = ops.foldl Vector.applyOp (VectorObj.view h src).copyConstruct ∧
      VectorObj.view (VectorObj.applyAll (VectorObj.copyConstruct h src).1 src ops).1
          (VectorObj.copyConstruct h src).2 = (VectorObj.view h src).copyConstruct ∧
      VectorObj.view (VectorObj.applyAll (VectorObj.copyConstruct h src).1 src ops).1
          (VectorObj.applyAll (VectorObj.copyConstruct h src).1 src ops).2
        = ops.foldl Vector.applyOp (VectorObj.view h src)) ∧
    (VectorObj.view (VectorObj.applyAll (VectorObj.assign h self src).1
          (VectorObj.assign h self src).2 ops).1 src = VectorObj.view h src ∧
      VectorObj.view (VectorObj.applyAll (VectorObj.assign h self src).1
          (VectorObj.assign h self src).2 ops).1
          (VectorObj.applyAll (VectorObj.assign h self src).1
            (VectorObj.assign h self src).2 ops).2
        = ops.foldl Vector.applyOp ((VectorObj.view h self).assign (VectorObj.view h src) false) ∧
      VectorObj.view (VectorObj.applyAll (VectorObj.assign h self src).1 src ops).1
          (VectorObj.assign h self src).2
        = (VectorObj.view h self).assign (VectorObj.view h src) false ∧
      VectorObj.view (VectorObj.applyAll (VectorObj.assign h self src).1 src ops).1
          (VectorObj.applyAll (VectorObj.assign h self src).1 src ops).2
        = ops.foldl Vector.applyOp (VectorObj.view h src)) ∧
    (∃ g, Cells.Rep (Cells.copy fuel k root).1 (Cells.copy fuel k root).2 t g ∧
      Cells.Rep (Cells.insertAll fuel (Cells.copy fuel k root).1 (Cells.copy fuel k root).2
        values).1 root t f ∧
      (∃ g2, Cells.Rep
        (Cells.insertAll fuel (Cells.copy fuel k root).1 (Cells.copy fuel k root).2 values).1
        (Cells.insertAll fuel (Cells.copy fuel k root).1 (Cells.copy fuel k root).2 values).2
        (values.foldl Node.insert t) g2) ∧
      Cells.Rep (Cells.insertAll fuel (Cells.copy fuel k root).1 root values).1
        (Cells.copy fuel k root).2 t g ∧
      (∃ f2, Cells.Rep (Cells.insertAll fuel (Cells.copy fuel k root).1 root values).1
        (Cells.insertAll fuel (Cells.copy fuel k root).1 root values).2
        (values.foldl Node.insert t) f2)) ∧
    (∃ g, Cells.Rep (Cells.assign fuel k selfRoot root).1 (Cells.assign fuel k selfRoot root).2 t g ∧
      Cells.Rep (Cells.insertAll fuel (Cells.assign fuel k selfRoot root).1
        (Cells.assign fuel k selfRoot root).2 values).1 root t f ∧
      (∃ g2, Cells.Rep
        (Cells.insertAll fuel (Cells.assign fuel k selfRoot root).1
          (Cells.assign fuel k selfRoot root).2 values).1
        (Cells.insertAll fuel (Cells.assign fuel k selfRoot root).1
          (Cells.assign fuel k selfRoot root).2 values).2
        (values.foldl Node.insert t) g2) ∧
      Cells.Rep (Cells.insertAll fuel (Cells.assign fuel k selfRoot root).1 root values).1
        (Cells.assign fuel k selfRoot root).2 t g ∧
      (∃ f2, Cells.Rep (Cells.insertAll fuel (Cells.assign fuel k selfRoot root).1 root values).1
        (Cells.insertAll fuel (Cells.assign fuel k selfRoot root).1 root values).2
        (values.foldl Node.insert t) f2)) := by
  have hsize : t.size ≤ fuel := by omega
  refine ⟨?_, ?_, ?_, ?_⟩
  · obtain ⟨hdata, hlen, hview, hold⟩ := VectorObj.copyConstruct_spec h src hlive
    have hsrc1 : src.data < (VectorObj.copyConstruct h src).1.length := by omega
    have hne : src.data ≠ (VectorObj.copyConstruct h src).2.data := by omega
    have hcpy1 : (VectorObj.copyConstruct h src).2.data
        < (VectorObj.copyConstruct h src).1.length := by omega
    have hv0 : VectorObj.view (VectorObj.copyConstruct h src).1 src = VectorObj.view h src := by
      simp only [VectorObj.view, hold _ hlive]
    refine ⟨?_, ?_, ?_, ?_⟩
    · simp only [VectorObj.view]
      rw [VectorObj.applyAll_frame ops _ _ _ hsrc1 hne, hold _ hlive]
    · rw [VectorObj.view_applyAll ops _ _ hcpy1, hview]
    · rw [← hview]
      simp only [VectorObj.view]
      rw [VectorObj.applyAll_frame ops _ _ _ hcpy1 (Ne.symm hne)]
    · rw [VectorObj.view_applyAll ops _ _ hsrc1, hv0]
  · obtain ⟨hdata, hlen, hview, hold⟩ := VectorObj.assign_spec h self src hlive hself
    have hsrc1 : src.data < (VectorObj.assign h self src).1.length := by omega
    have hne : src.data ≠ (VectorObj.assign h self src).2.data := by omega
    have hcpy1 : (VectorObj.assign h self src).2.data
        < (VectorObj.assign h self src).1.length := by omega
    have hv0 : VectorObj.view (VectorObj.assign h self src).1 src = VectorObj.view h src := by
      simp only [VectorObj.view, hold _ hlive hself]
    refine ⟨?_, ?_, ?_, ?_⟩
    · simp only [VectorObj.view]
      rw [VectorObj.applyAll_frame ops _ _ _ hsrc1 hne, hold _ hlive hself]
    · rw [VectorObj.view_applyAll ops _ _ hcpy1, hview]
    · rw [← hview]
      simp only [VectorObj.view]
      rw [VectorObj.applyAll_frame ops _ _ _ hcpy1 (Ne.symm hne)]
    · rw [VectorObj.view_applyAll ops _ _ hsrc1, hv0]
  · obtain ⟨g, hg, hsrc, hgf, hfg⟩ := Cells.copy_separate fuel hroot hsize
    obtain ⟨⟨g2, hg2, _⟩, hkeep⟩ :=
      Cells.insertAll_spec values _ _ t g root t f fuel hg hsrc hgf hfuel
    obtain ⟨⟨f2, hf2, _⟩, hkeep2⟩ :=
      Cells.insertAll_spec values _ _ t f _ t g fuel hsrc hg hfg hfuel
    exact ⟨g, hg, hkeep, ⟨g2, hg2⟩, hkeep2, ⟨f2, hf2⟩⟩
  · obtain ⟨g, hg, hsrc, hgf, hfg⟩ :=
      Cells.assign_separate fuel hselfRoot hroot hsep hfs hsize
    obtain ⟨⟨g2, hg2, _⟩, hkeep⟩ :=
      Cells.insertAll_spec values _ _ t g root t f fuel hg hsrc hgf hfuel
    obtain ⟨⟨f2, hf2, _⟩, hkeep2⟩ :=
      Cells.insertAll_spec values _ _ t f _ t g fuel hsrc hg hfg hfuel
    exact ⟨g, hg, hkeep, ⟨g2, hg2⟩, hkeep2, ⟨f2, hf2⟩⟩

/-- C24 on the vector `[7, 8]` in the block `[7, 8, 9, 9]` at address 0 and on
the tree with root 5 and left child 3: after `pushBack(1)`, `v[0] = 5` and
`popBack()` on the copy, the copy is `[5, 8]` in the block `[5, 8, 1, 0]` and
the source is as it was; after the same calls on the source, the copy is
`[7, 8]`; after `insert(4)` and `insert(7)` on the copy of the tree, the copy
has the four keys and the source, read off the store, is the tree of 5 and 3. -/
theorem C24_deep_copy_independence_witness :
    VectorObj.view (VectorObj.applyAll (VectorObj.copyConstruct sampleBlocks ⟨0, 2, 4⟩).1
        (VectorObj.copyConstruct sampleBlocks ⟨0, 2, 4⟩).2
        [VectorOp.pushBack 1, VectorOp.assignAt 0 5, VectorOp.popBack]).1 ⟨0, 2, 4⟩
      = Vector.mk [7, 8, 9, 9] 2 4 ∧
    VectorObj.view (VectorObj.applyAll (VectorObj.copyConstruct sampleBlocks ⟨0, 2, 4⟩).1
        (VectorObj.copyConstruct sampleBlocks ⟨0, 2, 4⟩).2
        [VectorOp.pushBack 1, VectorOp.assignAt 0 5, VectorOp.popBack]).1
        (VectorObj.applyAll (VectorObj.copyConstruct sampleBlocks ⟨0, 2, 4⟩).1
          (VectorObj.copyConstruct sampleBlocks ⟨0, 2, 4⟩).2
          [VectorOp.pushBack 1, VectorOp.assignAt 0 5, VectorOp.popBack]).2
      = Vector.mk [5, 8, 1, 0] 2 4 ∧
    VectorObj.view (VectorObj.applyAll (VectorObj.assign sampleBlocks ⟨1, 1, 1⟩ ⟨0, 2, 4⟩).1
        ⟨0, 2, 4⟩ [VectorOp.pushBack 1, VectorOp.assignAt 0 5, VectorOp.popBack]).1
        (VectorObj.assign sampleBlocks ⟨1, 1, 1⟩ ⟨0, 2, 4⟩).2
      = Vector.mk [7, 8, 0, 0] 2 4 ∧
    Cells.reify 4 (Cells.insertAll 4 (Cells.copy 4 sampleCells (some 0)).1
        (Cells.copy 4 sampleCells (some 0)).2 [4, 7]).1 (some 0)
      = Node.mk 5 (Node.mk 3 Node.null Node.null) Node.null ∧
    (∃ g2, Cells.Rep (Cells.insertAll 4 (Cells.copy 4 sampleCells (some 0)).1
        (Cells.copy 4 sampleCells (some 0)).2 [4, 7]).1
        (Cells.insertAll 4 (Cells.copy 4 sampleCells (some 0)).1
          (Cells.copy 4 sampleCells (some 0)).2 [4, 7]).2
        (Node.mk 5 (Node.mk 3 Node.null (Node.mk 4 Node.null Node.null))
          (Node.mk 7 Node.null Node.null)) g2) ∧
    Cells.reify 4 (Cells.insertAll 4 (Cells.assign 4 sampleCells (some 2) (some 0)).1 (some 0)
        [4, 7]).1 (Cells.assign 4 sampleCells (some 2) (some 0)).2
      = Node.mk 5 (Node.mk 3 Node.null Node.null) Node.null := by
  have hroot : Cells.Rep sampleCells (some 0) (Node.mk 5 (Node.mk 3 Node.null Node.null) Node.null)
      [0, 1] :=
    Cells.Rep.node 0 5 (some 1) none _ _ [1] [] rfl
      (Cells.Rep.node 1 3 none none _ _ [] [] rfl Cells.Rep.null Cells.Rep.null
        (by decide) (by decide) (by decide))
      Cells.Rep.null (by decide) (by decide) (by decide)
  have hself : Cells.Rep sampleCells (some 2) (Node.mk 9 Node.null Node.null) [2] :=
    Cells.Rep.node 2 9 none none _ _ [] [] rfl Cells.Rep.null Cells.Rep.null
      (by decide) (by decide) (by decide)
  have key := C24_deep_copy_independence sampleBlocks ⟨0, 2, 4⟩ ⟨1, 1, 1⟩
    [VectorOp.pushBack 1, VectorOp.assignAt 0 5, VectorOp.popBack] (by decide) (by decide)
    sampleCells (some 0) (some 2) _ _ _ _ [4, 7] 4 hroot hself (by decide) (by decide) (by decide)
  obtain ⟨g, _, hsrc, hcopy, _, _⟩ := key.2.2.1
  obtain ⟨g3, _, _, _, hcopy3, _⟩ := key.2.2.2
  exact ⟨key.1.1, key.1.2.1.trans (by decide), key.2.1.2.2.1.trans (by decide),
    Cells.reify_of_rep hsrc 4 (by decide), hcopy, Cells.reify_of_rep hcopy3 4 (by decide)⟩

/-! ## Searching after an insertion, chains, and the index of the records -/

namespace Node

variable {T : Type}

/-- Whatever the shape of the tree, `search` after `insert(k)` finds `k` and
otherwise what it found before. -/
theorem search_insert [LinearOrder T] (t : Node T) (k j : T) :
    search (insert t k) j = (decide (j = k) || search t j) := by
  induction t with
  | null =>
    by_cases h : k = j
    · subst h
      simp [insert, search]
    · have h2 : ¬ j = k := fun e => h e.symm
      simp [insert, search, h, h2]
  | mk d l r ihl ihr =>
    unfold insert
    by_cases h1 : k < d
    · rw [if_pos h1]
      unfold search
      by_cases hd : d = j
      · simp [hd]
      · rw [if_neg hd, if_neg hd]
        by_cases hj : j < d
        · rw [if_pos hj, if_pos hj, ihl]
        · rw [if_neg hj, if_neg hj]
          have hjk : ¬ j = k := fun e => hj (e ▸ h1)
          simp [hjk]
    · rw [if_neg h1]
      by_cases h2 : k > d
      · rw [if_pos h2]
        unfold search
        by_cases hd : d = j
        · simp [hd]
        · rw [if_neg hd, if_neg hd]
          by_cases hj : j < d
          · rw [if_pos hj, if_pos hj]
            have hjk : ¬ j = k := fun e => by
              rw [e] at hj
              exact lt_asymm hj h2
            simp [hjk]
          · rw [if_neg hj, if_neg hj, ihr]
      · rw [if_neg h2]
        have hkd : k = d := le_antisymm (not_lt.mp h2) (not_lt.mp h1)
        by_cases hjk : j = k
        · have hs : search (mk d l r) j = true := by
            unfold search
            rw [if_pos (by rw [hjk, hkd])]
          rw [hs]
          simp
        · simp [hjk]

theorem depth_rightChain (ks : List T) : depth (rightChain ks) = ks.length := by
  induction ks with
  | nil => rfl
  | cons k ks ih => simp [rightChain, depth, ih]

theorem noLeftChild_rightChain (ks : List T) : noLeftChild (rightChain ks) = true := by
  induction ks with
  | nil => rfl
  | cons k ks ih => simpa [rightChain, noLeftChild] using ih

theorem size_rightChain (ks : List T) : size (rightChain ks) = ks.length := by
  induction ks with
  | nil => rfl
  | cons k ks ih => simp [rightChain, size, ih]; omega

theorem keys_rightChain (ks : List T) : keys (rightChain ks) = ks := by
  induction ks with
  | nil => rfl
  | cons k ks ih => simp [rightChain, keys, ih]

/-- Inserting a key larger than every key of a chain extends the chain. -/
theorem insert_rightChain [LinearOrder T] (ks : List T) (k : T) (h : ∀ x ∈ ks, x < k) :
    insert (rightChain ks) k = rightChain (ks ++ [k]) := by
  induction ks with
  | nil => rfl
  | cons x xs ih =>
    have hx : x < k := h x (List.mem_cons_self _ _)
    have hnot : ¬ k < x := lt_asymm hx
    simp only [rightChain, List.cons_append, insert, if_neg hnot, if_pos (show k > x from hx)]
    rw [ih (fun y hy => h y (List.mem_cons_of_mem _ hy))]
    rfl

end Node

/-- C34: for every tree, of any shape, and all keys `k` and `j`, `search(j)`
after `insert(k)` is true exactly when `j = k` or `search(j)` was true before:
`insert` makes its key findable and changes the search result of no other
key. -/
theorem C34_search_after_insert {T : Type} [LinearOrder T] (t : BST T) (k j : T) :
    ((t.insert k).search j = true ↔ j = k ∨ t.search j = true) ∧
    (t.insert k).search k = true ∧
    (j ≠ k → (t.insert k).search j = t.search j) := by
  have h := Node.search_insert t.root k j
  refine ⟨?_, ?_, ?_⟩
  · show Node.search (Node.insert t.root k) j = true ↔ j = k ∨ Node.search t.root j = true
    rw [h]
    simp
  · show Node.search (Node.insert t.root k) k = true
    rw [Node.search_insert]
    simp
  · intro hne
    show Node.search (Node.insert t.root k) j = Node.search t.root j
    rw [h]
    simp [hne]

/-- C33: for every strictly increasing sequence of `n` keys (`n >= 1`, and
`n = 0` as well), inserting them in that order into an empty tree produces the
chain of the keys to the right: a tree of depth exactly `n`, with `n` nodes,
in which no node has a left child. -/
theorem C33_increasing_chain {T : Type} [LinearOrder T] (ks : List T)
    (hinc : ks.Pairwise (· < ·)) :
    (BST.insertAll ks).root = Node.rightChain ks ∧
    Node.depth (BST.insertAll ks).root = ks.length ∧
    Node.noLeftChild (BST.insertAll ks).root = true ∧
    Node.size (BST.insertAll ks).root = ks.length := by
  have hchain : (BST.insertAll ks).root = Node.rightChain ks := by
    induction ks using List.reverseRecOn with
    | nil => rfl
    | append_singleton ks k ih =>
      obtain ⟨h1, -, h3⟩ := List.pairwise_append.mp hinc
      rw [BST.insertAll_snoc]
      show Node.insert (BST.insertAll ks).root k = _
      rw [ih h1]
      exact Node.insert_rightChain ks k (fun x hx => h3 x hx k (List.mem_singleton_self k))
  rw [hchain]
  exact ⟨rfl, Node.depth_rightChain ks, Node.noLeftChild_rightChain ks, Node.size_rightChain ks⟩

/-- C33 on the keys 1, 2, 3: the tree is `1 → 2 → 3`, of depth 3. -/
theorem C33_increasing_chain_witness :
    (BST.insertAll [1, 2, 3] : BST Nat).root
      = Node.mk 1 Node.null (Node.mk 2 Node.null (Node.mk 3 Node.null Node.null)) ∧
    Node.depth (BST.insertAll [1, 2, 3] : BST Nat).root = 3 ∧
    Node.noLeftChild (BST.insertAll [1, 2, 3] : BST Nat).root = true :=
  ⟨(C33_increasing_chain [1, 2, 3] (by decide)).1,
   (C33_increasing_chain [1, 2, 3] (by decide)).2.1,
   (C33_increasing_chain [1, 2, 3] (by decide)).2.2.1⟩

theorem StdMap.isSome_find {V : Type} (m : StdMap V) (k : String) :
    (m.find k).isSome = true ↔ ∃ log, (k, log) ∈ m.entries := by
  unfold StdMap.find
  cases h : m.entries.find? (fun p => p.1 == k) with
  | none =>
    simp only [Option.map_none', Option.isSome_none, Bool.false_eq_true, false_iff]
    rintro ⟨log, hlog⟩
    have := List.find?_eq_none.mp h (k, log) hlog
    simp at this
  | some p =>
    simp only [Option.map_some', Option.isSome_some, true_iff]
    have hp := List.find?_some h
    have hmem := List.mem_of_find?_eq_some h
    have hk : p.1 = k := by simpa using hp
    exact ⟨p.2, by rw [← hk]; exact hmem⟩

section Ingestion

variable {F : Type} [FloatOps F]

/-- The index after the insertion steps finds exactly the keys of the
ingested records. -/
theorem search_ingest (ws : List (WeatherEntry F)) (k : String) :
    (ingest ws).1.search k = true ↔ ∃ w ∈ ws, recordKey w.date = k := by
  induction ws using List.reverseRecOn with
  | nil => simp [ingest, BST.empty, BST.search, Node.search]
  | append_singleton ws w ih =>
    rw [ingest_snoc]
    have hstep : (insertionStep (ingest ws) w).1.search k = true
        ↔ k = recordKey w.date ∨ (ingest ws).1.search k = true := by
      simp only [insertionStep]
      by_cases hs : (ingest ws).1.search (recordKey w.date) = true
      · simp only [hs, Bool.not_true, Bool.false_eq_true, if_false]
        constructor
        · exact Or.inr
        · rintro (rfl | h)
          · exact hs
          · exact h
      · simp only [hs, Bool.not_false, if_true]
        show Node.search (Node.insert (ingest ws).1.root (recordKey w.date)) k = true ↔ _
        rw [Node.search_insert]
        simp [BST.search]
    rw [hstep, ih]
    constructor
    · rintro (rfl | ⟨w2, hw2, rfl⟩)
      · exact ⟨w, by simp, rfl⟩
      · exact ⟨w2, by simp [hw2], rfl⟩
    · rintro ⟨w2, hw2, rfl⟩
      rcases List.mem_append.mp hw2 with h | h
      · exact Or.inr ⟨w2, h, rfl⟩
      · rw [List.mem_singleton.mp h]
        exact Or.inl rfl

/-- The index after the insertion steps is a search tree. -/
theorem ordered_ingest (ws : List (WeatherEntry F)) : Node.Ordered (ingest ws).1.root := by
  induction ws using List.reverseRecOn with
  | nil => exact trivial
  | append_singleton ws w ih =>
    rw [ingest_snoc]
    simp only [insertionStep]
    split_ifs
    · exact Node.ordered_insert _ _ ih
    · exact ih

/-- The mapping after the insertion steps has an entry exactly for the keys
of the ingested records. -/
theorem mem_entries_ingest (ws : List (WeatherEntry F)) (k : String) :
    (∃ log, (k, log) ∈ (ingest ws).2.entries) ↔ ∃ w ∈ ws, recordKey w.date = k := by
  have hfind := find_ingest ws k
  have hiff : (∃ log, (k, log) ∈ (ingest ws).2.entries) ↔ ((ingest ws).2.find k).isSome = true :=
    (StdMap.isSome_find _ k).symm
  rw [hiff, hfind]
  by_cases hnil : (ws.filter (fun w => decide (recordKey w.date = k))).isEmpty = true
  · rw [if_pos hnil]
    have hnone : ¬ ∃ w ∈ ws, recordKey w.date = k := by
      rintro ⟨w, hw, hk⟩
      have : w ∈ ws.filter (fun w => decide (recordKey w.date = k)) :=
        List.mem_filter.mpr ⟨hw, by simpa using hk⟩
      rw [List.isEmpty_iff.mp hnil] at this
      cases this
    simp [hnone]
  · rw [if_neg hnil]
    have hsome : ∃ w ∈ ws, recordKey w.date = k := by
      cases hf : ws.filter (fun w => decide (recordKey w.date = k)) with
      | nil => rw [hf] at hnil; simp at hnil
      | cons w rest =>
        have hw : w ∈ ws.filter (fun w => decide (recordKey w.date = k)) := by
          rw [hf]; exact List.mem_cons_self _ _
        obtain ⟨h1, h2⟩ := List.mem_filter.mp hw
        exact ⟨w, h1, by simpa using h2⟩
    simp [hsome]

end Ingestion

/-- C31: starting from an empty index and an empty mapping, after the
insertion steps of `processCSVLine` for any list of parsed records, the index
and the mapping hold the same key set: for every key `k`, `search(k)` on the
index is true exactly when the mapping has an entry for `k` (and exactly when
some record has the key `k`); the index holds each of its keys in exactly one
node; and the keys of the index in order are the keys of the mapping in
order. -/
theorem C31_index_matches_mapping {F : Type} [FloatOps F] (ws : List (WeatherEntry F))
    (k : String) :
    ((ingest ws).1.search k = true ↔ ∃ log, (k, log) ∈ (ingest ws).2.entries) ∧
    ((ingest ws).1.search k = true ↔ ((ingest ws).2.find k).isSome = true) ∧
    ((ingest ws).1.search k = true ↔ ∃ w ∈ ws, recordKey w.date = k) ∧
    ((ingest ws).1.search k = true → (Node.keys (ingest ws).1.root).count k = 1) ∧
    ((ingest ws).1.search k = false → (Node.keys (ingest ws).1.root).count k = 0) ∧
    (Node.keys (ingest ws).1.root).Nodup ∧
    Node.keys (ingest ws).1.root = (ingest ws).2.entries.map (fun p => p.1) := by
  have hs := search_ingest ws k
  have hm := mem_entries_ingest ws k
  have hord := ordered_ingest ws
  have hsorted := Node.sorted_keys _ hord
  have hnodup : (Node.keys (ingest ws).1.root).Nodup := hsorted.nodup
  have hmem := Node.search_iff_mem _ hord k
  have hentries : ((ingest ws).2.entries.map (fun p => p.1)).Sorted (· < ·) := by
    have := (ingest ws).2.sorted
    simp only [List.Sorted, List.pairwise_map]
    exact this.imp (fun h => String.lt_iff_toList_lt.mpr h)
  refine ⟨hs.trans hm.symm, ?_, hs, ?_, ?_, hnodup, ?_⟩
  · rw [hs, ← hm]
    exact (StdMap.isSome_find _ k).symm
  · intro h
    exact List.count_eq_one_of_mem hnodup (hmem.mp h)
  · intro h
    apply List.count_eq_zero_of_not_mem
    intro hin
    have := hmem.mpr hin
    rw [BST.search] at h
    rw [h] at this
    cases this
  · apply List.eq_of_perm_of_sorted _ hsorted hentries
    apply (List.perm_ext_iff_of_nodup hnodup hentries.nodup).mpr
    intro a
    rw [← Node.search_iff_mem _ hord a]
    have h1 := search_ingest ws a
    have h2 := mem_entries_ingest ws a
    rw [BST.search] at h1
    rw [h1, ← h2]
    simp only [List.mem_map]
    constructor
    · rintro ⟨log, hlog⟩
      exact ⟨(a, log), hlog, rfl⟩
    · rintro ⟨p, hp, rfl⟩
      exact ⟨p.2, hp⟩

/-- C35, evaluated at `Vector<T>(-3, 7)`: the constructor sets `size` to `-3`
and `capacity` to `1`, so `GetSize()` is negative on a vector the constructor
built; `pushBack` then finds `size != capacity`, does not resize and writes at
index `-3`, outside `[0, capacity)`; after it `GetSize()` is `-2`. -/
theorem C35_negative_size_evaluated :
    Vector.Reachable (Vector.newFilled (-3) 7 : Vector Nat) ∧
    (Vector.newFilled (-3) 7 : Vector Nat).GetSize = -3 ∧
    (Vector.newFilled (-3) 7 : Vector Nat).capacity = 1 ∧
    ¬ (0 ≤ (Vector.newFilled (-3) 7 : Vector Nat).GetSize) ∧
    (Vector.newFilled (-3) 7 : Vector Nat).pushBackIndex = -3 ∧
    ¬ (0 ≤ (Vector.newFilled (-3) 7 : Vector Nat).pushBackIndex ∧
        (Vector.newFilled (-3) 7 : Vector Nat).pushBackIndex
          < (Vector.newFilled (-3) 7 : Vector Nat).capacity) ∧
    ((Vector.newFilled (-3) 7 : Vector Nat).pushBack 9).GetSize = -2 ∧
    (Vector.new (-3) : Vector Nat).GetSize = 0 :=
  ⟨Vector.Reachable.newFilled (-3) 7 (by decide) (by decide), by decide, by decide, by decide,
    by decide, by decide, by decide, by decide⟩

/-- C36, evaluated on the index and the mapping `processCSVLine` builds from
one line under the header `WAST,S,T,SR`: the line `1/07/5 09:45,3,20,50` is
accepted (`Date::SetYear` accepts the year 5), its key is `5-07`, and
`getRecordsByMonth` leaves by the `std::out_of_range` of `key.substr(5,2)`;
the line `1/07/25 09:45,3,20,50` gives the key `25-07`, of which
`substr(5,2)` is empty, and `getRecordsByMonth` leaves by the
`std::invalid_argument` of `std::stoi`; for the line
`1/07/2016 09:45,3,20,50` it returns the record. -/
theorem C36_getRecordsByMonth_throws :
    (parseLines sampleStof sampleIndeterminate (buildColumnMap "WAST,S,T,SR")
        ["1/07/5 09:45,3,20,50"]).2.entries.map (fun p => p.1) = ["5-07"] ∧
    getRecordsByMonth
        (parseLines sampleStof sampleIndeterminate (buildColumnMap "WAST,S,T,SR")
          ["1/07/5 09:45,3,20,50"]).1
        (parseLines sampleStof sampleIndeterminate (buildColumnMap "WAST,S,T,SR")
          ["1/07/5 09:45,3,20,50"]).2 7
      = Except.error (Exn.out_of_range "basic_string::substr") ∧
    (parseLines sampleStof sampleIndeterminate (buildColumnMap "WAST,S,T,SR")
        ["1/07/25 09:45,3,20,50"]).2.entries.map (fun p => p.1) = ["25-07"] ∧
    getRecordsByMonth
        (parseLines sampleStof sampleIndeterminate (buildColumnMap "WAST,S,T,SR")
          ["1/07/25 09:45,3,20,50"]).1
        (parseLines sampleStof sampleIndeterminate (buildColumnMap "WAST,S,T,SR")
          ["1/07/25 09:45,3,20,50"]).2 7
      = Except.error (Exn.invalid_argument "stoi") ∧
    (getRecordsByMonth
        (parseLines sampleStof sampleIndeterminate (buildColumnMap "WAST,S,T,SR")
          ["1/07/2016 09:45,3,20,50"]).1
        (parseLines sampleStof sampleIndeterminate (buildColumnMap "WAST,S,T,SR")
          ["1/07/2016 09:45,3,20,50"]).2 7).map Vector.elems
      = Except.ok [{ date := { day := 1, month := 7, year := 2016 },
                     time := { hour := 9, minute := 45 }, windSpeed := ExtRat.fin 3,
                     temperature := ExtRat.fin 20, solarRadiation := ExtRat.fin 50 }] ∧
    recordKey { day := 1, month := 7, year := 5 } = "5-07" ∧
    getRecordsByMonth (ingest [sampleRecord 5 7 1 (ExtRat.fin 50)]).1
        (ingest [sampleRecord 5 7 1 (ExtRat.fin 50)]).2 7
      = Except.error (Exn.out_of_range "basic_string::substr") :=
  ⟨rfl, rfl, rfl, rfl, rfl, rfl, rfl⟩

/-! ## Properties of `processCSVLine` -/

theorem StdMap.atConst_ok {V : Type} (m : StdMap V) (key : String) (v : V)
    (h : m.atConst key = Except.ok v) : m.find key = some v := by
  unfold StdMap.atConst at h
  cases hf : m.find key with
  | none => rw [hf] at h; cases h
  | some x =>
    rw [hf] at h
    cases h
    rfl

/-- A date `parseDate` returns has its day in 1..31 and its month in 1..12. -/
theorem parseDate_ok (u : Indeterminate) (dateStr : String) (d : Date)
    (h : parseDate u dateStr = Except.ok d) :
    1 ≤ d.day ∧ d.day ≤ 31 ∧ 1 ≤ d.month ∧ d.month ≤ 12 := by
  unfold parseDate at h
  simp only [Date.SetDay, Date.SetMonth, Date.SetYear, Date.new, bind, Except.bind, pure,
    Except.pure, throw, throwThe, MonadExceptOf.throw] at h
  split_ifs at h with h1 h2 h3
  cases h
  simp only
  omega

/-- A time `parseTime` returns has its hour in 0..23 and its minute in
0..59. -/
theorem parseTime_ok (u : Indeterminate) (timeStr : String) (t : MyTime)
    (h : parseTime u timeStr = Except.ok t) :
    0 ≤ t.hour ∧ t.hour ≤ 23 ∧ 0 ≤ t.minute ∧ t.minute ≤ 59 := by
  unfold parseTime at h
  simp only [MyTime.SetHour, MyTime.SetMinute, MyTime.new, bind, Except.bind, pure,
    Except.pure, throw, throwThe, MonadExceptOf.throw] at h
  split_ifs at h with h1 h2 h3
  cases h
  simp only
  omega

section ProcessCSVLine

variable {F : Type} [FloatOps F]

/-- What a reading that `readField` returns comes from: the column is in the
header, the line has the cell, and the cell is empty or accepted by
`std::stof`. -/
theorem readField_ok (stof : String → Except Exn F) (fields : Vector String)
    (colMap : StdMap Int) (name : String) (x : F)
    (h : readField stof fields colMap name = Except.ok x) :
    ∃ i cell, colMap.find name = some i ∧ fields.index i = Except.ok cell ∧
      ((cell.data = [] ∧ x = FloatOps.nan) ∨ (cell.data ≠ [] ∧ stof cell = Except.ok x)) := by
  unfold readField at h
  cases h1 : colMap.atConst name with
  | error e => simp [h1, bind, Except.bind] at h
  | ok i =>
    cases h2 : fields.index i with
    | error e => simp [h1, h2, bind, Except.bind] at h
    | ok cell =>
      simp only [h1, h2, bind, Except.bind] at h
      refine ⟨i, cell, StdMap.atConst_ok _ _ _ h1, h2, ?_⟩
      by_cases hc : cell.data = []
      · rw [if_pos hc] at h
        cases h
        exact Or.inl ⟨hc, rfl⟩
      · rw [if_neg hc] at h
        exact Or.inr ⟨hc, h⟩

/-- What a record that `parseRecord` returns comes from: every statement
before the insertion step has completed. -/
theorem parseRecord_ok (stof : String → Except Exn F) (u : Indeterminate) (line : String)
    (colMap : StdMap Int) (w : WeatherEntry F)
    (h : parseRecord stof u line colMap = Except.ok w) :
    ∃ iw dateTimeStr, colMap.find "WAST" = some iw ∧
      (lineFields line).index iw = Except.ok dateTimeStr ∧
      parseDate u (datePart dateTimeStr) = Except.ok w.date ∧
      parseTime u (timePart dateTimeStr) = Except.ok w.time ∧
      readField stof (lineFields line) colMap "S" = Except.ok w.windSpeed ∧
      readField stof (lineFields line) colMap "T" = Except.ok w.temperature ∧
      readField stof (lineFields line) colMap "SR" = Except.ok w.solarRadiation := by
  unfold parseRecord at h
  cases h1 : colMap.atConst "WAST" with
  | error e => simp [h1, bind, Except.bind] at h
  | ok iw =>
    cases h2 : (lineFields line).index iw with
    | error e => simp [h1, h2, bind, Except.bind] at h
    | ok dts =>
      cases h3 : parseDate u (datePart dts) with
      | error e => simp [h1, h2, h3, bind, Except.bind] at h
      | ok date =>
        cases h4 : parseTime u (timePart dts) with
        | error e => simp [h1, h2, h3, h4, bind, Except.bind] at h
        | ok time =>
          cases h5 : readField stof (lineFields line) colMap "S" with
          | error e => simp [h1, h2, h3, h4, h5, bind, Except.bind] at h
          | ok wind =>
            cases h6 : readField stof (lineFields line) colMap "T" with
            | error e => simp [h1, h2, h3, h4, h5, h6, bind, Except.bind] at h
            | ok temp =>
              cases h7 : readField stof (lineFields line) colMap "SR" with
              | error e => simp [h1, h2, h3, h4, h5, h6, h7, bind, Except.bind] at h
              | ok solar =>
                simp only [h1, h2, h3, h4, h5, h6, h7, bind, Except.bind, pure, Except.pure] at h
                cases h
                exact ⟨iw, dts, StdMap.atConst_ok _ _ _ h1, h2, h3, h4, rfl, rfl, rfl⟩

theorem processCSVLine_of_error (stof : String → Except Exn F) (u : Indeterminate)
    (line : String) (colMap : StdMap Int) (state : BST String × StdMap (WeatherLog F))
    (h : ∀ w, parseRecord stof u line colMap ≠ Except.ok w) :
    processCSVLine stof u line colMap state = state := by
  unfold processCSVLine
  cases hp : parseRecord stof u line colMap with
  | error e => rfl
  | ok w => exact absurd hp (h w)

end ProcessCSVLine

/-- C37: `processCSVLine` leaves the index and the mapping exactly as they
were whenever its `try` block is left by an exception, and so for every line
that is skipped because a required column is missing from the header or from
the line, because the date or the time does not parse or is out of range, or
because a reading that is not empty is rejected by `std::stof`.  A line that
is not skipped has a day in 1..31, a month in 1..12, an hour in 0..23 and a
minute in 0..59, and for it the call is the insertion step. -/
theorem C37_processCSVLine_atomic {F : Type} [FloatOps F] (stof : String → Except Exn F)
    (u : Indeterminate) (line : String) (colMap : StdMap Int)
    (state : BST String × StdMap (WeatherLog F)) :
    (∀ e, parseRecord stof u line colMap = Except.error e →
      processCSVLine stof u line colMap state = state) ∧
    (∀ name, name = "WAST" ∨ name = "S" ∨ name = "T" ∨ name = "SR" →
      colMap.find name = none → processCSVLine stof u line colMap state = state) ∧
    (∀ name i e, name = "WAST" ∨ name = "S" ∨ name = "T" ∨ name = "SR" →
      colMap.find name = some i → (lineFields line).index i = Except.error e →
      processCSVLine stof u line colMap state = state) ∧
    (∀ i dateTimeStr, colMap.find "WAST" = some i →
      (lineFields line).index i = Except.ok dateTimeStr →
      ((∀ d, parseDate u (datePart dateTimeStr) ≠ Except.ok d) ∨
        (∀ t, parseTime u (timePart dateTimeStr) ≠ Except.ok t)) →
      processCSVLine stof u line colMap state = state) ∧
    (∀ name i cell, name = "S" ∨ name = "T" ∨ name = "SR" →
      colMap.find name = some i → (lineFields line).index i = Except.ok cell →
      cell.data ≠ [] → (∀ x, stof cell ≠ Except.ok x) →
      processCSVLine stof u line colMap state = state) ∧
    (∀ w, parseRecord stof u line colMap = Except.ok w →
      processCSVLine stof u line colMap state = insertionStep state w ∧
      1 ≤ w.date.day ∧ w.date.day ≤ 31 ∧ 1 ≤ w.date.month ∧ w.date.month ≤ 12 ∧
      0 ≤ w.time.hour ∧ w.time.hour ≤ 23 ∧ 0 ≤ w.time.minute ∧ w.time.minute ≤ 59) := by
  have hfield : ∀ w, parseRecord stof u line colMap = Except.ok w →
      ∀ name, name = "WAST" ∨ name = "S" ∨ name = "T" ∨ name = "SR" →
      ∃ i cell, colMap.find name = some i ∧ (lineFields line).index i = Except.ok cell ∧
        (name ≠ "WAST" → cell.data ≠ [] → ∃ x, stof cell = Except.ok x) := by
    intro w hw name hname
    obtain ⟨iw, dts, h1, h2, -, -, h5, h6, h7⟩ := parseRecord_ok stof u line colMap w hw
    have hread : ∀ nm x, readField stof (lineFields line) colMap nm = Except.ok x →
        ∃ i cell, colMap.find nm = some i ∧ (lineFields line).index i = Except.ok cell ∧
          (nm ≠ "WAST" → cell.data ≠ [] → ∃ x, stof cell = Except.ok x) := by
      intro nm x hx
      obtain ⟨i, cell, hi, hc, hor⟩ := readField_ok stof _ colMap nm x hx
      refine ⟨i, cell, hi, hc, fun _ hne => ?_⟩
      rcases hor with ⟨he, -⟩ | ⟨-, hs⟩
      · exact absurd he hne
      · exact ⟨x, hs⟩
    rcases hname with rfl | rfl | rfl | rfl
    · exact ⟨iw, dts, h1, h2, fun h => absurd rfl h⟩
    · exact hread _ _ h5
    · exact hread _ _ h6
    · exact hread _ _ h7
  refine ⟨?_, ?_, ?_, ?_, ?_, ?_⟩
  · intro e he
    unfold processCSVLine
    rw [he]
  · intro name hname hnone
    apply processCSVLine_of_error
    intro w hw
    obtain ⟨i, cell, hi, -, -⟩ := hfield w hw name hname
    rw [hnone] at hi
    cases hi
  · intro name i e hname hi herr
    apply processCSVLine_of_error
    intro w hw
    obtain ⟨j, cell, hj, hc, -⟩ := hfield w hw name hname
    rw [hi] at hj
    cases hj
    rw [herr] at hc
    cases hc
  · intro i dts hi hc hbad
    apply processCSVLine_of_error
    intro w hw
    obtain ⟨iw, dts2, h1, h2, h3, h4, -⟩ := parseRecord_ok stof u line colMap w hw
    rw [hi] at h1
    cases h1
    rw [hc] at h2
    cases h2
    rcases hbad with hd | ht
    · exact hd _ h3
    · exact ht _ h4
  · intro name i cell hname hi hc hne hbad
    apply processCSVLine_of_error
    intro w hw
    have hname2 : name = "WAST" ∨ name = "S" ∨ name = "T" ∨ name = "SR" := Or.inr hname
    have hnw : name ≠ "WAST" := by
      rcases hname with rfl | rfl | rfl <;> decide
    obtain ⟨j, cell2, hj, hc2, hst⟩ := hfield w hw name hname2
    rw [hi] at hj
    cases hj
    rw [hc] at hc2
    cases hc2
    obtain ⟨x, hx⟩ := hst hnw hne
    exact hbad x hx
  · intro w hw
    obtain ⟨iw, dts, -, -, h3, h4, -⟩ := parseRecord_ok stof u line colMap w hw
    obtain ⟨d1, d2, d3, d4⟩ := parseDate_ok u _ _ h3
    refine ⟨?_, d1, d2, d3, d4, parseTime_ok u _ _ h4⟩
    unfold processCSVLine
    rw [hw]

/-- C37 on the header `WAST,S,T,SR`, after one line has been ingested: the
line with the day 32, the line with the reading `x`, the line with two cells
and, for a header without the column `SR`, a complete line leave the index and
the mapping as they were. -/
theorem C37_processCSVLine_atomic_witness :
    processCSVLine sampleStof sampleIndeterminate "32/07/2016 09:45,3,20,50"
        (buildColumnMap "WAST,S,T,SR")
        (parseLines sampleStof sampleIndeterminate (buildColumnMap "WAST,S,T,SR")
          ["15/07/2016 09:45,3,20,50"])
      = parseLines sampleStof sampleIndeterminate (buildColumnMap "WAST,S,T,SR")
          ["15/07/2016 09:45,3,20,50"] ∧
    processCSVLine sampleStof sampleIndeterminate "15/08/2016 09:45,3,x,50"
        (buildColumnMap "WAST,S,T,SR")
        (parseLines sampleStof sampleIndeterminate (buildColumnMap "WAST,S,T,SR")
          ["15/07/2016 09:45,3,20,50"])
      = parseLines sampleStof sampleIndeterminate (buildColumnMap "WAST,S,T,SR")
          ["15/07/2016 09:45,3,20,50"] ∧
    processCSVLine sampleStof sampleIndeterminate "15/08/2016 09:45,3"
        (buildColumnMap "WAST,S,T,SR")
        (parseLines sampleStof sampleIndeterminate (buildColumnMap "WAST,S,T,SR")
          ["15/07/2016 09:45,3,20,50"])
      = parseLines sampleStof sampleIndeterminate (buildColumnMap "WAST,S,T,SR")
          ["15/07/2016 09:45,3,20,50"] ∧
    processCSVLine sampleStof sampleIndeterminate "15/08/2016 09:45,3,20,50"
        (buildColumnMap "WAST,S,T")
        (parseLines sampleStof sampleIndeterminate (buildColumnMap "WAST,S,T,SR")
          ["15/07/2016 09:45,3,20,50"])
      = parseLines sampleStof sampleIndeterminate (buildColumnMap "WAST,S,T,SR")
          ["15/07/2016 09:45,3,20,50"] ∧
    (parseLines sampleStof sampleIndeterminate (buildColumnMap "WAST,S,T,SR")
        ["15/07/2016 09:45,3,20,50"]).2.entries.map (fun p => p.1) = ["2016-07"] :=
  ⟨(C37_processCSVLine_atomic sampleStof sampleIndeterminate "32/07/2016 09:45,3,20,50"
      (buildColumnMap "WAST,S,T,SR") _).1 (Exn.invalid_argument "Day must be 1-31") rfl,
   (C37_processCSVLine_atomic sampleStof sampleIndeterminate "15/08/2016 09:45,3,x,50"
      (buildColumnMap "WAST,S,T,SR") _).1 (Exn.invalid_argument "stoi") rfl,
   (C37_processCSVLine_atomic sampleStof sampleIndeterminate "15/08/2016 09:45,3"
      (buildColumnMap "WAST,S,T,SR") _).1 (Exn.out_of_range "Index out of range") rfl,
   (C37_processCSVLine_atomic sampleStof sampleIndeterminate "15/08/2016 09:45,3,20,50"
      (buildColumnMap "WAST,S,T") _).2.1 "SR" (Or.inr (Or.inr (Or.inr rfl))) rfl,
   rfl⟩

/-! ## Properties of the mean absolute deviations -/

theorem Vector.index_of_lt {T : Type} [Inhabited T] (v : Vector T) (i : Nat)
    (hi : i < v.size.toNat) : v.index (i : Int) = Except.ok (load v.data (i : Int)) := by
  have : ¬ ((i : Int) < 0 ∨ (i : Int) ≥ v.size) := by omega
  simp only [Vector.index, this, if_false]
  rfl

section WriteMonthStats

open FloatOps

variable {F : Type} [FloatOps F]

/-- The two loops of `writeMonthStats`: a pass that adds `t e` for every
valid `e` and counts the valid entries. -/
theorem mad_loop (t : F → F) (step : (F × Int) → Nat → Except Exn (F × Int)) (data : Vector F)
    (hstep : ∀ i acc, i < data.size.toNat → step acc i
      = Except.ok (if !(isnan (load data.data (i : Int)))
          then (add acc.1 (t (load data.data (i : Int))), acc.2 + 1) else acc)) :
    (List.range data.GetSize.toNat).foldlM step (zero, 0)
      = Except.ok (fsum ((validEntries data).map t), ((validEntries data).length : Int)) := by
  rw [foldlM_eq_ok_foldl step
    (fun (acc : F × Int) e => if !(isnan e) then (add acc.1 (t e), acc.2 + 1) else acc)
    (fun (i : Nat) => load data.data (i : Int))]
  · rw [foldl_valid t]
    simp [validEntries, Vector.elems, Vector.GetSize, fsum]
  · intro i hi acc
    exact hstep i acc (List.mem_range.mp hi)

theorem tempMad_eq (temp : Vector F) : tempMad temp = Except.ok (madOfSeries temp) := by
  unfold tempMad
  rw [mean_eq_meanSpec]
  simp only [bind, Except.bind]
  rw [mad_loop (fun v => abs (sub v (meanSpec temp))) _ temp]
  · unfold madOfSeries madSpec
    by_cases h : (validEntries temp).length = 0
    · have h0 : validEntries temp = [] := List.length_eq_zero.mp h
      simp [h0, fsum, pure, Except.pure]
    · have hpos : ((validEntries temp).length : Int) > 0 := by omega
      simp [h, hpos, pure, Except.pure]
  · intro i acc hi
    rw [tempMadStep, Vector.index_of_lt temp i hi]
    simp only [bind, Except.bind]
    split_ifs <;> rfl

theorem windMad_eq (k : F) (wind : Vector F) :
    windMad k wind = Except.ok (windMadSpec k wind) := by
  unfold windMad
  rw [mean_eq_meanSpec]
  simp only [bind, Except.bind]
  rw [mad_loop (fun v => abs (sub (mul v k) (mul (meanSpec wind) k))) _ wind]
  · unfold windMadSpec
    by_cases h : (validEntries wind).length = 0
    · have h0 : validEntries wind = [] := List.length_eq_zero.mp h
      simp [h0, fsum, pure, Except.pure]
    · have hpos : ((validEntries wind).length : Int) > 0 := by omega
      simp [h, hpos, pure, Except.pure]
  · intro i acc hi
    rw [windMadStep, Vector.index_of_lt wind i hi]
    simp only [bind, Except.bind]
    split_ifs <;> rfl

end WriteMonthStats

set_option maxRecDepth 100000 in
unseal Rat.add Rat.mul Rat.inv Rat.sub in
/-- C32, counterexample: for the wind-speed series `[1, 3]`, in exact
arithmetic with the factor `3.6`, `writeMonthStats` computes `wMad = 3.6`,
while the mean of `|value - mean(values)|` is `1`.  Nor is `wMad` the mean
absolute deviation of the converted series about its own mean: in binary32,
for the series `[2, 15]` and the factor `3.6f`, `wMad` is `12268339 / 2^19`
and the mean absolute deviation of `[2 * 3.6f, 15 * 3.6f]` is
`12268340 / 2^19`. -/
theorem C32_wind_mad_counterexample :
    windMad (ExtRat.fin (18 / 5)) (Vector.mk [ExtRat.fin 1, ExtRat.fin 3] 2 2)
      = Except.ok (ExtRat.fin (18 / 5)) ∧
    madOfSeries (Vector.mk [ExtRat.fin 1, ExtRat.fin 3] 2 2) = ExtRat.fin 1 ∧
    windMad (ExtRat.fin (18 / 5)) (Vector.mk [ExtRat.fin 1, ExtRat.fin 3] 2 2)
      ≠ Except.ok (madOfSeries (Vector.mk [ExtRat.fin 1, ExtRat.fin 3] 2 2)) ∧
    windMad (F32.lit (18 / 5)) (Vector.mk [F32.lit 2, F32.lit 15] 2 2)
      = Except.ok (F32.lit (12268339 / 524288)) ∧
    madOfSeries (Vector.mk [FloatOps.mul (F32.lit 2) (F32.lit (18 / 5)),
        FloatOps.mul (F32.lit 15) (F32.lit (18 / 5))] 2 2)
      = F32.lit (12268340 / 524288) ∧
    F32.lit (12268339 / 524288) ≠ F32.lit (12268340 / 524288) := by
  have h1 : windMad (ExtRat.fin (18 / 5)) (Vector.mk [ExtRat.fin 1, ExtRat.fin 3] 2 2)
      = Except.ok (ExtRat.fin (18 / 5)) :=
    (windMad_eq _ _).trans (congrArg Except.ok (by decide))
  have h2 : madOfSeries (Vector.mk [ExtRat.fin 1, ExtRat.fin 3] 2 2) = ExtRat.fin 1 := by decide
  refine ⟨h1, h2, ?_, (windMad_eq _ _).trans (congrArg Except.ok (by decide)), by decide,
    by decide⟩
  rw [h1, h2]
  intro h
  have h3 : ExtRat.fin (18 / 5) = ExtRat.fin 1 := Except.ok.inj h
  exact absurd h3 (by decide)

/-- C32, amended: for every temperature series, the `tMad` that
`writeMonthStats` computes is the mean of `|value - mean(values)|` over the
non-sentinel entries; for every wind-speed series, the `wMad` it computes is
the mean of `|value * 3.6f - mean(values) * 3.6f|` over the non-sentinel
entries; each is 0 when the series has no non-sentinel entry. -/
theorem C32_mad {F : Type} [FloatOps F] (k : F) (wind temp : Vector F) :
    tempMad temp = Except.ok (madOfSeries temp) ∧
    (validEntries temp = [] → tempMad temp = Except.ok FloatOps.zero) ∧
    (validEntries temp ≠ [] → tempMad temp = Except.ok
      (FloatOps.div
        (fsum ((validEntries temp).map (fun v => FloatOps.abs (FloatOps.sub v (meanSpec temp)))))
        (FloatOps.ofInt (validEntries temp).length))) ∧
    windMad k wind = Except.ok (windMadSpec k wind) ∧
    (validEntries wind = [] → windMad k wind = Except.ok FloatOps.zero) ∧
    (validEntries wind ≠ [] → windMad k wind = Except.ok
      (FloatOps.div
        (fsum ((validEntries wind).map (fun v =>
          FloatOps.abs (FloatOps.sub (FloatOps.mul v k) (FloatOps.mul (meanSpec wind) k)))))
        (FloatOps.ofInt (validEntries wind).length))) := by
  have ht := tempMad_eq temp
  have hw := windMad_eq k wind
  refine ⟨ht, fun h => ?_, fun h => ?_, hw, fun h => ?_, fun h => ?_⟩
  · rw [ht, madOfSeries, madSpec, h]
    rfl
  · rw [ht, madOfSeries, madSpec, if_neg (fun h0 => h (List.length_eq_zero.mp h0))]
  · rw [hw, windMadSpec, h]
    rfl
  · rw [hw, windMadSpec, if_neg (fun h0 => h (List.length_eq_zero.mp h0))]

unseal Rat.add Rat.mul Rat.inv Rat.sub in
/-- C32 on the temperatures `[20, NaN, 24]`, whose mean is 22 and whose mean
absolute deviation is 2, on a series of two sentinels, for which `tMad` and
`wMad` are 0 and not the sentinel, and on the wind speeds `[1, NaN, 3]` with
the factor `3.6`. -/
theorem C32_mad_witness :
    tempMad (Vector.mk [ExtRat.fin 20, ExtRat.nan, ExtRat.fin 24] 3 3)
      = Except.ok (ExtRat.fin 2) ∧
    tempMad (Vector.mk [ExtRat.nan, ExtRat.nan] 2 2) = Except.ok (ExtRat.fin 0) ∧
    windMad (ExtRat.fin (18 / 5)) (Vector.mk [ExtRat.nan, ExtRat.nan] 2 2)
      = Except.ok (ExtRat.fin 0) ∧
    FloatOps.isnan (ExtRat.fin 0) = false ∧
    windMad (ExtRat.fin (18 / 5)) (Vector.mk [ExtRat.fin 1, ExtRat.nan, ExtRat.fin 3] 3 3)
      = Except.ok (ExtRat.fin (18 / 5)) :=
  ⟨((C32_mad (ExtRat.fin (18 / 5)) (Vector.mk [ExtRat.nan] 1 1)
        (Vector.mk [ExtRat.fin 20, ExtRat.nan, ExtRat.fin 24] 3 3)).2.2.1 (by decide)).trans
      (congrArg Except.ok (by decide)),
   (C32_mad (ExtRat.fin (18 / 5)) (Vector.mk [ExtRat.nan, ExtRat.nan] 2 2)
      (Vector.mk [ExtRat.nan, ExtRat.nan] 2 2)).2.1 (by decide),
   (C32_mad (ExtRat.fin (18 / 5)) (Vector.mk [ExtRat.nan, ExtRat.nan] 2 2)
      (Vector.mk [ExtRat.nan, ExtRat.nan] 2 2)).2.2.2.2.1 (by decide),
   by decide,
   ((C32_mad (ExtRat.fin (18 / 5)) (Vector.mk [ExtRat.fin 1, ExtRat.nan, ExtRat.fin 3] 3 3)
        (Vector.mk [ExtRat.nan] 1 1)).2.2.2.2.2 (by decide)).trans
      (congrArg Except.ok (by decide))⟩

end WeatherStats
